import Mathlib

/-!
Verification of the scoutfs btree core (`src/btree.c`).

The development shallow-embeds the btree block layout and its operations.
Machine integers are modelled as `Nat` (with explicit bounds where that
matters); little-endian fields are modelled by their numeric values; the
byte region holding the items of a block is modelled by the list
`entries : List (Nat × Item)`, one pair `(offset, item)` per slot of the
on-disk `item_offs` array, kept in the array's order (key-sorted order
for well-formed blocks).

External collaborators that are not part of `src/` (the key module, the
block manager and the size constants from `format.h`) are modelled from
the spec; each such definition carries a doc comment saying so.
-/

/-- Modelled from the spec: `SCOUTFS_BLOCK_SIZE` from `format.h` is not under
`src/`; the spec gives "fixed-size (BLOCK_SIZE, e.g. 4096)". -/
def SCOUTFS_BLOCK_SIZE : Nat := 4096

/-- Modelled from the spec: the byte offset of `item_offs` inside a btree
block, i.e. `offsetof(struct scoutfs_btree_block, item_offs)`.  The spec's
layout is a common header `{blkno:u64, seq:u64}` (16 bytes) followed by
`nr_items:u16`, `free_end:u16`, `free_reclaim:u16`. -/
def BTREE_HDR_SIZE : Nat := 22

/-- Modelled from the spec: `sizeof(struct scoutfs_btree_item)`, the item
header `{key, seq:u64, val_len:u16}` with the fixed-size key modelled as a
u64 (8 bytes), so 8 + 8 + 2. -/
def ITEM_HDR_SIZE : Nat := 18

/-- Size of one slot of the `item_offs` array (a `__le16`). -/
def OFF_SIZE : Nat := 2

/-- Modelled from the spec: `sizeof(struct scoutfs_block_ref)` =
`{blkno:u64, seq:u64}` = 16 bytes. -/
def REF_SIZE : Nat := 16

/-- Modelled from the spec: `SCOUTFS_BTREE_FREE_LIMIT` from `format.h` is not
under `src/`; the spec says it is a byte threshold well below half a block,
"around 1/8 of block size". -/
def SCOUTFS_BTREE_FREE_LIMIT : Nat := SCOUTFS_BLOCK_SIZE / 8

/-!
Modelled from the spec: keys come from the external key module, which
provides fixed-size keys with a total order, a maximum-key sentinel and a
successor operation.  Keys are modelled as naturals throughout.
-/

/-- Modelled from the spec: the maximum-key sentinel (`scoutfs_set_max_key`),
the all-ones value of an 8-byte key. -/
def SCOUTFS_MAX_KEY : Nat := 2 ^ 64 - 1

/-- Modelled from the spec: the key module's total order,
`scoutfs_key_cmp`, returning a negative, zero or positive sign. -/
def scoutfs_key_cmp (a b : Nat) : Int :=
  if a < b then -1 else if b < a then 1 else 0

/-- Modelled from the spec: the key module's successor operation
(`scoutfs_inc_key`). -/
def scoutfs_inc_key (k : Nat) : Nat := k + 1

/-- A block reference `(blkno, seq)` as embedded in parent item values and
in the root. -/
structure BRef where
  blkno : Nat
  seq : Nat
deriving DecidableEq, Repr

/-- An item value: a leaf payload (byte list) or, for parent items, exactly
one block reference. -/
inductive Val where
  | bytes : List Nat → Val
  | bref : BRef → Val
deriving DecidableEq, Repr

/-- The `val_len` of a value: payload length, or `sizeof(block_ref)`. -/
def Val.len : Val → Nat
  | .bytes l => l.length
  | .bref _ => REF_SIZE

/-- One btree item: key, per-item sequence number, and value
(`struct scoutfs_btree_item` plus its value bytes). -/
structure Item where
  key : Nat
  seq : Nat
  val : Val
deriving DecidableEq, Repr

/-- A btree block (`struct scoutfs_btree_block`).  `entries` models the
`item_offs` array in array order together with the item stored at each
offset; `blkno` and `seq` are the fields of the common block header. -/
structure Block where
  blkno : Nat
  seq : Nat
  free_end : Nat
  free_reclaim : Nat
  entries : List (Nat × Item)
deriving DecidableEq, Repr

/-- Number of contiguous bytes used by an item header and a value of the
given length (`val_bytes`). -/
def val_bytes (val_len : Nat) : Nat := ITEM_HDR_SIZE + val_len

/-- Bytes used by an item header and its current value (`item_bytes`). -/
def item_bytes (it : Item) : Nat := val_bytes it.val.len

/-- Total bytes consumed by an item with the given val len: offset slot,
header, value (`all_val_bytes`). -/
def all_val_bytes (val_len : Nat) : Nat := OFF_SIZE + val_bytes val_len

/-- Total bytes consumed by an item with its current value
(`all_item_bytes`). -/
def all_item_bytes (it : Item) : Nat := all_val_bytes it.val.len

/-- The `nr_items` field, implicit in the entries list. -/
def Block.nr_items (bt : Block) : Nat := bt.entries.length

/-- Contiguous free bytes between the offset array and the first item
(`contig_free`). -/
def contig_free (bt : Block) : Nat :=
  bt.free_end - (BTREE_HDR_SIZE + OFF_SIZE * bt.nr_items)

/-- Contiguous bytes free after reclaiming fragmented free space
(`reclaimable_free`). -/
def reclaimable_free (bt : Block) : Nat :=
  contig_free bt + bt.free_reclaim

/-- All bytes used by item offsets, headers, and values (`used_total`). -/
def used_total (bt : Block) : Nat :=
  SCOUTFS_BLOCK_SIZE - BTREE_HDR_SIZE - reclaimable_free bt

/-- The item at a sorted position (`pos_item`); a default item stands in for
the out-of-bounds reads the C callers must avoid. -/
def pos_item (bt : Block) (pos : Nat) : Item :=
  match bt.entries.get? pos with
  | some e => e.2
  | none => ⟨0, 0, .bytes []⟩

/-- The greatest key in a block (`greatest_key`): the key of the last item. -/
def greatest_key (bt : Block) : Nat := (pos_item bt (bt.nr_items - 1)).key

/-- Loop of `find_pos`: binary search over `[start, e)` carrying the last
visited position and comparison exactly as the C loop does.  The first
argument is fuel, set to the bound `e - start` that makes the C loop
terminate; it is never exhausted (each round shrinks `e - start`), and the
structural recursion lets the kernel evaluate the search. -/
def find_pos_loop (bt : Block) (key : Nat) :
    Nat → Nat → Nat → Nat → Int → Nat × Int
  | 0, _, _, pos, cmp => (pos, cmp)
  | fuel + 1, start, e, pos, cmp =>
    if start < e then
      let p := start + (e - start) / 2
      let c := scoutfs_key_cmp key (pos_item bt p).key
      if c < 0 then
        find_pos_loop bt key fuel start p p c
      else if 0 < c then
        find_pos_loop bt key fuel (p + 1) e (p + 1) (-1)
      else
        (p, c)
    else
      (pos, cmp)

/-- Binary search for the sorted position an item with the given key should
occupy (`find_pos`); also yields the final comparison result. -/
def find_pos (bt : Block) (key : Nat) : Nat × Int :=
  find_pos_loop bt key bt.nr_items 0 bt.nr_items 0 (-1)

/-- Allocate and insert a new item into the block (`create_item`).  The value
bytes are uninitialized in the C; they are modelled as zero bytes that the
caller overwrites. -/
def create_item (bt : Block) (pos : Nat) (key : Nat) (val_len : Nat) : Block :=
  let fe := bt.free_end - val_bytes val_len
  { bt with
    free_end := fe
    entries := bt.entries.insertIdx pos
      (fe, ⟨key, bt.seq, .bytes (List.replicate val_len 0)⟩) }

/-- Overwrite the item stored at a position, keeping its offset: the
`memcpy(to, from, item_bytes(from))` which follows `create_item` in
`move_items`. -/
def put_item (bt : Block) (pos : Nat) (it : Item) : Block :=
  match bt.entries.get? pos with
  | some e => { bt with entries := bt.entries.set pos (e.1, it) }
  | none => bt

/-- Delete an item from a btree block (`delete_item`), recording the bytes it
frees in `free_reclaim`.  The C also zero-fills the item's byte range, which
has no observable counterpart here. -/
def delete_item (bt : Block) (pos : Nat) : Block :=
  match bt.entries.get? pos with
  | some e =>
    { bt with
      entries := bt.entries.eraseIdx pos
      free_reclaim := bt.free_reclaim + item_bytes e.2 }
  | none => bt

/-- Deleting an in-bounds item shrinks the block. -/
theorem delete_item_nr_lt (bt : Block) (pos : Nat) (h : pos < bt.nr_items) :
    (delete_item bt pos).nr_items < bt.nr_items := by
  unfold delete_item Block.nr_items at *
  cases hg : bt.entries.get? pos with
  | none =>
    rw [List.get?_eq_none] at hg
    omega
  | some e =>
    simp only [List.length_eraseIdx, if_pos h]
    omega

/-- Loop of `move_items`.  `f` is the source index (a C `unsigned` that wraps
below zero, modelled as an `Int` with the `0 ≤ f` guard), `t` the destination
index, `to_move` the remaining byte budget (a C `int` that may go negative).
The fuel is set to the bound that makes the C loop terminate (the source
shrinks every round) and is never exhausted. -/
def move_items_loop (mr : Bool) :
    Nat → Block → Block → Int → Nat → Int → Block × Block
  | 0, dst, src, _, _, _ => (dst, src)
  | fuel + 1, dst, src, f, t, to_move =>
    if 0 ≤ f ∧ f.toNat < src.nr_items ∧ 0 < to_move then
      let from_it := pos_item src f.toNat
      let dst' := put_item (create_item dst t from_it.key from_it.val.len) t from_it
      let to_move' := to_move - all_item_bytes from_it
      let src' := delete_item src f.toNat
      if mr then
        move_items_loop mr fuel dst' src' (f - 1) t to_move'
      else
        move_items_loop mr fuel dst' src' f (t + 1) to_move'
    else
      (dst, src)

/-- Move items between sibling blocks (`move_items`): from the tail of `src`
to the head of `dst` if `move_right`, else from the head of `src` to the tail
of `dst`, until `to_move` bytes of items have moved or `src` empties. -/
def move_items (dst src : Block) (move_right : Bool) (to_move : Int) :
    Block × Block :=
  if move_right then
    move_items_loop true (src.nr_items + 1) dst src ((src.nr_items : Int) - 1) 0
      to_move
  else
    move_items_loop false (src.nr_items + 1) dst src 0 dst.nr_items to_move

/-- Comparison used to sort the offset array by offset (`sort_off_cmp`). -/
def off_le (a b : Nat × Item) : Bool := a.1 ≤ b.1

/-- Comparison used to re-sort the offset array by key (`sort_key_cmp`). -/
def key_le (a b : Nat × Item) : Bool := a.2.key ≤ b.2.key

/-- The offset-ascending ordering of a block's entries: the first sort of
`compact_items`. -/
def compact_byoff (bt : Block) : List (Nat × Item) :=
  bt.entries.mergeSort off_le

/-- The repacking walk of `compact_items`: walk the offset-sorted entries
from the highest offset down, packing each item against `e` (initially the
block size) and recording its new offset.  Returns the repacked entries in
the same order and the final `end`. -/
def compact_entries : List (Nat × Item) → Nat → List (Nat × Item) × Nat
  | [], e => ([], e)
  | (_, it) :: rest, e =>
    let (rest', e') := compact_entries rest e
    let e2 := e' - item_bytes it
    ((e2, it) :: rest', e2)

/-- The repacked, still offset-ordered entries of `compact_items`. -/
def compact_packed (bt : Block) : List (Nat × Item) :=
  (compact_entries (compact_byoff bt) SCOUTFS_BLOCK_SIZE).1

/-- The final `free_end` produced by `compact_items`. -/
def compact_end (bt : Block) : Nat :=
  (compact_entries (compact_byoff bt) SCOUTFS_BLOCK_SIZE).2

/-- Reclaim fragmented free space by repacking all items against the back of
the block (`compact_items`): sort by offset, repack downward from the end of
the block, clear `free_reclaim`, and re-sort by key. -/
def compact_items (bt : Block) : Block :=
  { bt with
    entries := (compact_packed bt).mergeSort key_le
    free_end := compact_end bt
    free_reclaim := 0 }

/-- The walker operations (`enum` in `btree.c`); `lookup` stands for the
literal `0` that `scoutfs_btree_lookup` and `scoutfs_btree_hole` pass. -/
inductive WalkOp where
  | lookup
  | insert
  | delete
  | next
  | nextSeq
  | dirty
deriving DecidableEq, Repr

/-- Whether an operation descends with dirty (writable) blocks. -/
def WalkOp.isDirtyOp : WalkOp → Bool
  | .insert => true
  | .delete => true
  | .dirty => true
  | _ => false

/-- The sequence number in a parent item's block reference value
(`item_block_ref_seq`); reading it from a non-reference value is undefined
in the C and modelled as zero. -/
def item_block_ref_seq (it : Item) : Nat :=
  match it.val with
  | .bref r => r.seq
  | .bytes _ => 0

/-- Whether to skip an item position while iterating by sequence number
(`skip_pos_seq`): false unless the op is NEXT_SEQ and the position is in
bounds; then stale parent refs (level > 0) or stale leaf items are skipped. -/
def skip_pos_seq (bt : Block) (pos : Nat) (level : Nat) (seq : Nat)
    (op : WalkOp) : Bool :=
  if op ≠ .nextSeq ∨ bt.nr_items ≤ pos then false
  else
    let it := pos_item bt pos
    (decide (0 < level) && decide (item_block_ref_seq it < seq)) ||
    (decide (level = 0) && decide (it.seq < seq))

/-- A position that `skip_pos_seq` accepts is in bounds. -/
theorem skip_pos_seq_lt (bt : Block) (pos level seq : Nat) (op : WalkOp)
    (h : skip_pos_seq bt pos level seq op = true) : pos < bt.nr_items := by
  unfold skip_pos_seq at h
  by_contra hnot
  rw [if_pos (Or.inr (by omega))] at h
  exact Bool.false_ne_true h

/-- Loop of `next_pos_seq`, with fuel set to the bound the skip predicate
enforces (`nr_items + 1`); it is never exhausted. -/
def next_pos_seq_loop (bt : Block) (level seq : Nat) (op : WalkOp) :
    Nat → Nat → Nat
  | 0, pos => pos + 1
  | fuel + 1, pos =>
    if skip_pos_seq bt (pos + 1) level seq op then
      next_pos_seq_loop bt level seq op fuel (pos + 1)
    else
      pos + 1

/-- The next sorted item position, skipping positions with old sequence
numbers (`next_pos_seq`). -/
def next_pos_seq (bt : Block) (pos level seq : Nat) (op : WalkOp) : Nat :=
  next_pos_seq_loop bt level seq op (bt.nr_items + 1) pos

/-- The first item position at or after the given key, skipping old
sequence numbers (`find_pos_after_seq`). -/
def find_pos_after_seq (bt : Block) (key : Nat) (level seq : Nat)
    (op : WalkOp) : Nat :=
  let pos := (find_pos bt key).1
  if skip_pos_seq bt pos level seq op then
    next_pos_seq bt pos level seq op
  else
    pos

/-- Overwrite the value of the item at a position (the `memcpy` into
`item->val` of `create_parent_item`, and the in-place ref update of
`dirty_ref`). -/
def set_item_val (bt : Block) (pos : Nat) (v : Val) : Block :=
  match bt.entries.get? pos with
  | some e => { bt with entries := bt.entries.set pos (e.1, { e.2 with val := v }) }
  | none => bt

/-- Overwrite the key of the item at a position (the separator updates of
`try_merge`). -/
def set_item_key (bt : Block) (pos : Nat) (k : Nat) : Block :=
  match bt.entries.get? pos with
  | some e => { bt with entries := bt.entries.set pos (e.1, { e.2 with key := k }) }
  | none => bt

/-- Overwrite the seq of the item at a position (`item->seq = bt->hdr.seq`
in `scoutfs_btree_update`). -/
def set_item_seq (bt : Block) (pos : Nat) (sq : Nat) : Block :=
  match bt.entries.get? pos with
  | some e => { bt with entries := bt.entries.set pos (e.1, { e.2 with seq := sq }) }
  | none => bt

/-- Read an item's value as the block reference it holds for parent items
(the C reinterprets the value bytes; a non-reference value is undefined
there and modelled as a null reference). -/
def item_bref (it : Item) : BRef :=
  match it.val with
  | .bref r => r
  | .bytes _ => ⟨0, 0⟩

/-- Modelled from the spec: the block manager's cache, mapping block
numbers to blocks. -/
abbrev Store := Nat → Option Block

/-- The btree root record `{height, ref}` owned by the superblock. -/
structure BtreeRoot where
  height : Nat
  ref : BRef
deriving DecidableEq, Repr

/-- The state a btree operation acts on: the block store, the root record,
the allocator cursor (modelled from the spec: `alloc_dirty` hands out
unique block numbers) and the current dirty sequence number (owned by the
external transaction layer). -/
structure TreeState where
  store : Store
  root : BtreeRoot
  next_blkno : Nat
  dirty_seq : Nat

/-- Insert or replace a block in the store, keyed by its block number. -/
def store_put (st : Store) (b : Block) : Store :=
  fun n => if n = b.blkno then some b else st n

/-- Remove a block number from the store. -/
def store_del (st : Store) (n0 : Nat) : Store :=
  fun n => if n = n0 then none else st n

/-- State update storing a block. -/
def TreeState.put (s : TreeState) (b : Block) : TreeState :=
  { s with store := store_put s.store b }

/-- Modelled from the spec: `scoutfs_block_dirty_alloc` plus the header
initialization of `alloc_tree_block`: a unique block number, the current
dirty seq stamped in the header, `free_end` at the block size, no items. -/
def alloc_tree_block (s : TreeState) : Block × TreeState :=
  let b : Block := ⟨s.next_blkno, s.dirty_seq, SCOUTFS_BLOCK_SIZE, 0, []⟩
  (b, { s with store := store_put s.store b, next_blkno := s.next_blkno + 1 })

/-- Modelled from the spec: `scoutfs_buddy_free` returns the block number to
the allocator (`free_tree_block`); the block leaves the store. -/
def free_tree_block (s : TreeState) (blkno : Nat) : TreeState :=
  { s with store := store_del s.store blkno }

/-- Allocate a new tree block and point the root at it (`grow_tree`). -/
def grow_tree (s : TreeState) : Block × TreeState :=
  let (b, s1) := alloc_tree_block s
  (b, { s1 with root := ⟨s1.root.height + 1, ⟨b.blkno, b.seq⟩⟩ })

/-- Where the walker's `ref` pointer points: at the root record's ref, or
inside the value of a parent item. -/
inductive RefLoc where
  | root
  | parent (blkno : Nat) (pos : Nat)
deriving DecidableEq, Repr

/-- Read the block reference a `RefLoc` designates. -/
def read_ref_loc (s : TreeState) (loc : RefLoc) : Option BRef :=
  match loc with
  | .root => some s.root.ref
  | .parent b p =>
    match s.store b with
    | some bt =>
      match bt.entries.get? p with
      | some e => some (item_bref e.2)
      | none => none
    | none => none

/-- Write the block reference a `RefLoc` designates. -/
def write_ref_loc (s : TreeState) (loc : RefLoc) (r : BRef) : TreeState :=
  match loc with
  | .root => { s with root := { s.root with ref := r } }
  | .parent b p =>
    match s.store b with
    | some bt => s.put (set_item_val bt p (.bref r))
    | none => s

/-- Modelled from the spec: `get_block_ref`, backed by the block manager's
`read_ref`/`dirty_ref`.  A dirty fetch stamps the current dirty seq into the
block and updates the ref in place; the copy-on-write cloning the manager
"may" perform is modelled as dirtying in place, a behavior its contract
permits. -/
def get_block_ref (s : TreeState) (loc : RefLoc) (dirty : Bool) :
    Option (Block × TreeState) :=
  match read_ref_loc s loc with
  | none => none
  | some r =>
    match s.store r.blkno with
    | none => none
    | some bt =>
      if dirty then
        let bt' := { bt with seq := s.dirty_seq }
        some (bt', write_ref_loc (s.put bt') loc ⟨bt.blkno, s.dirty_seq⟩)
      else
        some (bt, s)

/-- Create a new item in the parent referencing the child
(`create_parent_item`). -/
def create_parent_item (parent : Block) (pos : Nat) (child : Block)
    (key : Nat) : Block :=
  set_item_val (create_item parent pos key REF_SIZE) pos
    (.bref ⟨child.blkno, child.seq⟩)

/-- The parent `try_split` descends from: the given parent block number and
position when there is one; otherwise `grow_tree` allocates a new parent,
which receives a single item at position 0 referencing the original block
under the maximum-key sentinel. -/
def try_split_parent (s1 : TreeState) (right : Block)
    (parent_info : Option (Nat × Nat)) : Nat × Nat × TreeState :=
  match parent_info with
  | some pi => (pi.1, pi.2, s1)
  | none =>
    let pb1 := create_parent_item (grow_tree s1).1 0 right SCOUTFS_MAX_KEY
    (pb1.blkno, 0, (grow_tree s1).2.put pb1)

/-- Split the fetched block while descending for insertion if it is too full
(`try_split`).  `parent_info` carries the parent block number and position
when there is a parent; the returned block is the one the walk continues
through. -/
def try_split (s : TreeState) (level : Nat) (key : Nat) (val_len0 : Nat)
    (parent_info : Option (Nat × Nat)) (right : Block) : Block × TreeState :=
  let val_len := if level ≠ 0 then REF_SIZE else val_len0
  let all_bytes := all_val_bytes val_len
  if all_bytes ≤ contig_free right then
    (right, s)
  else if all_bytes ≤ reclaimable_free right then
    let r := compact_items right
    (r, s.put r)
  else
    let left0 := (alloc_tree_block s).1
    let pps := try_split_parent (alloc_tree_block s).2 right parent_info
    let lr := move_items left0 right false ((used_total right / 2 : Nat) : Int)
    let s4 := (pps.2.2.put lr.1).put lr.2
    let s5 :=
      match s4.store pps.1 with
      | some p => s4.put (create_parent_item p pps.2.1 lr.1 (greatest_key lr.1))
      | none => s4
    if scoutfs_key_cmp key (greatest_key lr.1) ≤ 0 then
      (lr.1, s5)
    else
      let right2 := if contig_free lr.2 < all_bytes then compact_items lr.2 else lr.2
      (right2, s5.put right2)

/-- Merge items from a sibling into the fetched block while descending for
deletion if it has too much free space (`try_merge`). -/
def try_merge (s : TreeState) (parent_blkno pos : Nat) (bt : Block) :
    Block × TreeState :=
  if reclaimable_free bt ≤ SCOUTFS_BTREE_FREE_LIMIT then
    (bt, s)
  else
    match s.store parent_blkno with
    | none => (bt, s)
    | some parent =>
      let sp := if 0 < pos then (pos - 1, true) else (pos + 1, false)
      match parent.entries.get? sp.1 with
      | none => (bt, s)
      | some ent =>
        let sref := item_bref ent.2
        match s.store sref.blkno with
        | none => (bt, s)
        | some sib0 =>
          let sib1 := { sib0 with seq := s.dirty_seq }
          let parent1 := set_item_val parent sp.1 (.bref ⟨sib0.blkno, s.dirty_seq⟩)
          let s1 := (s.put sib1).put parent1
          let to_move : Int :=
            if used_total sib1 ≤ reclaimable_free bt then used_total sib1
            else (reclaimable_free bt : Int) - SCOUTFS_BTREE_FREE_LIMIT
          let bt1 := if (contig_free bt : Int) < to_move then compact_items bt else bt
          let ms := move_items bt1 sib1 sp.2 to_move
          let parent2 :=
            if sp.2 = false then set_item_key parent1 pos (greatest_key ms.1)
            else parent1
          let ps :=
            if ms.2.nr_items = 0 then
              (delete_item parent2 sp.1, free_tree_block ((s1.put ms.1)) ms.2.blkno)
            else if sp.2 then
              (set_item_key parent2 sp.1 (greatest_key ms.2), (s1.put ms.1).put ms.2)
            else
              (parent2, (s1.put ms.1).put ms.2)
          let s3 := ps.2.put ps.1
          if ps.1.nr_items = 1 then
            let s4 := { s3 with root := ⟨s3.root.height - 1, ⟨ms.1.blkno, ms.1.seq⟩⟩ }
            (ms.1, free_tree_block s4 ps.1.blkno)
          else
            (ms.1, s3)

/-- Errors surfaced by the btree operations. -/
inductive BErr where
  | noent
  | exist
  | nospc
  | io
deriving DecidableEq, Repr

/-- What `btree_walk` produces: the leaf's block number or an error, the
state after any structural changes, and the iteration hint `next_key`. -/
structure WalkRes where
  res : Except BErr Nat
  state : TreeState
  next_key : Nat

/-- The descent loop of `btree_walk`.  `level` is the tree level of the
block about to be fetched (`level` in the C after its decrement); `loc` is
where the ref being followed lives; `pinfo` is the parent block number and
position, when the fetched block has a parent. -/
def walk_loop (key : Nat) (val_len seq : Nat) (op : WalkOp) :
    Nat → TreeState → RefLoc → Option (Nat × Nat) → Nat → WalkRes
  | level, s, loc, pinfo, nk =>
    match get_block_ref s loc op.isDirtyOp with
    | none => ⟨.error .io, s, nk⟩
    | some bs =>
      let ts :=
        if op = .insert then try_split bs.2 level key val_len pinfo bs.1
        else bs
      let tm :=
        if op = .delete then
          match pinfo with
          | some pi => try_merge ts.2 pi.1 pi.2 ts.1
          | none => ts
        else ts
      match level with
      | 0 => ⟨.ok tm.1.blkno, tm.2, nk⟩
      | l + 1 =>
        let pos := find_pos_after_seq tm.1 key (l + 1) seq op
        match tm.1.entries.get? pos with
        | none => ⟨.error (if op = .nextSeq then .noent else .io), tm.2, nk⟩
        | some ent =>
          walk_loop key val_len seq op l tm.2 (.parent tm.1.blkno pos)
            (some (tm.1.blkno, pos)) (scoutfs_inc_key ent.2.key)

/-- Return the leaf block that should contain the given key (`btree_walk`),
with the state after any splits, merges or tree growth, and the next-key
iteration hint. -/
def btree_walk (s : TreeState) (key : Nat) (val_len seq : Nat) (op : WalkOp) :
    WalkRes :=
  let nk := SCOUTFS_MAX_KEY
  if s.root.height = 0 then
    if op = .insert then
      ⟨.error .noent, s, nk⟩
    else
      let bs := grow_tree s
      ⟨.ok bs.1.blkno, bs.2, nk⟩
  else if op = .nextSeq ∧ s.root.ref.seq < seq then
    ⟨.error .noent, s, nk⟩
  else
    walk_loop key val_len seq op (s.root.height - 1) s .root none nk

/-- A cursor: a pinned leaf block number and a position in it.  The key,
seq and value the C cursor caches are read through the store here. -/
abbrev Cursor := Option (Nat × Nat)

/-- The item a seated cursor points at. -/
def curs_item (s : TreeState) (c : Nat × Nat) : Item :=
  match s.store c.1 with
  | some bt => pos_item bt c.2
  | none => ⟨0, 0, .bytes []⟩

/-- Point the caller's cursor at the item if the key is found
(`scoutfs_btree_lookup`). -/
def scoutfs_btree_lookup (s : TreeState) (key : Nat) :
    Except BErr (Nat × Nat) × TreeState :=
  let w := btree_walk s key 0 0 .lookup
  match w.res with
  | .error e => (.error e, w.state)
  | .ok blkno =>
    match w.state.store blkno with
    | none => (.error .io, w.state)
    | some bt =>
      let pc := find_pos bt key
      if pc.2 = 0 then (.ok (blkno, pc.1), w.state)
      else (.error .noent, w.state)

/-- Insert a new item and point the caller's cursor at it
(`scoutfs_btree_insert`); the caller sets the value through the cursor. -/
def scoutfs_btree_insert (s : TreeState) (key : Nat) (val_len : Nat) :
    Except BErr (Nat × Nat) × TreeState :=
  let w := btree_walk s key val_len 0 .insert
  match w.res with
  | .error e => (.error e, w.state)
  | .ok blkno =>
    match w.state.store blkno with
    | none => (.error .io, w.state)
    | some bt =>
      let pc := find_pos bt key
      if pc.2 = 0 then (.error .exist, w.state)
      else (.ok (blkno, pc.1), w.state.put (create_item bt pc.1 key val_len))

/-- Delete an item from the tree (`scoutfs_btree_delete`); deleting the
final item of the final block resets the root to an empty tree and frees
the block. -/
def scoutfs_btree_delete (s : TreeState) (key : Nat) :
    Except BErr Unit × TreeState :=
  let w := btree_walk s key 0 0 .delete
  match w.res with
  | .error e => (.error e, w.state)
  | .ok blkno =>
    match w.state.store blkno with
    | none => (.error .io, w.state)
    | some bt =>
      let pc := find_pos bt key
      if pc.2 = 0 then
        let bt' := delete_item bt pc.1
        let s2 := w.state.put bt'
        if bt'.nr_items = 0 then
          let s3 := { s2 with root := ⟨0, ⟨0, 0⟩⟩ }
          (.ok (), free_tree_block s3 bt'.blkno)
        else
          (.ok (), s2)
      else
        (.error .noent, w.state)

/-- Dirty the blocks leading to a key (`scoutfs_btree_dirty`). -/
def scoutfs_btree_dirty (s : TreeState) (key : Nat) :
    Except BErr Unit × TreeState :=
  let w := btree_walk s key 0 0 .dirty
  match w.res with
  | .error e => (.error e, w.state)
  | .ok blkno =>
    match w.state.store blkno with
    | none => (.error .io, w.state)
    | some bt =>
      if (find_pos bt key).2 = 0 then (.ok (), w.state)
      else (.error .noent, w.state)

/-- Update an existing item in a pre-dirtied path (`scoutfs_btree_update`):
bump its seq to the block's and seat a write cursor. -/
def scoutfs_btree_update (s : TreeState) (key : Nat) :
    Except BErr (Nat × Nat) × TreeState :=
  let w := btree_walk s key 0 0 .dirty
  match w.res with
  | .error e => (.error e, w.state)
  | .ok blkno =>
    match w.state.store blkno with
    | none => (.error .io, w.state)
    | some bt =>
      let pc := find_pos bt key
      if pc.2 = 0 then
        (.ok (blkno, pc.1), w.state.put (set_item_seq bt pc.1 bt.seq))
      else
        (.error .noent, w.state)

/-- Outcome of one `btree_next` call: the 0/1 return with the state and
cursor, an error, or exhaustion of the model's loop fuel (the C loop has no
such bound; `fuel` marks non-termination witnesses). -/
inductive NextOut where
  | out (r : Nat) (s : TreeState) (c : Cursor)
  | err (e : BErr) (s : TreeState)
  | fuel

/-- Outcome of the leaf-searching loop inside `btree_next`. -/
inductive LoopOut where
  | done (s : TreeState) (c : Cursor)
  | err (e : BErr) (s : TreeState)
  | fuel

/-- The leaf-searching loop of `btree_next`: walk to the leaf that should
hold `key`, look for a usable position, and re-enter from `next_key` until
the cursor is seated or `last` is passed. -/
def btree_next_walk (last : Nat) (seq : Nat) (op : WalkOp) :
    Nat → TreeState → Nat → LoopOut
  | 0, _, _ => .fuel
  | fuel + 1, s, key =>
    if scoutfs_key_cmp key last ≤ 0 then
      let w := btree_walk s key 0 seq op
      match w.res with
      | .error .noent =>
        if op = .nextSeq then btree_next_walk last seq op fuel w.state w.next_key
        else .done w.state none
      | .error e => .err e w.state
      | .ok blkno =>
        match w.state.store blkno with
        | none => .err .io w.state
        | some bt =>
          let pos := find_pos_after_seq bt key 0 seq op
          if pos < bt.nr_items then .done w.state (some (blkno, pos))
          else btree_next_walk last seq op fuel w.state w.next_key
    else
      .done s none

/-- Iterate to the next item in `[first, last]` (`btree_next`), continuing
from the cursor when it is seated.  `fuel` bounds the leaf-searching loop;
the C has no such bound. -/
def btree_next (fuel : Nat) (s0 : TreeState) (first last : Nat) (seq : Nat)
    (op : WalkOp) (curs0 : Cursor) : NextOut :=
  if 0 < scoutfs_key_cmp first last then
    .out 0 s0 curs0
  else
    let kc : Nat × Cursor :=
      match curs0 with
      | none => (first, none)
      | some c =>
        match s0.store c.1 with
        | none => (first, none)
        | some bt =>
          let k := scoutfs_inc_key (pos_item bt c.2).key
          let p := next_pos_seq bt c.2 0 seq op
          if p < bt.nr_items then (k, some (c.1, p)) else (k, none)
    let lo : LoopOut :=
      match kc.2 with
      | some c => .done s0 (some c)
      | none => btree_next_walk last seq op fuel s0 kc.1
    match lo with
    | .fuel => .fuel
    | .err e s => .err e s
    | .done s curs =>
      match curs with
      | some c =>
        if scoutfs_key_cmp (curs_item s c).key last ≤ 0 then .out 1 s (some c)
        else .out 0 s none
      | none => .out 0 s none

/-- Plain forward iteration (`scoutfs_btree_next`). -/
def scoutfs_btree_next (fuel : Nat) (s : TreeState) (first last : Nat)
    (curs : Cursor) : NextOut :=
  btree_next fuel s first last 0 .next curs

/-- Sequence-filtered iteration (`scoutfs_btree_since`). -/
def scoutfs_btree_since (fuel : Nat) (s : TreeState) (first last : Nat)
    (seq : Nat) (curs : Cursor) : NextOut :=
  btree_next fuel s first last seq .nextSeq curs

/-- Repeatedly call `btree_next` until it returns 0, collecting the items
the cursor is pointed at; `none` when an error occurs or fuel runs out. -/
def btree_next_collect (first last : Nat) (seq : Nat) (op : WalkOp)
    (fuel_in : Nat) :
    Nat → TreeState → Cursor → Option (List Item)
  | 0, _, _ => none
  | n + 1, s, c =>
    match btree_next fuel_in s first last seq op c with
    | .out 0 _ _ => some []
    | .out _ s' (some cc) =>
      match btree_next_collect first last seq op fuel_in n s' (some cc) with
      | some l => some (curs_item s' cc :: l)
      | none => none
    | _ => none

/-- Outcome of `scoutfs_btree_hole`. -/
inductive HoleOut where
  | found (hole : Nat) (s : TreeState)
  | nospace (s : TreeState)
  | err (e : BErr) (s : TreeState)
  | fuel

/-- The scanning loop of `scoutfs_btree_hole`: advance the expected hole
over each returned key until a key is skipped or the range is exhausted. -/
def btree_hole_loop (first last : Nat) (fuel_in : Nat) :
    Nat → TreeState → Cursor → Nat → HoleOut
  | 0, _, _, _ => .fuel
  | n + 1, s, curs, hole =>
    match btree_next fuel_in s first last 0 .next curs with
    | .fuel => .fuel
    | .err e s' => .err e s'
    | .out r s' c =>
      if 0 < r then
        match c with
        | some cc =>
          let k := (curs_item s' cc).key
          if 0 < scoutfs_key_cmp k hole then
            if scoutfs_key_cmp hole last ≤ 0 then .found hole s'
            else .nospace s'
          else
            btree_hole_loop first last fuel_in n s' c (scoutfs_inc_key k)
        | none => .err .io s'
      else
        if scoutfs_key_cmp hole last ≤ 0 then .found hole s'
        else .nospace s'

/-- Find the first missing key in `[first, last]` (`scoutfs_btree_hole`):
the hole key on success, no-space when every key in the range is present. -/
def scoutfs_btree_hole (fuel_in fuel_out : Nat) (s : TreeState)
    (first last : Nat) : HoleOut :=
  btree_hole_loop first last fuel_in fuel_out s none first

/-!
Sortedness infrastructure: a decidable strict-ascending check on key lists
and its positional consequences.
-/

/-- Decidable strict-ascending check on a list of naturals. -/
def asc : List Nat → Bool
  | [] => true
  | [_] => true
  | a :: b :: r => decide (a < b) && asc (b :: r)

/-- The keys of a block's entries, in `item_offs` order. -/
def block_keys (bt : Block) : List Nat := bt.entries.map fun e => e.2.key

/-- The key at a sorted position. -/
def key_at (bt : Block) (i : Nat) : Nat := (pos_item bt i).key

theorem asc_tail {a : Nat} {l : List Nat} (h : asc (a :: l) = true) :
    asc l = true := by
  cases l with
  | nil => rfl
  | cons b r =>
    unfold asc at h
    exact (Bool.and_eq_true _ _ |>.mp h).2

theorem asc_head_lt {l : List Nat} :
    ∀ {a : Nat}, asc (a :: l) = true → ∀ x ∈ l, a < x := by
  induction l with
  | nil => intro a _ x hx; cases hx
  | cons b r ih =>
    intro a h x hx
    unfold asc at h
    have hab : a < b := of_decide_eq_true (Bool.and_eq_true _ _ |>.mp h).1
    rcases List.mem_cons.mp hx with rfl | hr
    · exact hab
    · exact lt_trans hab (ih (Bool.and_eq_true _ _ |>.mp h).2 x hr)

theorem asc_get {l : List Nat} (h : asc l = true) {i j : Nat} (hij : i < j)
    (hj : j < l.length) :
    l.get ⟨i, by omega⟩ < l.get ⟨j, hj⟩ := by
  induction l generalizing i j with
  | nil => simp at hj
  | cons a r ih =>
    cases j with
    | zero => omega
    | succ j' =>
      cases i with
      | zero =>
        exact asc_head_lt h _ (List.get_mem r _ _)
      | succ i' =>
        exact ih (asc_tail h) (by omega) (by simpa using hj)

theorem key_at_get (bt : Block) (i : Nat) (h : i < bt.nr_items) :
    key_at bt i = (block_keys bt).get ⟨i, by
      simpa [block_keys, Block.nr_items] using h⟩ := by
  have h' : i < bt.entries.length := h
  simp [key_at, pos_item, block_keys, List.get?_eq_getElem?,
    List.getElem?_eq_getElem h', List.get_eq_getElem]

/-- Positional form of block sortedness. -/
theorem key_at_lt (bt : Block) (hs : asc (block_keys bt) = true) {i j : Nat}
    (hij : i < j) (hj : j < bt.nr_items) : key_at bt i < key_at bt j := by
  rw [key_at_get bt i (by omega), key_at_get bt j hj]
  exact asc_get hs hij (by simpa [block_keys, Block.nr_items] using hj)

theorem scoutfs_key_cmp_neg {a b : Nat} : scoutfs_key_cmp a b < 0 ↔ a < b := by
  unfold scoutfs_key_cmp
  split_ifs with h1 h2 <;> constructor <;> intro h <;>
    first
    | omega
    | decide
    | exact absurd h (by decide)

theorem scoutfs_key_cmp_zero {a b : Nat} : scoutfs_key_cmp a b = 0 ↔ a = b := by
  unfold scoutfs_key_cmp
  split_ifs with h1 h2 <;> constructor <;> intro h <;>
    first
    | omega
    | decide
    | exact absurd h (by decide)

theorem scoutfs_key_cmp_pos {a b : Nat} : 0 < scoutfs_key_cmp a b ↔ b < a := by
  unfold scoutfs_key_cmp
  split_ifs with h1 h2 <;> constructor <;> intro h <;>
    first
    | omega
    | decide
    | exact absurd h (by decide)

theorem scoutfs_key_cmp_nonpos {a b : Nat} :
    scoutfs_key_cmp a b ≤ 0 ↔ a ≤ b := by
  unfold scoutfs_key_cmp
  split_ifs with h1 h2 <;> constructor <;> intro h <;>
    first
    | omega
    | decide
    | exact absurd h (by decide)

/-- Invariant-carrying specification of the `find_pos` binary-search loop. -/
theorem find_pos_loop_spec (bt : Block) (key : Nat)
    (hs : asc (block_keys bt) = true) :
    ∀ n start e pos cmp,
      e - start ≤ n → start ≤ e → e ≤ bt.nr_items →
      (∀ i, i < start → key_at bt i < key) →
      (∀ i, e ≤ i → i < bt.nr_items → key < key_at bt i) →
      ((pos = start ∧ cmp = -1) ∨
        (pos = e ∧ pos < bt.nr_items ∧ cmp = scoutfs_key_cmp key (key_at bt pos) ∧ cmp < 0)) →
      (find_pos_loop bt key n start e pos cmp).1 ≤ bt.nr_items ∧
      (∀ i, i < (find_pos_loop bt key n start e pos cmp).1 → key_at bt i < key) ∧
      (((find_pos_loop bt key n start e pos cmp).2 = 0 ∧
          (find_pos_loop bt key n start e pos cmp).1 < bt.nr_items ∧
          key_at bt (find_pos_loop bt key n start e pos cmp).1 = key) ∨
        ((find_pos_loop bt key n start e pos cmp).2 < 0 ∧
          ∀ i, (find_pos_loop bt key n start e pos cmp).1 ≤ i → i < bt.nr_items →
            key < key_at bt i)) := by
  intro n
  induction n with
  | zero =>
    intro start e pos cmp hn hse he hlo hhi hpc
    simp only [find_pos_loop]
    rcases hpc with ⟨rfl, rfl⟩ | ⟨rfl, hlt, hcmp, hneg⟩
    · refine ⟨by omega, fun i hi => hlo i hi, Or.inr ⟨by norm_num, ?_⟩⟩
      intro i hi hin
      exact hhi i (by omega) hin
    · refine ⟨by omega, fun i hi => hlo i (by omega), Or.inr ⟨hneg, ?_⟩⟩
      intro i hi hin
      rcases Nat.eq_or_lt_of_le hi with rfl | hgt
      · exact scoutfs_key_cmp_neg.mp (hcmp ▸ hneg)
      · exact hhi i (by omega) hin
  | succ n ih =>
    intro start e pos cmp hn hse he hlo hhi hpc
    by_cases hse' : start < e
    · simp only [find_pos_loop]
      rw [if_pos hse']
      set p := start + (e - start) / 2 with hp
      have hpe : p < e := by
        have : (e - start) / 2 < e - start := Nat.div_lt_self (by omega) (by omega)
        omega
      have hpn : p < bt.nr_items := by omega
      have hps : start ≤ p := by omega
      by_cases hc : scoutfs_key_cmp key (key_at bt p) < 0
      · rw [if_pos (show scoutfs_key_cmp key (pos_item bt p).key < 0 from hc)]
        refine ih start p p _ (by omega) hps (by omega) hlo ?_ (Or.inr ⟨rfl, hpn, rfl, hc⟩)
        intro i hi hin
        rcases Nat.eq_or_lt_of_le hi with rfl | hgt
        · exact scoutfs_key_cmp_neg.mp hc
        · exact lt_trans (scoutfs_key_cmp_neg.mp hc) (key_at_lt bt hs hgt hin)
      · rw [if_neg (show ¬ scoutfs_key_cmp key (pos_item bt p).key < 0 from hc)]
        by_cases hc2 : 0 < scoutfs_key_cmp key (key_at bt p)
        · rw [if_pos (show 0 < scoutfs_key_cmp key (pos_item bt p).key from hc2)]
          refine ih (p + 1) e (p + 1) _ (by omega) (by omega) he ?_ hhi (Or.inl ⟨rfl, rfl⟩)
          intro i hi
          rcases Nat.lt_or_ge i p with hlt | hge
          · exact lt_trans (key_at_lt bt hs hlt hpn) (scoutfs_key_cmp_pos.mp hc2)
          · have : i = p := by omega
            subst this
            exact scoutfs_key_cmp_pos.mp hc2
        · rw [if_neg (show ¬ 0 < scoutfs_key_cmp key (pos_item bt p).key from hc2)]
          have hz : scoutfs_key_cmp key (key_at bt p) = 0 := by omega
          have hkey : key_at bt p = key := (scoutfs_key_cmp_zero.mp hz).symm
          refine ⟨by omega, ?_, Or.inl ⟨hz, hpn, hkey⟩⟩
          intro i hi
          exact hkey ▸ key_at_lt bt hs hi hpn
    · simp only [find_pos_loop]
      rw [if_neg hse']
      rcases hpc with ⟨rfl, rfl⟩ | ⟨rfl, hlt, hcmp, hneg⟩
      · refine ⟨by omega, fun i hi => hlo i hi, Or.inr ⟨by norm_num, ?_⟩⟩
        intro i hi hin
        exact hhi i (by omega) hin
      · refine ⟨by omega, fun i hi => hlo i (by omega), Or.inr ⟨hneg, ?_⟩⟩
        intro i hi hin
        rcases Nat.eq_or_lt_of_le hi with rfl | hgt
        · exact scoutfs_key_cmp_neg.mp (hcmp ▸ hneg)
        · exact hhi i (by omega) hin

/-- Specification of `find_pos` on a sorted block: the returned position is
the insertion slot, all earlier keys are smaller, and the comparison result
tells whether the key sits at the position. -/
theorem find_pos_spec (bt : Block) (key : Nat)
    (hs : asc (block_keys bt) = true) :
    (find_pos bt key).1 ≤ bt.nr_items ∧
    (∀ i, i < (find_pos bt key).1 → key_at bt i < key) ∧
    (((find_pos bt key).2 = 0 ∧ (find_pos bt key).1 < bt.nr_items ∧
        key_at bt (find_pos bt key).1 = key) ∨
      ((find_pos bt key).2 < 0 ∧
        ∀ i, (find_pos bt key).1 ≤ i → i < bt.nr_items → key < key_at bt i)) := by
  have := find_pos_loop_spec bt key hs bt.nr_items 0 bt.nr_items 0 (-1)
    (by omega) (by omega) (le_refl _) (by omega) (by omega) (Or.inl ⟨rfl, rfl⟩)
  exact this

/-!
Characterization of `skip_pos_seq` / `next_pos_seq`.
-/

/-- The skip predicate rejects every out-of-bounds position. -/
theorem skip_pos_seq_oob (bt : Block) (pos level seq : Nat) (op : WalkOp)
    (h : bt.nr_items ≤ pos) : skip_pos_seq bt pos level seq op = false := by
  unfold skip_pos_seq
  rw [if_pos (Or.inr h)]

/-- The skip predicate rejects everything unless the op is NEXT_SEQ. -/
theorem skip_pos_seq_ne (bt : Block) (pos level seq : Nat) (op : WalkOp)
    (h : op ≠ .nextSeq) : skip_pos_seq bt pos level seq op = false := by
  unfold skip_pos_seq
  rw [if_pos (Or.inl h)]

/-- Combined specification of the `next_pos_seq` loop, by induction on its
fuel: it advances, stays within `nr_items` when started in bounds, lands on
a non-skipped position, and skips exactly the positions in between. -/
theorem next_pos_seq_loop_spec (bt : Block) (level seq : Nat) (op : WalkOp) :
    ∀ fuel pos, bt.nr_items - pos < fuel →
      pos < next_pos_seq_loop bt level seq op fuel pos ∧
      (pos < bt.nr_items → next_pos_seq_loop bt level seq op fuel pos ≤ bt.nr_items) ∧
      skip_pos_seq bt (next_pos_seq_loop bt level seq op fuel pos) level seq op
        = false ∧
      (∀ q, pos < q → q < next_pos_seq_loop bt level seq op fuel pos →
        skip_pos_seq bt q level seq op = true) := by
  intro fuel
  induction fuel with
  | zero =>
    intro pos hn
    omega
  | succ fuel ih =>
    intro pos hn
    simp only [next_pos_seq_loop]
    by_cases hskip : skip_pos_seq bt (pos + 1) level seq op = true
    · rw [if_pos hskip]
      have hlt := skip_pos_seq_lt bt (pos + 1) level seq op hskip
      rcases ih (pos + 1) (by omega) with ⟨h1, h2, h3, h4⟩
      refine ⟨by omega, fun _ => h2 hlt, h3, ?_⟩
      intro q hq1 hq2
      rcases Nat.eq_or_lt_of_le (Nat.succ_le_of_lt hq1) with heq | hgt
      · exact heq ▸ hskip
      · exact h4 q hgt hq2
    · rw [if_neg hskip]
      refine ⟨by omega, by omega, Bool.not_eq_true _ |>.mp hskip, ?_⟩
      intro q hq1 hq2
      omega

/-- `next_pos_seq` advances. -/
theorem next_pos_seq_gt (bt : Block) (pos level seq : Nat) (op : WalkOp) :
    pos < next_pos_seq bt pos level seq op :=
  (next_pos_seq_loop_spec bt level seq op (bt.nr_items + 1) pos (by omega)).1

/-- `next_pos_seq` never passes `nr_items` when it starts in bounds. -/
theorem next_pos_seq_le (bt : Block) (pos level seq : Nat) (op : WalkOp)
    (h : pos < bt.nr_items) :
    next_pos_seq bt pos level seq op ≤ bt.nr_items :=
  (next_pos_seq_loop_spec bt level seq op (bt.nr_items + 1) pos (by omega)).2.1 h

/-- For any op other than NEXT_SEQ, `next_pos_seq` is the successor. -/
theorem next_pos_seq_succ (bt : Block) (pos level seq : Nat) (op : WalkOp)
    (h : op ≠ .nextSeq) : next_pos_seq bt pos level seq op = pos + 1 := by
  unfold next_pos_seq next_pos_seq_loop
  rw [skip_pos_seq_ne bt (pos + 1) level seq op h]
  simp

/-- The position `next_pos_seq` lands on is not itself skipped. -/
theorem next_pos_seq_not_skip (bt : Block) (pos level seq : Nat) (op : WalkOp) :
    skip_pos_seq bt (next_pos_seq bt pos level seq op) level seq op = false :=
  (next_pos_seq_loop_spec bt level seq op (bt.nr_items + 1) pos (by omega)).2.2.1

/-- Every position strictly between the start and the result of
`next_pos_seq` is skipped. -/
theorem next_pos_seq_skipped (bt : Block) (pos level seq : Nat) (op : WalkOp) :
    ∀ q, pos < q → q < next_pos_seq bt pos level seq op →
      skip_pos_seq bt q level seq op = true :=
  (next_pos_seq_loop_spec bt level seq op (bt.nr_items + 1) pos (by omega)).2.2.2

/-!
Byte accounting and the compaction proofs.
-/

/-- Total item bytes (headers plus values, without offset slots) stored in
a list of entries. -/
def ents_bytes (l : List (Nat × Item)) : Nat :=
  (l.map fun e => item_bytes e.2).sum

/-- The entries' offsets tile `[e, e0)` contiguously, in list order. -/
def packed_between : Nat → Nat → List (Nat × Item) → Prop
  | e, e0, [] => e = e0
  | e, e0, ent :: rest => ent.1 = e ∧ packed_between (e + item_bytes ent.2) e0 rest

/-- The space bookkeeping of a block is consistent: the offset array fits
under `free_end` and the bytes above `free_end` split into live items and
reclaimable fragmentation (spec invariants 2,3, 7). -/
def space_ok (bt : Block) : Bool :=
  decide (BTREE_HDR_SIZE + OFF_SIZE * bt.nr_items ≤ bt.free_end) &&
  decide (bt.free_end + ents_bytes bt.entries + bt.free_reclaim = SCOUTFS_BLOCK_SIZE)

theorem ents_bytes_perm {l1 l2 : List (Nat × Item)} (h : l1.Perm l2) :
    ents_bytes l1 = ents_bytes l2 := by
  unfold ents_bytes
  exact (h.map (fun e => item_bytes e.2)).sum_eq

theorem compact_entries_items (l : List (Nat × Item)) (e0 : Nat) :
    (compact_entries l e0).1.map (fun e => e.2) = l.map (fun e => e.2) := by
  induction l with
  | nil => rfl
  | cons x rest ih =>
    obtain ⟨off, it⟩ := x
    simp only [compact_entries, List.map_cons]
    rw [ih]

theorem compact_entries_len (l : List (Nat × Item)) (e0 : Nat) :
    (compact_entries l e0).1.length = l.length := by
  have := congrArg List.length (compact_entries_items l e0)
  simpa using this

theorem compact_entries_end (l : List (Nat × Item)) (e0 : Nat)
    (hle : ents_bytes l ≤ e0) :
    (compact_entries l e0).2 = e0 - ents_bytes l := by
  induction l with
  | nil => simp [compact_entries, ents_bytes]
  | cons x rest ih =>
    obtain ⟨off, it⟩ := x
    have hb : ents_bytes ((off, it) :: rest) = item_bytes it + ents_bytes rest := by
      simp [ents_bytes]
    have hrest : ents_bytes rest ≤ e0 := by omega
    simp only [compact_entries]
    rw [ih hrest]
    omega

theorem compact_entries_packed (l : List (Nat × Item)) (e0 : Nat)
    (hle : ents_bytes l ≤ e0) :
    packed_between (compact_entries l e0).2 e0 (compact_entries l e0).1 := by
  induction l with
  | nil => simp [compact_entries, packed_between]
  | cons x rest ih =>
    obtain ⟨off, it⟩ := x
    have hb : ents_bytes ((off, it) :: rest) = item_bytes it + ents_bytes rest := by
      simp [ents_bytes]
    have hrest : ents_bytes rest ≤ e0 := by omega
    have hend := compact_entries_end rest e0 hrest
    simp only [compact_entries]
    refine ⟨rfl, ?_⟩
    have heq : (compact_entries rest e0).2 - item_bytes it + item_bytes it =
        (compact_entries rest e0).2 := by omega
    rw [heq]
    exact ih hrest

theorem asc_iff_pairwise {l : List Nat} :
    asc l = true ↔ l.Pairwise (· < ·) := by
  induction l with
  | nil =>
    constructor
    · intro _; exact List.Pairwise.nil
    · intro _; rfl
  | cons a r ih =>
    constructor
    · intro h
      exact List.pairwise_cons.mpr ⟨asc_head_lt h, ih.mp (asc_tail h)⟩
    · intro h
      rcases List.pairwise_cons.mp h with ⟨hhead, htail⟩
      cases r with
      | nil => rfl
      | cons b t =>
        unfold asc
        rw [Bool.and_eq_true, decide_eq_true_iff]
        exact ⟨hhead b (List.mem_cons_self _ _), ih.mpr htail⟩

/-- Two lists of items that are permutations of each other and both
strictly key-sorted are equal. -/
theorem asc_items_unique :
    ∀ {l1 l2 : List Item}, l1.Perm l2 →
      asc (l1.map Item.key) = true → asc (l2.map Item.key) = true → l1 = l2 := by
  intro l1
  induction l1 with
  | nil =>
    intro l2 hp _ _
    have := hp.length_eq
    cases l2 with
    | nil => rfl
    | cons y r2 => simp at this
  | cons x r1 ih =>
    intro l2 hp h1 h2
    cases l2 with
    | nil =>
      have := hp.length_eq
      simp at this
    | cons y r2 =>
      have hxy : x = y := by
        by_contra hne
        have hx2 : x ∈ r2 := by
          have := hp.mem_iff.mp (List.mem_cons_self x r1)
          rcases List.mem_cons.mp this with heq | hmem
          · exact absurd heq hne
          · exact hmem
        have hy1 : y ∈ r1 := by
          have := hp.mem_iff.mpr (List.mem_cons_self y r2)
          rcases List.mem_cons.mp this with heq | hmem
          · exact absurd heq.symm hne
          · exact hmem
        have hlt1 : x.key < y.key :=
          asc_head_lt h1 y.key (List.mem_map_of_mem Item.key hy1)
        have hlt2 : y.key < x.key :=
          asc_head_lt h2 x.key (List.mem_map_of_mem Item.key hx2)
        omega
      subst hxy
      have := ih hp.cons_inv (asc_tail h1) (asc_tail h2)
      rw [this]

theorem key_le_trans (a b c : Nat × Item) (hab : key_le a b = true)
    (hbc : key_le b c = true) : key_le a c = true := by
  unfold key_le at *
  rw [decide_eq_true_iff] at *
  omega

theorem key_le_total (a b : Nat × Item) : (key_le a b || key_le b a) = true := by
  unfold key_le
  rcases Nat.le_total a.2.key b.2.key with h | h
  · rw [decide_eq_true h]; rfl
  · rw [decide_eq_true h, Bool.or_true]

/-- Compaction preserves the items — keys, seqs and values — in order. -/
theorem compact_items_entries (bt : Block) (hs : asc (block_keys bt) = true) :
    (compact_items bt).entries.map (fun e => e.2) =
      bt.entries.map (fun e => e.2) := by
  have hperm1 : (compact_byoff bt).Perm bt.entries := List.mergeSort_perm _ _
  have hitems := compact_entries_items (compact_byoff bt) SCOUTFS_BLOCK_SIZE
  have hpermL : ((compact_packed bt).mergeSort key_le).Perm (compact_packed bt) :=
    List.mergeSort_perm _ _
  have hchain : (((compact_packed bt).mergeSort key_le).map fun e => e.2).Perm
      (bt.entries.map fun e => e.2) := by
    have p1 := hpermL.map fun e : Nat × Item => e.2
    rw [show ((compact_packed bt).map fun e : Nat × Item => e.2) =
        ((compact_byoff bt).map fun e => e.2) from hitems] at p1
    exact p1.trans (hperm1.map _)
  have hkeys_orig : asc ((bt.entries.map fun e => e.2).map Item.key) = true := by
    rw [List.map_map]
    exact hs
  have hsorted : (((compact_packed bt).mergeSort key_le).map fun e => e.2).Pairwise
      (fun a b => a.key ≤ b.key) := by
    rw [List.pairwise_map]
    have := List.sorted_mergeSort key_le_trans key_le_total (compact_packed bt)
    exact this.imp fun h => by
      unfold key_le at h
      exact decide_eq_true_iff.mp h
  have hnodup : (((compact_packed bt).mergeSort key_le).map fun e => e.2).Pairwise
      (fun a b => a.key ≠ b.key) := by
    have hno : ((bt.entries.map fun e => e.2).map Item.key).Nodup := by
      have := asc_iff_pairwise.mp hkeys_orig
      exact this.imp Nat.ne_of_lt
    have hno2 : ((((compact_packed bt).mergeSort key_le).map fun e => e.2).map
        Item.key).Nodup := ((hchain.map Item.key).nodup_iff).mpr hno
    exact List.pairwise_map.mp hno2
  have hkeys_new : asc ((((compact_packed bt).mergeSort key_le).map fun e => e.2).map
      Item.key) = true := by
    rw [asc_iff_pairwise, List.pairwise_map]
    exact (hsorted.and hnodup).imp fun h => by
      rcases h with ⟨hle, hne⟩
      omega
  have := asc_items_unique hchain (by rw [List.map_map] at hkeys_new ⊢; exact hkeys_new)
    hkeys_orig
  simpa [compact_items] using this

/-- Compaction preserves the number of items. -/
theorem compact_items_nr (bt : Block) :
    (compact_items bt).nr_items = bt.nr_items := by
  have h1 := (List.mergeSort_perm (compact_packed bt) key_le).length_eq
  have h2 := compact_entries_len (compact_byoff bt) SCOUTFS_BLOCK_SIZE
  have h3 := (List.mergeSort_perm bt.entries off_le).length_eq
  simp only [compact_items, Block.nr_items, compact_packed, compact_byoff] at *
  omega

/-- The `free_end` compaction computes is the block size minus the live
item bytes. -/
theorem compact_end_eq (bt : Block)
    (hle : ents_bytes bt.entries ≤ SCOUTFS_BLOCK_SIZE) :
    compact_end bt = SCOUTFS_BLOCK_SIZE - ents_bytes bt.entries := by
  have hperm1 : (compact_byoff bt).Perm bt.entries := List.mergeSort_perm _ _
  have hb := ents_bytes_perm hperm1
  unfold compact_end
  rw [compact_entries_end _ _ (by omega), hb]

/-!
Sortedness preservation by the in-block mutations.
-/

theorem asc_sublist {l1 l2 : List Nat} (h : l1.Sublist l2)
    (h2 : asc l2 = true) : asc l1 = true :=
  asc_iff_pairwise.mpr (List.Pairwise.sublist h (asc_iff_pairwise.mp h2))

theorem insertIdx_take_drop {α : Type} (a : α) :
    ∀ (l : List α) (pos : Nat), pos ≤ l.length →
      l.insertIdx pos a = l.take pos ++ a :: l.drop pos := by
  intro l
  induction l with
  | nil =>
    intro pos h
    have : pos = 0 := by simpa using h
    subst this
    rfl
  | cons x xs ih =>
    intro pos h
    cases pos with
    | zero => rfl
    | succ p =>
      rw [List.insertIdx_succ_cons, ih p (by simpa using h)]
      rfl

theorem map_insertIdx {α β : Type} (f : α → β) (l : List α) (pos : Nat) (a : α)
    (h : pos ≤ l.length) :
    (l.insertIdx pos a).map f = (l.map f).insertIdx pos (f a) := by
  rw [insertIdx_take_drop a l pos h,
    insertIdx_take_drop (f a) (l.map f) pos (by simpa using h)]
  simp [List.map_take, List.map_drop]

theorem key_at_mem_take (bt : Block) {n : Nat} {x : Nat}
    (h : x ∈ (block_keys bt).take n) :
    ∃ i, i < n ∧ i < bt.nr_items ∧ key_at bt i = x := by
  rcases List.mem_iff_getElem.mp h with ⟨j, hj, hx⟩
  have hlen : ((block_keys bt).take n).length = min n bt.nr_items := by
    simp [block_keys, Block.nr_items]
  rw [List.getElem_take] at hx
  refine ⟨j, by omega, by omega, ?_⟩
  rw [key_at_get bt j (by omega)]
  simpa [List.get_eq_getElem] using hx

theorem key_at_mem_drop (bt : Block) {n : Nat} {x : Nat}
    (h : x ∈ (block_keys bt).drop n) :
    ∃ i, n ≤ i ∧ i < bt.nr_items ∧ key_at bt i = x := by
  rcases List.mem_iff_getElem.mp h with ⟨j, hj, hx⟩
  have hlen : ((block_keys bt).drop n).length = bt.nr_items - n := by
    simp [block_keys, Block.nr_items]
  rw [List.getElem_drop] at hx
  refine ⟨n + j, by omega, by omega, ?_⟩
  rw [key_at_get bt (n + j) (by omega)]
  simpa [List.get_eq_getElem] using hx

/-- The key list after `create_item` is the old one with the key inserted. -/
theorem create_item_keys (bt : Block) (pos : Nat) (key vlen : Nat)
    (hpos : pos ≤ bt.nr_items) :
    block_keys (create_item bt pos key vlen) =
      (block_keys bt).take pos ++ key :: (block_keys bt).drop pos := by
  unfold block_keys create_item
  rw [map_insertIdx _ _ _ _ hpos,
    insertIdx_take_drop _ _ _ (by simpa [Block.nr_items] using hpos)]

/-- Inserting at a position all of whose predecessors have smaller keys and
all of whose successors have greater keys preserves strict sorting. -/
theorem create_item_asc (bt : Block) (pos : Nat) (key vlen : Nat)
    (hs : asc (block_keys bt) = true) (hpos : pos ≤ bt.nr_items)
    (hlo : ∀ i, i < pos → key_at bt i < key)
    (hhi : ∀ i, pos ≤ i → i < bt.nr_items → key < key_at bt i) :
    asc (block_keys (create_item bt pos key vlen)) = true := by
  rw [create_item_keys bt pos key vlen hpos, asc_iff_pairwise,
    List.pairwise_append]
  have hp := asc_iff_pairwise.mp hs
  refine ⟨List.Pairwise.sublist (List.take_sublist _ _) hp, ?_, ?_⟩
  · rw [List.pairwise_cons]
    refine ⟨?_, List.Pairwise.sublist (List.drop_sublist _ _) hp⟩
    intro x hx
    rcases key_at_mem_drop bt hx with ⟨i, hni, hin, rfl⟩
    exact hhi i hni hin
  · intro x hx y hy
    rcases key_at_mem_take bt hx with ⟨i, hip, hin, rfl⟩
    rcases List.mem_cons.mp hy with rfl | hy'
    · exact hlo i hip
    · rcases key_at_mem_drop bt hy' with ⟨j, hnj, hjn, rfl⟩
      exact lt_trans (hlo i hip) (hhi j hnj hjn)

/-- Deleting an item preserves strict sorting. -/
theorem delete_item_asc (bt : Block) (pos : Nat)
    (hs : asc (block_keys bt) = true) :
    asc (block_keys (delete_item bt pos)) = true := by
  unfold delete_item
  cases hg : bt.entries.get? pos with
  | none => exact hs
  | some e =>
    refine asc_sublist ?_ hs
    unfold block_keys
    exact List.Sublist.map _ (List.eraseIdx_sublist _ _)

/-- Compaction leaves the key list unchanged. -/
theorem compact_items_keys (bt : Block) (hs : asc (block_keys bt) = true) :
    block_keys (compact_items bt) = block_keys bt := by
  have h := compact_items_entries bt hs
  have h2 := congrArg (List.map Item.key) h
  rw [List.map_map, List.map_map] at h2
  exact h2

/-- Compaction preserves strict sorting. -/
theorem compact_items_asc (bt : Block) (hs : asc (block_keys bt) = true) :
    asc (block_keys (compact_items bt)) = true := by
  rw [compact_items_keys bt hs]
  exact hs

/-!
Structural description of `move_items`.
-/

theorem move_items_loop_stop (mr : Bool) (fuel : Nat) (dst src : Block)
    (f : Int) (t : Nat) (tm : Int)
    (h : ¬(0 ≤ f ∧ f.toNat < src.nr_items ∧ 0 < tm)) :
    move_items_loop mr fuel dst src f t tm = (dst, src) := by
  cases fuel with
  | zero => rfl
  | succ fuel =>
    simp only [move_items_loop]
    rw [if_neg h]

theorem move_items_loop_step_false (fuel : Nat) (dst src : Block) (f : Int)
    (t : Nat) (tm : Int) (h : 0 ≤ f ∧ f.toNat < src.nr_items ∧ 0 < tm) :
    move_items_loop false (fuel + 1) dst src f t tm =
      move_items_loop false fuel
        (put_item
          (create_item dst t (pos_item src f.toNat).key
            (pos_item src f.toNat).val.len) t (pos_item src f.toNat))
        (delete_item src f.toNat) f (t + 1)
        (tm - all_item_bytes (pos_item src f.toNat)) := by
  simp only [move_items_loop]
  rw [if_pos h]
  simp

theorem move_items_loop_step_true (fuel : Nat) (dst src : Block) (f : Int)
    (t : Nat) (tm : Int) (h : 0 ≤ f ∧ f.toNat < src.nr_items ∧ 0 < tm) :
    move_items_loop true (fuel + 1) dst src f t tm =
      move_items_loop true fuel
        (put_item
          (create_item dst t (pos_item src f.toNat).key
            (pos_item src f.toNat).val.len) t (pos_item src f.toNat))
        (delete_item src f.toNat) (f - 1) t
        (tm - all_item_bytes (pos_item src f.toNat)) := by
  simp only [move_items_loop]
  rw [if_pos h]
  simp

theorem append_singleton_set {α : Type} :
    ∀ (l : List α) (a b : α), (l ++ [a]).set l.length b = l ++ [b] := by
  intro l
  induction l with
  | nil => intro a b; rfl
  | cons x xs ih =>
    intro a b
    simp only [List.cons_append, List.length_cons, List.set_cons_succ]
    rw [ih]

/-- One migration appended at the destination's tail. -/
theorem create_put_append (dst : Block) (it : Item) :
    (put_item (create_item dst dst.nr_items it.key it.val.len) dst.nr_items
      it).entries =
      dst.entries ++ [(dst.free_end - val_bytes it.val.len, it)] := by
  unfold create_item put_item
  simp only [Block.nr_items]
  rw [insertIdx_take_drop _ _ _ (le_refl _), List.take_length, List.drop_length]
  rw [List.get?_eq_getElem?, List.getElem?_concat_length]
  simp only []
  rw [append_singleton_set]

/-- One migration inserted at the destination's head. -/
theorem create_put_cons (dst : Block) (it : Item) :
    (put_item (create_item dst 0 it.key it.val.len) 0 it).entries =
      (dst.free_end - val_bytes it.val.len, it) :: dst.entries := by
  unfold create_item put_item
  rfl

theorem create_put_append_nr (dst : Block) (it : Item) :
    (put_item (create_item dst dst.nr_items it.key it.val.len) dst.nr_items
      it).nr_items = dst.nr_items + 1 := by
  have h := congrArg List.length (create_put_append dst it)
  simpa [Block.nr_items] using h

theorem delete_item_zero_entries (src : Block) (h : 0 < src.nr_items) :
    (delete_item src 0).entries = src.entries.tail := by
  cases hl : src.entries with
  | nil => exact absurd h (by simp [Block.nr_items, hl])
  | cons e rest =>
    unfold delete_item
    rw [hl]
    simp [List.get?]

theorem delete_item_last_entries (src : Block) (h : 0 < src.nr_items) :
    (delete_item src (src.nr_items - 1)).entries =
      src.entries.take (src.nr_items - 1) := by
  unfold delete_item
  have hlt : src.nr_items - 1 < src.entries.length := by
    unfold Block.nr_items at h ⊢
    omega
  rw [List.get?_eq_getElem?, List.getElem?_eq_getElem hlt]
  simp only []
  rw [List.eraseIdx_eq_take_drop_succ]
  have : src.nr_items - 1 + 1 = src.entries.length := by
    unfold Block.nr_items at h ⊢
    omega
  rw [this, List.drop_length, List.append_nil]

/-- Head-to-tail loop (`move_right = false`): the destination gains a prefix
of the source's items, in order, and the source keeps the rest. -/
theorem move_items_loop_false_spec :
    ∀ (n : Nat) (dst src : Block) (tm : Int), src.nr_items < n →
      ∃ k, k ≤ src.nr_items ∧
        ((move_items_loop false n dst src 0 dst.nr_items tm).1.entries.map
            (fun e => e.2) =
          dst.entries.map (fun e => e.2) ++
            (src.entries.take k).map (fun e => e.2)) ∧
        (move_items_loop false n dst src 0 dst.nr_items tm).2.entries =
          src.entries.drop k := by
  intro n
  induction n with
  | zero =>
    intro dst src tm hn
    exact absurd hn (by omega)
  | succ n ih =>
    intro dst src tm hn
    by_cases hg : (0 : Int).toNat < src.nr_items ∧ 0 < tm
    · have hguard : (0 : Int) ≤ 0 ∧ (0 : Int).toNat < src.nr_items ∧ 0 < tm :=
        ⟨le_refl _, hg.1, hg.2⟩
      rw [move_items_loop_step_false n dst src 0 dst.nr_items tm hguard]
      have hnr : 0 < src.nr_items := by simpa using hg.1
      cases hl : src.entries with
      | nil => unfold Block.nr_items at hnr; rw [hl] at hnr; simp at hnr
      | cons e rest =>
        have hit : pos_item src (0 : Int).toNat = e.2 := by
          unfold pos_item
          rw [Int.toNat_zero, List.get?_eq_getElem?, hl]
          simp
        have hnr1 : dst.nr_items + 1 =
            (put_item (create_item dst dst.nr_items (pos_item src (0 : Int).toNat).key
              (pos_item src (0 : Int).toNat).val.len) dst.nr_items
              (pos_item src (0 : Int).toNat)).nr_items := by
          rw [create_put_append_nr]
        have hsrc1 : (delete_item src (0 : Int).toNat).entries = rest := by
          rw [Int.toNat_zero, delete_item_zero_entries src hnr, hl]
          simp
        have hsrc1nr : (delete_item src (0 : Int).toNat).nr_items < n := by
          unfold Block.nr_items
          rw [hsrc1]
          unfold Block.nr_items at hn
          rw [hl] at hn
          simp at hn
          omega
        rw [hnr1]
        rcases ih _ (delete_item src (0 : Int).toNat) _ hsrc1nr with ⟨k, hk, h1, h2⟩
        refine ⟨k + 1, ?_, ?_, ?_⟩
        · unfold Block.nr_items
          unfold Block.nr_items at hk
          rw [hsrc1] at hk
          rw [hl]
          simpa using hk
        · rw [h1, create_put_append, hsrc1, hit]
          simp
        · rw [h2, hsrc1]
          simp
    · refine ⟨0, by omega, ?_, ?_⟩ <;>
        rw [move_items_loop_stop false (n + 1) dst src 0 dst.nr_items tm
          (fun hc => hg ⟨hc.2.1, hc.2.2⟩)] <;> simp

/-- Tail-to-head loop (`move_right = true`): the destination gains a suffix
of the source's items, in order, and the source keeps the prefix. -/
theorem move_items_loop_true_spec :
    ∀ (n : Nat) (dst src : Block) (tm : Int), src.nr_items < n →
      ∃ k, k ≤ src.nr_items ∧
        ((move_items_loop true n dst src ((src.nr_items : Int) - 1) 0 tm).1.entries.map
            (fun e => e.2) =
          (src.entries.drop (src.nr_items - k)).map (fun e => e.2) ++
            dst.entries.map (fun e => e.2)) ∧
        (move_items_loop true n dst src ((src.nr_items : Int) - 1) 0 tm).2.entries =
          src.entries.take (src.nr_items - k) := by
  intro n
  induction n with
  | zero =>
    intro dst src tm hn
    exact absurd hn (by omega)
  | succ n ih =>
    intro dst src tm hn
    by_cases hg : 0 < src.nr_items ∧ 0 < tm
    · have hf : ((src.nr_items : Int) - 1).toNat = src.nr_items - 1 := by omega
      have hguard : (0 : Int) ≤ (src.nr_items : Int) - 1 ∧
          ((src.nr_items : Int) - 1).toNat < src.nr_items ∧ 0 < tm := by
        refine ⟨by omega, ?_, hg.2⟩
        rw [hf]
        omega
      rw [move_items_loop_step_true n dst src _ 0 tm hguard]
      have hm : src.nr_items - 1 < src.entries.length := by
        unfold Block.nr_items at hg ⊢
        omega
      have hit : pos_item src ((src.nr_items : Int) - 1).toNat =
          (src.entries.get ⟨src.nr_items - 1, hm⟩).2 := by
        unfold pos_item
        rw [hf, List.get?_eq_getElem?, List.getElem?_eq_getElem hm]
        simp [List.get_eq_getElem]
      have hsrc1 : (delete_item src ((src.nr_items : Int) - 1).toNat).entries =
          src.entries.take (src.nr_items - 1) := by
        rw [hf]
        exact delete_item_last_entries src hg.1
      have hsrc1nr : (delete_item src ((src.nr_items : Int) - 1).toNat).nr_items =
          src.nr_items - 1 := by
        have hlen := congrArg List.length hsrc1
        simp only [List.length_take] at hlen
        simp only [Block.nr_items] at hlen ⊢
        omega
      have hfix : ((src.nr_items : Int) - 1) - 1 =
          ((delete_item src ((src.nr_items : Int) - 1).toNat).nr_items : Int) - 1 := by
        rw [hsrc1nr]
        omega
      rw [hfix]
      rcases ih _ (delete_item src ((src.nr_items : Int) - 1).toNat) _
        (by rw [hsrc1nr]; omega) with ⟨k, hk, h1, h2⟩
      rw [hsrc1nr] at hk
      refine ⟨k + 1, by omega, ?_, ?_⟩
      · rw [h1, create_put_cons, hit, hsrc1]
        have hsplit : src.entries.drop (src.nr_items - (k + 1)) =
            (src.entries.take (src.nr_items - 1)).drop (src.nr_items - 1 - k) ++
              [src.entries.get ⟨src.nr_items - 1, hm⟩] := by
          have hd : src.entries.drop (src.nr_items - 1) =
              [src.entries.get ⟨src.nr_items - 1, hm⟩] := by
            rw [List.drop_eq_getElem_cons hm]
            have : src.nr_items - 1 + 1 = src.entries.length := by
              unfold Block.nr_items at hg ⊢
              omega
            rw [this, List.drop_length]
            simp [List.get_eq_getElem]
          calc src.entries.drop (src.nr_items - (k + 1)) =
              (src.entries.take (src.nr_items - 1) ++
                src.entries.drop (src.nr_items - 1)).drop (src.nr_items - (k + 1)) := by
                rw [List.take_append_drop]
            _ = (src.entries.take (src.nr_items - 1)).drop (src.nr_items - (k + 1)) ++
                src.entries.drop (src.nr_items - 1) := by
                refine List.drop_append_of_le_length ?_
                simp [List.length_take]
                unfold Block.nr_items at hg hk ⊢
                omega
            _ = (src.entries.take (src.nr_items - 1)).drop (src.nr_items - 1 - k) ++
                [src.entries.get ⟨src.nr_items - 1, hm⟩] := by
                rw [hd]
                have : src.nr_items - (k + 1) = src.nr_items - 1 - k := by omega
                rw [this]
        rw [hsrc1nr] at h1
        rw [hsplit]
        simp
        rw [hf] at hsrc1nr
        rw [hsrc1nr]
      · rw [h2, hsrc1, hsrc1nr, List.take_take]
        have hmin : (src.nr_items - 1 - k) ⊓ (src.nr_items - 1) =
            src.nr_items - (k + 1) := by
          omega
        rw [hmin]
    · have hstop : ¬(0 ≤ (src.nr_items : Int) - 1 ∧
          ((src.nr_items : Int) - 1).toNat < src.nr_items ∧ 0 < tm) := by
        intro hc
        exact hg ⟨by omega, hc.2.2⟩
      have hdrop : src.entries.drop (src.nr_items - 0) = [] := by
        unfold Block.nr_items
        simp [List.drop_length]
      have htake : src.entries.take (src.nr_items - 0) = src.entries := by
        unfold Block.nr_items
        simp [List.take_length]
      refine ⟨0, by omega, ?_, ?_⟩
      · rw [move_items_loop_stop true (n + 1) dst src _ 0 tm hstop, hdrop]
        simp
      · rw [move_items_loop_stop true (n + 1) dst src _ 0 tm hstop, htake]

theorem map_key_snd (l : List (Nat × Item)) :
    (l.map fun e => e.2).map Item.key = l.map fun e => e.2.key := by
  rw [List.map_map]
  rfl

theorem move_items_false_spec (dst src : Block) (tm : Int) :
    ∃ k, k ≤ src.nr_items ∧
      ((move_items dst src false tm).1.entries.map (fun e => e.2) =
        dst.entries.map (fun e => e.2) ++ (src.entries.take k).map (fun e => e.2)) ∧
      (move_items dst src false tm).2.entries = src.entries.drop k := by
  have h : move_items dst src false tm =
      move_items_loop false (src.nr_items + 1) dst src 0 dst.nr_items tm := by
    unfold move_items
    rw [if_neg Bool.false_ne_true]
  rw [h]
  exact move_items_loop_false_spec (src.nr_items + 1) dst src tm (by omega)

theorem move_items_true_spec (dst src : Block) (tm : Int) :
    ∃ k, k ≤ src.nr_items ∧
      ((move_items dst src true tm).1.entries.map (fun e => e.2) =
        (src.entries.drop (src.nr_items - k)).map (fun e => e.2) ++
          dst.entries.map (fun e => e.2)) ∧
      (move_items dst src true tm).2.entries =
        src.entries.take (src.nr_items - k) := by
  have h : move_items dst src true tm =
      move_items_loop true (src.nr_items + 1) dst src ((src.nr_items : Int) - 1) 0
        tm := by
    unfold move_items
    rw [if_pos rfl]
  rw [h]
  exact move_items_loop_true_spec (src.nr_items + 1) dst src tm (by omega)

/-- Moving a head-prefix of the source to the destination's tail keeps both
blocks strictly sorted when every destination key is below every source
key (the sibling relation used by merge-from-the-right and by splits). -/
theorem move_items_false_asc (dst src : Block) (tm : Int)
    (hd : asc (block_keys dst) = true) (hs : asc (block_keys src) = true)
    (hcross : ∀ x ∈ block_keys dst, ∀ y ∈ block_keys src, x < y) :
    asc (block_keys (move_items dst src false tm).1) = true ∧
    asc (block_keys (move_items dst src false tm).2) = true := by
  rcases move_items_false_spec dst src tm with ⟨k, hk, h1, h2⟩
  constructor
  · have hkeys : block_keys (move_items dst src false tm).1 =
        block_keys dst ++ (block_keys src).take k := by
      have h := congrArg (List.map Item.key) h1
      rw [List.map_append, map_key_snd, map_key_snd, map_key_snd,
        List.map_take] at h
      unfold block_keys
      exact h
    rw [hkeys, asc_iff_pairwise, List.pairwise_append]
    refine ⟨asc_iff_pairwise.mp hd,
      List.Pairwise.sublist (List.take_sublist _ _) (asc_iff_pairwise.mp hs),
      ?_⟩
    intro x hx y hy
    exact hcross x hx y (List.Sublist.mem hy (List.take_sublist _ _))
  · have hkeys : block_keys (move_items dst src false tm).2 =
        (block_keys src).drop k := by
      have h := congrArg (List.map fun e : Nat × Item => e.2.key) h2
      rw [List.map_drop] at h
      unfold block_keys
      exact h
    rw [hkeys]
    exact asc_sublist (List.drop_sublist _ _) hs

/-- Moving a tail-suffix of the source to the destination's head keeps both
blocks strictly sorted when every source key is below every destination
key (the sibling relation used by merge-from-the-left). -/
theorem move_items_true_asc (dst src : Block) (tm : Int)
    (hd : asc (block_keys dst) = true) (hs : asc (block_keys src) = true)
    (hcross : ∀ x ∈ block_keys src, ∀ y ∈ block_keys dst, x < y) :
    asc (block_keys (move_items dst src true tm).1) = true ∧
    asc (block_keys (move_items dst src true tm).2) = true := by
  rcases move_items_true_spec dst src tm with ⟨k, hk, h1, h2⟩
  constructor
  · have hkeys : block_keys (move_items dst src true tm).1 =
        (block_keys src).drop (src.nr_items - k) ++ block_keys dst := by
      have h := congrArg (List.map Item.key) h1
      rw [List.map_append, map_key_snd, map_key_snd, map_key_snd,
        List.map_drop] at h
      unfold block_keys
      exact h
    rw [hkeys, asc_iff_pairwise, List.pairwise_append]
    refine ⟨List.Pairwise.sublist (List.drop_sublist _ _) (asc_iff_pairwise.mp hs),
      asc_iff_pairwise.mp hd, ?_⟩
    intro x hx y hy
    exact hcross x (List.Sublist.mem hx (List.drop_sublist _ _)) y hy
  · have hkeys : block_keys (move_items dst src true tm).2 =
        (block_keys src).take (src.nr_items - k) := by
      have h := congrArg (List.map fun e : Nat × Item => e.2.key) h2
      rw [List.map_take] at h
      unfold block_keys
      exact h
    rw [hkeys]
    exact asc_sublist (List.take_sublist _ _) hs

/-!
Store lookup helpers.
-/

theorem store_put_ne (st : Store) (b : Block) (n : Nat) (h : n ≠ b.blkno) :
    store_put st b n = st n := by
  unfold store_put
  rw [if_neg h]

theorem store_put_eq (st : Store) (b : Block) :
    store_put st b b.blkno = some b := by
  unfold store_put
  rw [if_pos rfl]

theorem put_item_blkno_seq (bt : Block) (pos : Nat) (it : Item) :
    (put_item bt pos it).blkno = bt.blkno ∧ (put_item bt pos it).seq = bt.seq := by
  unfold put_item
  cases hq : bt.entries.get? pos <;> exact ⟨rfl, rfl⟩

theorem delete_item_blkno_seq (bt : Block) (pos : Nat) :
    (delete_item bt pos).blkno = bt.blkno ∧ (delete_item bt pos).seq = bt.seq := by
  unfold delete_item
  cases hq : bt.entries.get? pos <;> exact ⟨rfl, rfl⟩

theorem move_items_blkno_seq (dst src : Block) (mr : Bool) (tm : Int) :
    ((move_items dst src mr tm).1.blkno = dst.blkno ∧
      (move_items dst src mr tm).1.seq = dst.seq) ∧
    (move_items dst src mr tm).2.blkno = src.blkno ∧
    (move_items dst src mr tm).2.seq = src.seq := by
  unfold move_items
  have main : ∀ (fuel : Nat) (mr : Bool) (dst src : Block) (f : Int) (t : Nat)
      (tm : Int),
      ((move_items_loop mr fuel dst src f t tm).1.blkno = dst.blkno ∧
        (move_items_loop mr fuel dst src f t tm).1.seq = dst.seq) ∧
      (move_items_loop mr fuel dst src f t tm).2.blkno = src.blkno ∧
      (move_items_loop mr fuel dst src f t tm).2.seq = src.seq := by
    intro fuel
    induction fuel with
    | zero => intro mr dst src f t tm; exact ⟨⟨rfl, rfl⟩, rfl, rfl⟩
    | succ fuel ih =>
      intro mr dst src f t tm
      simp only [move_items_loop]
      by_cases hg : 0 ≤ f ∧ f.toNat < src.nr_items ∧ 0 < tm
      · rw [if_pos hg]
        rcases put_item_blkno_seq (create_item dst t (pos_item src f.toNat).key
          (pos_item src f.toNat).val.len) t (pos_item src f.toNat) with ⟨h1, h2⟩
        rcases delete_item_blkno_seq src f.toNat with ⟨h3, h4⟩
        cases mr with
        | false =>
          rw [if_neg Bool.false_ne_true]
          rcases ih false _ _ f (t + 1) _ with ⟨⟨ha, hb⟩, hc, he⟩
          refine ⟨⟨?_, ?_⟩, ?_, ?_⟩
          · rw [ha, h1]; rfl
          · rw [hb, h2]; rfl
          · rw [hc, h3]
          · rw [he, h4]
        | true =>
          rw [if_pos rfl]
          rcases ih true _ _ (f - 1) t _ with ⟨⟨ha, hb⟩, hc, he⟩
          refine ⟨⟨?_, ?_⟩, ?_, ?_⟩
          · rw [ha, h1]; rfl
          · rw [hb, h2]; rfl
          · rw [hc, h3]
          · rw [he, h4]
      · rw [if_neg hg]
        exact ⟨⟨rfl, rfl⟩, rfl, rfl⟩
  by_cases hmr : mr = true
  · rw [if_pos hmr]
    exact main _ _ _ _ _ _ _
  · rw [if_neg hmr]
    exact main _ _ _ _ _ _ _

theorem compact_items_blkno_seq (bt : Block) :
    (compact_items bt).blkno = bt.blkno ∧ (compact_items bt).seq = bt.seq :=
  ⟨rfl, rfl⟩

/-- The source never grows while items move. -/
theorem move_items_loop_nr_le (mr : Bool) :
    ∀ (fuel : Nat) (dst src : Block) (f : Int) (t : Nat) (tm : Int),
      (move_items_loop mr fuel dst src f t tm).2.nr_items ≤ src.nr_items := by
  intro fuel
  induction fuel with
  | zero => intro dst src f t tm; exact Nat.le_refl _
  | succ fuel ih =>
    intro dst src f t tm
    simp only [move_items_loop]
    by_cases hg : 0 ≤ f ∧ f.toNat < src.nr_items ∧ 0 < tm
    · rw [if_pos hg]
      have hd : (delete_item src f.toNat).nr_items < src.nr_items :=
        delete_item_nr_lt src f.toNat hg.2.1
      cases mr with
      | false =>
        rw [if_neg Bool.false_ne_true]
        have h1 := ih (put_item (create_item dst t (pos_item src f.toNat).key
          (pos_item src f.toNat).val.len) t (pos_item src f.toNat))
          (delete_item src f.toNat) f (t + 1)
          (tm - all_item_bytes (pos_item src f.toNat))
        omega
      | true =>
        rw [if_pos rfl]
        have h1 := ih (put_item (create_item dst t (pos_item src f.toNat).key
          (pos_item src f.toNat).val.len) t (pos_item src f.toNat))
          (delete_item src f.toNat) (f - 1) t
          (tm - all_item_bytes (pos_item src f.toNat))
        omega
    · rw [if_neg hg]

/-- With a positive byte budget and a nonempty source, at least one item
moves out of the source. -/
theorem move_items_false_moves (dst src : Block) (tm : Int)
    (hsrc : 0 < src.nr_items) (htm : 0 < tm) :
    (move_items dst src false tm).2.nr_items < src.nr_items := by
  have h : move_items dst src false tm =
      move_items_loop false (src.nr_items + 1) dst src 0 dst.nr_items tm := by
    unfold move_items
    rw [if_neg Bool.false_ne_true]
  rw [h]
  simp only [move_items_loop]
  rw [if_pos ⟨le_refl (0 : Int), hsrc, htm⟩]
  rw [if_neg Bool.false_ne_true]
  exact lt_of_le_of_lt (move_items_loop_nr_le false src.nr_items _ _ _ _ _)
    (delete_item_nr_lt src (Int.toNat 0) hsrc)

/-- The fresh left sibling `try_split` allocates: the next block number,
stamped with the dirty seq, empty. -/
def split_left0 (s : TreeState) : Block := (alloc_tree_block s).1

/-- The pair of blocks after `try_split` moves the lower half of `right`
into the fresh left sibling. -/
def split_moved (s : TreeState) (right : Block) : Block × Block :=
  move_items (split_left0 s) right false ((used_total right / 2 : Nat) : Int)

theorem set_item_val_blkno_seq (bt : Block) (pos : Nat) (v : Val) :
    (set_item_val bt pos v).blkno = bt.blkno ∧
    (set_item_val bt pos v).seq = bt.seq := by
  unfold set_item_val
  cases bt.entries.get? pos <;> exact ⟨rfl, rfl⟩

theorem set_item_key_blkno_seq (bt : Block) (pos : Nat) (k : Nat) :
    (set_item_key bt pos k).blkno = bt.blkno ∧
    (set_item_key bt pos k).seq = bt.seq := by
  unfold set_item_key
  cases bt.entries.get? pos <;> exact ⟨rfl, rfl⟩

theorem delete_item_blkno_seq2 (bt : Block) (pos : Nat) :
    (delete_item bt pos).blkno = bt.blkno ∧ (delete_item bt pos).seq = bt.seq := by
  unfold delete_item
  cases bt.entries.get? pos <;> exact ⟨rfl, rfl⟩

theorem store_del_eq (st : Store) (n : Nat) : store_del st n n = none := by
  unfold store_del
  rw [if_pos rfl]

theorem store_del_ne (st : Store) (n0 n : Nat) (h : n ≠ n0) :
    store_del st n0 n = st n := by
  unfold store_del
  rw [if_neg h]

/-!
Well-formed trees and the items they hold, for the iteration laws.
-/

/-- Whether an item qualifies for an iteration op: every item under NEXT,
items with a new enough seq under NEXT_SEQ (the complement of the leaf-level
`skip_pos_seq` test). -/
def qual_b (q : Nat) (op : WalkOp) (it : Item) : Bool :=
  if op = .nextSeq then decide (q ≤ it.seq) else true

/-- The items of the subtree below a block, leaves left to right.  `l` is
the level of the block (0 for leaves). -/
def subtree_items (s : TreeState) : Nat → Nat → List Item
  | 0, blkno =>
    match s.store blkno with
    | some bt => bt.entries.map (fun e => e.2)
    | none => []
  | l + 1, blkno =>
    match s.store blkno with
    | some bt => bt.entries.flatMap (fun e => subtree_items s l (item_bref e.2).blkno)
    | none => []

/-- Every item in the subtree below a block has seq at most `q`: what a
parent ref's seq asserts about its subtree, making NEXT_SEQ pruning sound. -/
def subtree_seq_le (s : TreeState) (q : Nat) : Nat → Nat → Bool
  | 0, blkno =>
    match s.store blkno with
    | some bt => bt.entries.all (fun e => decide (e.2.seq ≤ q))
    | none => true
  | l + 1, blkno =>
    match s.store blkno with
    | some bt => bt.entries.all (fun e => subtree_seq_le s q l (item_bref e.2).blkno)
    | none => true

/-- Well-formedness of the subtree below a block covering the inclusive key
interval `[lb, ub]`: the block is stored under its own number with strictly
key-sorted items; leaf items lie inside the interval; a parent's children
partition the interval at the parent keys, the greatest parent key is `ub`,
every child ref is a block ref whose seq bounds the seqs in the child's
subtree, and every child subtree is in turn well formed. -/
def subtree_wf (s : TreeState) : Nat → Nat → Nat → Nat → Bool
  | 0, blkno, lb, ub =>
    match s.store blkno with
    | some bt =>
      decide (bt.blkno = blkno) && asc (block_keys bt) &&
      bt.entries.all (fun e => decide (lb ≤ e.2.key) && decide (e.2.key ≤ ub))
    | none => false
  | l + 1, blkno, lb, ub =>
    match s.store blkno with
    | some bt =>
      decide (bt.blkno = blkno) && asc (block_keys bt) &&
      decide (bt.entries ≠ []) && decide (greatest_key bt = ub) &&
      (bt.entries.zip (lb :: bt.entries.map (fun e => e.2.key + 1))).all
        (fun p =>
          decide (p.2 ≤ p.1.2.key) &&
          match p.1.2.val with
          | .bref r =>
            subtree_wf s l r.blkno p.2 p.1.2.key &&
            subtree_seq_le s r.seq l r.blkno
          | .bytes _ => false)
    | none => false

/-- The items of the whole tree, in key order for a well-formed tree. -/
def tree_items (s : TreeState) : List Item :=
  if s.root.height = 0 then []
  else subtree_items s (s.root.height - 1) s.root.ref.blkno

/-- Well-formedness of the whole tree: empty, or a well-formed subtree
covering the full key space whose ref seq bounds every item seq. -/
def tree_wf (s : TreeState) : Bool :=
  if s.root.height = 0 then true
  else
    subtree_wf s (s.root.height - 1) s.root.ref.blkno 0 SCOUTFS_MAX_KEY &&
    subtree_seq_le s s.root.ref.seq (s.root.height - 1) s.root.ref.blkno

/-- The items iteration must yield: those in `[first, last]` that qualify,
in tree order. -/
def range_items (s : TreeState) (first last q : Nat) (op : WalkOp) :
    List Item :=
  (tree_items s).filter
    (fun it => decide (first ≤ it.key) && decide (it.key ≤ last) &&
      qual_b q op it)

/-- The inclusive lower bound of the `i`-th child's key interval below a
parent block whose own interval starts at `lb`. -/
def childlb (bt : Block) (lb : Nat) : Nat → Nat
  | 0 => lb
  | i + 1 => key_at bt i + 1

/-- `pos_item` on an in-bounds position reads the entry. -/
theorem pos_item_get (bt : Block) (i : Nat) (h : i < bt.nr_items) :
    pos_item bt i = (bt.entries.get ⟨i, h⟩).2 := by
  have h' : i < bt.entries.length := h
  simp [pos_item, List.get?_eq_getElem?, List.getElem?_eq_getElem h',
    List.get_eq_getElem]

/-- Unpacking a well-formed leaf. -/
theorem subtree_wf_leaf (s : TreeState) (blkno lb ub : Nat)
    (h : subtree_wf s 0 blkno lb ub = true) :
    ∃ bt, s.store blkno = some bt ∧ bt.blkno = blkno ∧
      asc (block_keys bt) = true ∧
      ∀ e ∈ bt.entries, lb ≤ e.2.key ∧ e.2.key ≤ ub := by
  unfold subtree_wf at h
  cases hst : s.store blkno with
  | none => rw [hst] at h; exact absurd h (by simp)
  | some bt =>
    rw [hst] at h
    simp only [Bool.and_eq_true, decide_eq_true_eq, List.all_eq_true] at h
    refine ⟨bt, rfl, h.1.1, h.1.2, ?_⟩
    intro e he
    have := h.2 e he
    simp only [Bool.and_eq_true, decide_eq_true_eq] at this
    exact this

/-- Unpacking a well-formed parent: each in-bounds position holds a block
ref to a well-formed child subtree covering `[childlb i, key_at i]` whose
item seqs the ref's seq bounds. -/
theorem subtree_wf_node (s : TreeState) (l blkno lb ub : Nat)
    (h : subtree_wf s (l + 1) blkno lb ub = true) :
    ∃ bt, s.store blkno = some bt ∧ bt.blkno = blkno ∧
      asc (block_keys bt) = true ∧ bt.entries ≠ [] ∧ greatest_key bt = ub ∧
      ∀ i, i < bt.nr_items → ∃ r,
        (pos_item bt i).val = .bref r ∧
        childlb bt lb i ≤ key_at bt i ∧
        subtree_wf s l r.blkno (childlb bt lb i) (key_at bt i) = true ∧
        subtree_seq_le s r.seq l r.blkno = true := by
  unfold subtree_wf at h
  cases hst : s.store blkno with
  | none => rw [hst] at h; exact absurd h (by simp)
  | some bt =>
    rw [hst] at h
    simp only [Bool.and_eq_true, decide_eq_true_eq, List.all_eq_true] at h
    obtain ⟨⟨⟨⟨hbn, hasc⟩, hne⟩, hgk⟩, hall⟩ := h
    refine ⟨bt, rfl, hbn, hasc, hne, hgk, ?_⟩
    intro i hi
    have hlen : (lb :: bt.entries.map (fun e => e.2.key + 1)).length =
        bt.entries.length + 1 := by simp
    have hi' : i < bt.entries.length := hi
    have hzlen : i < (bt.entries.zip
        (lb :: bt.entries.map (fun e => e.2.key + 1))).length := by
      rw [List.length_zip]
      omega
    have hmem : (bt.entries.get ⟨i, hi'⟩,
        (lb :: bt.entries.map (fun e => e.2.key + 1)).get ⟨i, by omega⟩) ∈
        bt.entries.zip (lb :: bt.entries.map (fun e => e.2.key + 1)) := by
      have := @List.get_zip _ _ bt.entries
        (lb :: bt.entries.map (fun e => e.2.key + 1)) ⟨i, hzlen⟩
      rw [← this]
      exact List.get_mem _ _ _
    have hp := hall _ hmem
    have hlbs : ((lb :: bt.entries.map (fun e => e.2.key + 1)).get
        ⟨i, by omega⟩) = childlb bt lb i := by
      cases i with
      | zero => rfl
      | succ j =>
        have hj : j < bt.entries.length := by omega
        have hj2 : j < (bt.entries.map (fun e => e.2.key + 1)).length := by
          simpa using hj
        show (bt.entries.map (fun e => e.2.key + 1)).get ⟨j, hj2⟩ =
          childlb bt lb (j + 1)
        simp only [List.get_map, childlb, key_at]
        rw [pos_item_get bt j hj]
    rw [hlbs] at hp
    simp only [Bool.and_eq_true, decide_eq_true_eq] at hp
    obtain ⟨hle, hp2⟩ := hp
    rw [pos_item_get bt i hi]
    cases hval : (bt.entries.get ⟨i, hi'⟩).2.val with
    | bytes bs =>
      rw [hval] at hp2
      exact absurd hp2 (by simp)
    | bref r =>
      rw [hval] at hp2
      simp only [Bool.and_eq_true] at hp2
      have hk : key_at bt i = (bt.entries.get ⟨i, hi'⟩).2.key := by
        simp only [key_at]
        rw [pos_item_get bt i hi]
      rw [hk]
      exact ⟨r, rfl, hle, hp2.1, hp2.2⟩

theorem asc_cons_of {a : Nat} {l : List Nat} (hl : asc l = true)
    (h : ∀ x ∈ l, a < x) : asc (a :: l) = true := by
  cases l with
  | nil => rfl
  | cons b r =>
    unfold asc
    exact Bool.and_eq_true _ _ |>.mpr
      ⟨decide_eq_true (h b (List.mem_cons_self _ _)), hl⟩

theorem asc_append_of {A B : List Nat} (hA : asc A = true) (hB : asc B = true)
    (h : ∀ a ∈ A, ∀ b ∈ B, a < b) : asc (A ++ B) = true := by
  induction A with
  | nil => exact hB
  | cons a A' ih =>
    rw [List.cons_append]
    refine asc_cons_of (ih (asc_tail hA) ?_) ?_
    · intro x hx b hb
      exact h x (List.mem_cons_of_mem _ hx) b hb
    · intro x hx
      rcases List.mem_append.mp hx with hx | hx
      · exact asc_head_lt hA x hx
      · exact h a (List.mem_cons_self _ _) x hx

theorem asc_mem_of_cons {a : Nat} {l : List Nat} :
    asc (a :: l) = true → asc l = true := asc_tail

/-- Reading `subtree_items` at a leaf. -/
theorem subtree_items_leaf (s : TreeState) (blkno : Nat) (bt : Block)
    (hst : s.store blkno = some bt) :
    subtree_items s 0 blkno = bt.entries.map (fun e => e.2) := by
  unfold subtree_items
  rw [hst]

/-- Reading `subtree_items` at a parent. -/
theorem subtree_items_node (s : TreeState) (l : Nat) (blkno : Nat) (bt : Block)
    (hst : s.store blkno = some bt) :
    subtree_items s (l + 1) blkno =
      bt.entries.flatMap (fun e => subtree_items s l (item_bref e.2).blkno) := by
  have h0 : subtree_items s (l + 1) blkno = match s.store blkno with
      | some bt => bt.entries.flatMap (fun e => subtree_items s l (item_bref e.2).blkno)
      | none => [] := rfl
  rw [h0, hst]

/-- Every item under a subtree bounded by `q'` in `subtree_seq_le` has seq
at most `q'`. -/
theorem subtree_seq_le_spec (s : TreeState) :
    ∀ l blkno q', subtree_seq_le s q' l blkno = true →
      ∀ it ∈ subtree_items s l blkno, it.seq ≤ q' := by
  intro l
  induction l with
  | zero =>
    intro blkno q' h it hit
    cases hst : s.store blkno with
    | none =>
      unfold subtree_items at hit
      rw [hst] at hit
      exact absurd hit (by simp)
    | some bt =>
      rw [subtree_items_leaf s blkno bt hst] at hit
      unfold subtree_seq_le at h
      rw [hst] at h
      simp only [List.all_eq_true, decide_eq_true_eq] at h
      rcases List.mem_map.mp hit with ⟨e, he, rfl⟩
      exact h e he
  | succ l ih =>
    intro blkno q' h it hit
    cases hst : s.store blkno with
    | none =>
      unfold subtree_items at hit
      rw [hst] at hit
      exact absurd hit (by simp)
    | some bt =>
      rw [subtree_items_node s l blkno bt hst] at hit
      unfold subtree_seq_le at h
      rw [hst] at h
      simp only [List.all_eq_true] at h
      rcases List.mem_flatMap.mp hit with ⟨e, he, hit2⟩
      exact ih (item_bref e.2).blkno q' (h e he) it hit2

/-- Every in-bounds key is at most the greatest key of a sorted block. -/
theorem key_at_le_greatest (bt : Block) (hasc : asc (block_keys bt) = true) :
    ∀ i, i < bt.nr_items → key_at bt i ≤ greatest_key bt := by
  intro i hi
  rcases Nat.lt_or_ge i (bt.nr_items - 1) with hlt | hge
  · exact Nat.le_of_lt (key_at_lt bt hasc hlt (by omega))
  · have : i = bt.nr_items - 1 := by omega
    rw [this]
    exact Nat.le_refl _

/-- Child interval lower bounds never drop below the parent's. -/
theorem childlb_ge (bt : Block) (lb : Nat)
    (hasc : asc (block_keys bt) = true) (h0 : lb ≤ key_at bt 0) :
    ∀ i, i < bt.nr_items → lb ≤ childlb bt lb i := by
  intro i hi
  cases i with
  | zero => exact Nat.le_refl _
  | succ j =>
    have hj0 : key_at bt 0 ≤ key_at bt j := by
      cases Nat.eq_zero_or_pos j with
      | inl h => rw [h]
      | inr h => exact Nat.le_of_lt (key_at_lt bt hasc h (by omega))
    show lb ≤ key_at bt j + 1
    omega

/-- Items of a well-formed subtree lie inside its key interval. -/
theorem subtree_items_bounds (s : TreeState) :
    ∀ l blkno lb ub, subtree_wf s l blkno lb ub = true →
      ∀ it ∈ subtree_items s l blkno, lb ≤ it.key ∧ it.key ≤ ub := by
  intro l
  induction l with
  | zero =>
    intro blkno lb ub h it hit
    obtain ⟨bt, hst, _, _, hb⟩ := subtree_wf_leaf s blkno lb ub h
    rw [subtree_items_leaf s blkno bt hst] at hit
    rcases List.mem_map.mp hit with ⟨e, he, rfl⟩
    exact hb e he
  | succ l ih =>
    intro blkno lb ub h it hit
    obtain ⟨bt, hst, hbn, hasc, hne, hgk, hch⟩ := subtree_wf_node s l blkno lb ub h
    rw [subtree_items_node s l blkno bt hst] at hit
    rcases List.mem_flatMap.mp hit with ⟨e, he, hit2⟩
    rcases List.mem_iff_get.mp he with ⟨⟨i, hi⟩, hei⟩
    obtain ⟨r, hval, hcle, hwf, hse⟩ := hch i hi
    have hpe : pos_item bt i = e.2 := by rw [pos_item_get bt i hi, hei]
    have hib : item_bref e.2 = r := by
      unfold item_bref
      rw [← hpe, hval]
    rw [hib] at hit2
    have hrec := ih r.blkno (childlb bt lb i) (key_at bt i) hwf it hit2
    have h0 : 0 < bt.nr_items := by
      cases hE : bt.entries with
      | nil => exact absurd hE hne
      | cons a l2 => simp [Block.nr_items, hE]
    obtain ⟨r0, _, hcle0, _, _⟩ := hch 0 h0
    have hlb0 : lb ≤ key_at bt 0 := hcle0
    have hlbi := childlb_ge bt lb hasc hlb0 i hi
    have hub : key_at bt i ≤ ub := by
      rw [← hgk]
      exact key_at_le_greatest bt hasc i hi
    exact ⟨by omega, by omega⟩

/-- The items of a well-formed subtree are strictly sorted by key. -/
theorem subtree_items_asc (s : TreeState) :
    ∀ l blkno lb ub, subtree_wf s l blkno lb ub = true →
      asc ((subtree_items s l blkno).map (fun it => it.key)) = true := by
  intro l
  induction l with
  | zero =>
    intro blkno lb ub h
    obtain ⟨bt, hst, _, hasc, _⟩ := subtree_wf_leaf s blkno lb ub h
    rw [subtree_items_leaf s blkno bt hst, List.map_map]
    exact hasc
  | succ l ih =>
    intro blkno lb ub h
    obtain ⟨bt, hst, hbn, hasc, hne, hgk, hch⟩ := subtree_wf_node s l blkno lb ub h
    rw [subtree_items_node s l blkno bt hst]
    suffices H : ∀ n i, bt.nr_items ≤ i + n →
        asc (((bt.entries.drop i).flatMap
          (fun e => subtree_items s l (item_bref e.2).blkno)).map
            (fun it => it.key)) = true ∧
        (∀ it ∈ (bt.entries.drop i).flatMap
          (fun e => subtree_items s l (item_bref e.2).blkno),
            childlb bt lb i ≤ it.key) by
      have := (H bt.nr_items 0 (by omega)).1
      rw [List.drop_zero] at this
      exact this
    intro n
    induction n with
    | zero =>
      intro i hle
      have hd : bt.entries.drop i = [] :=
        List.drop_eq_nil_of_le (by simpa [Block.nr_items] using hle)
      rw [hd]
      exact ⟨rfl, by intro it hit; exact absurd hit (by simp)⟩
    | succ n ihn =>
      intro i hle
      rcases Nat.lt_or_ge i bt.nr_items with hi | hi
      · have hi' : i < bt.entries.length := hi
        have hd : bt.entries.drop i =
            bt.entries.get ⟨i, hi'⟩ :: bt.entries.drop (i + 1) :=
          List.drop_eq_get_cons hi'
        obtain ⟨r, hval, hcle, hwf, hse⟩ := hch i hi
        have hpe : pos_item bt i = (bt.entries.get ⟨i, hi'⟩).2 :=
          pos_item_get bt i hi
        have hib : item_bref (bt.entries.get ⟨i, hi'⟩).2 = r := by
          unfold item_bref
          rw [← hpe, hval]
        obtain ⟨ihn1, ihn2⟩ := ihn (i + 1) (by omega)
        have hcasc : asc ((subtree_items s l r.blkno).map
            (fun it => it.key)) = true :=
          ih r.blkno (childlb bt lb i) (key_at bt i) hwf
        have hcb := subtree_items_bounds s l r.blkno (childlb bt lb i)
          (key_at bt i) hwf
        rw [hd, List.flatMap_cons, List.map_append]
        constructor
        · refine asc_append_of (by rw [hib]; exact hcasc) ihn1 ?_
          intro a ha b hb
          rcases List.mem_map.mp ha with ⟨ita, hita, rfl⟩
          rcases List.mem_map.mp hb with ⟨itb, hitb, rfl⟩
          rw [hib] at hita
          have ha2 := (hcb ita hita).2
          have hb2 := ihn2 itb hitb
          show ita.key < itb.key
          simp only [childlb] at hb2
          omega
        · intro it hit
          rcases List.mem_append.mp hit with hit | hit
          · rw [hib] at hit
            have := (hcb it hit).1
            omega
          · have := ihn2 it hit
            simp only [childlb] at this
            have hge := childlb_ge bt lb hasc (by
              have h0 : 0 < bt.nr_items := by
                cases hE : bt.entries with
                | nil => exact absurd hE hne
                | cons a l2 => simp [Block.nr_items, hE]
              obtain ⟨r0, _, hcle0, _, _⟩ := hch 0 h0
              exact hcle0) i hi
            have hcli : childlb bt lb i ≤ key_at bt i := hcle
            omega
      · have hd : bt.entries.drop i = [] :=
          List.drop_eq_nil_of_le (by simpa [Block.nr_items] using hi)
        rw [hd]
        exact ⟨rfl, by intro it hit; exact absurd hit (by simp)⟩

/-- Characterization of `find_pos_after_seq` on a sorted block: it starts
at the binary-search position, every in-bounds position below it holding a
key at or above the search key is skipped, and when it lands in bounds the
landing position holds a key at or above the search key and is not
skipped. -/
theorem find_pos_after_seq_spec (bt : Block) (key : Nat) (lvl q : Nat)
    (op : WalkOp) (hasc : asc (block_keys bt) = true) :
    (find_pos bt key).1 ≤ find_pos_after_seq bt key lvl q op ∧
    (∀ j, j < find_pos_after_seq bt key lvl q op → key ≤ key_at bt j →
      j < bt.nr_items → skip_pos_seq bt j lvl q op = true) ∧
    (find_pos_after_seq bt key lvl q op < bt.nr_items →
      skip_pos_seq bt (find_pos_after_seq bt key lvl q op) lvl q op = false ∧
      key ≤ key_at bt (find_pos_after_seq bt key lvl q op)) := by
  obtain ⟨hle, hbelow, hdisj⟩ := find_pos_spec bt key hasc
  have hfp : ∀ i, (find_pos bt key).1 ≤ i → i < bt.nr_items →
      key ≤ key_at bt i := by
    intro i h1 h2
    rcases hdisj with ⟨_, hlt, heq⟩ | ⟨_, hgt⟩
    · rcases Nat.eq_or_lt_of_le h1 with rfl | h1'
      · omega
      · have := key_at_lt bt hasc h1' h2
        omega
    · exact Nat.le_of_lt (hgt i h1 h2)
  unfold find_pos_after_seq
  by_cases hskip : skip_pos_seq bt (find_pos bt key).1 lvl q op = true
  · rw [if_pos hskip]
    refine ⟨Nat.le_of_lt (next_pos_seq_gt _ _ _ _ _), ?_, ?_⟩
    · intro j hjp hjk hjn
      rcases Nat.lt_trichotomy j (find_pos bt key).1 with hj | rfl | hj
      · have := hbelow j hj
        omega
      · exact hskip
      · exact next_pos_seq_skipped bt (find_pos bt key).1 lvl q op j hj hjp
    · intro hp
      exact ⟨next_pos_seq_not_skip bt (find_pos bt key).1 lvl q op,
        hfp _ (Nat.le_of_lt (next_pos_seq_gt _ _ _ _ _)) hp⟩
  · rw [if_neg hskip]
    refine ⟨Nat.le_refl _, ?_, ?_⟩
    · intro j hjp hjk hjn
      have := hbelow j hjp
      omega
    · intro hp
      exact ⟨Bool.not_eq_true _ |>.mp hskip, hfp _ (Nat.le_refl _) hp⟩

/-- A skipped parent position holds a stale block ref. -/
theorem skip_pos_seq_node_true (bt : Block) (pos l q : Nat) (op : WalkOp)
    (h : skip_pos_seq bt pos (l + 1) q op = true) :
    op = .nextSeq ∧ pos < bt.nr_items ∧
      item_block_ref_seq (pos_item bt pos) < q := by
  unfold skip_pos_seq at h
  by_cases hc : op ≠ WalkOp.nextSeq ∨ bt.nr_items ≤ pos
  · rw [if_pos hc] at h
    exact absurd h (by simp)
  · rw [if_neg hc] at h
    push_neg at hc
    simp only [Bool.or_eq_true, Bool.and_eq_true, decide_eq_true_eq] at h
    rcases h with ⟨_, h⟩ | ⟨h0, _⟩
    · exact ⟨hc.1, by omega, h⟩
    · omega

/-- An unskipped in-bounds leaf position holds a new enough item under
NEXT_SEQ; every leaf item qualifies under other ops. -/
theorem skip_pos_seq_leaf_false (bt : Block) (pos q : Nat) (op : WalkOp)
    (hpos : pos < bt.nr_items)
    (h : skip_pos_seq bt pos 0 q op = false) :
    qual_b q op (pos_item bt pos) = true := by
  unfold qual_b
  by_cases hop : op = WalkOp.nextSeq
  · rw [if_pos hop]
    unfold skip_pos_seq at h
    rw [if_neg (by push_neg; exact ⟨hop, hpos⟩)] at h
    simp at h
    simp only [decide_eq_true_eq]
    omega
  · rw [if_neg hop]

/-- A skipped leaf position holds a stale item. -/
theorem skip_pos_seq_leaf_true (bt : Block) (pos q : Nat) (op : WalkOp)
    (h : skip_pos_seq bt pos 0 q op = true) :
    op = .nextSeq ∧ pos < bt.nr_items ∧ (pos_item bt pos).seq < q := by
  unfold skip_pos_seq at h
  by_cases hc : op ≠ WalkOp.nextSeq ∨ bt.nr_items ≤ pos
  · rw [if_pos hc] at h
    exact absurd h (by simp)
  · rw [if_neg hc] at h
    push_neg at hc
    simp only [Bool.or_eq_true, Bool.and_eq_true, decide_eq_true_eq] at h
    rcases h with ⟨h0, _⟩ | ⟨_, h⟩
    · omega
    · exact ⟨hc.1, by omega, h⟩

/-- A stale leaf item does not qualify under NEXT_SEQ. -/
theorem qual_b_of_stale (q : Nat) (it : Item) (h : it.seq < q) :
    qual_b q .nextSeq it = false := by
  unfold qual_b
  rw [if_pos rfl]
  simp only [decide_eq_false_iff_not]
  omega

/-- Reading a clean block through a resolved ref location. -/
theorem get_block_ref_read (s : TreeState) (loc : RefLoc) (r : BRef)
    (bt : Block) (hr : read_ref_loc s loc = some r)
    (hst : s.store r.blkno = some bt) :
    get_block_ref s loc false = some (bt, s) := by
  unfold get_block_ref
  simp only [hr, hst]
  rfl

/-- Iteration-facing specification of the walk loop for the read-only ops:
the state is untouched, and the walk either finds the leaf whose interval
contains the key — returning, under `NEXT_SEQ`, only leaves on qualifying
ref paths and a resume key covering everything it skipped — or reports
`noent` with a resume key below which nothing qualifies. -/
theorem walk_loop_iter_spec (s : TreeState) (q : Nat) (op : WalkOp)
    (hop : op = .next ∨ op = .nextSeq) :
    ∀ l b lb ub k loc pinfo nk0,
      subtree_wf s l b lb ub = true →
      (∃ r, read_ref_loc s loc = some r ∧ r.blkno = b) →
      k ≤ ub →
      (walk_loop k 0 q op l s loc pinfo nk0).state = s ∧
      ((∃ blkno L ubL,
          (walk_loop k 0 q op l s loc pinfo nk0).res = .ok blkno ∧
          s.store blkno = some L ∧
          asc (block_keys L) = true ∧
          k ≤ ubL ∧ ubL ≤ ub ∧
          (∀ e ∈ L.entries, e.2.key ≤ ubL) ∧
          (∀ e ∈ L.entries, e.2 ∈ subtree_items s l b) ∧
          (∀ it ∈ subtree_items s l b, k ≤ it.key → it.key ≤ ubL →
            qual_b q op it = true → it ∈ L.entries.map (fun e => e.2)) ∧
          (((walk_loop k 0 q op l s loc pinfo nk0).next_key = nk0 ∧ ubL = ub) ∨
            (walk_loop k 0 q op l s loc pinfo nk0).next_key = ubL + 1)) ∨
        ((walk_loop k 0 q op l s loc pinfo nk0).res = .error .noent ∧
          op = .nextSeq ∧
          (∀ it ∈ subtree_items s l b, k ≤ it.key →
            it.key < (walk_loop k 0 q op l s loc pinfo nk0).next_key →
            qual_b q op it = false) ∧
          (k < (walk_loop k 0 q op l s loc pinfo nk0).next_key ∨
            (walk_loop k 0 q op l s loc pinfo nk0).next_key = nk0) ∧
          ((walk_loop k 0 q op l s loc pinfo nk0).next_key ≤ ub + 1 ∨
            (walk_loop k 0 q op l s loc pinfo nk0).next_key = nk0))) := by
  have hdirty : op.isDirtyOp = false := by
    rcases hop with rfl | rfl <;> rfl
  have hnotins : op ≠ .insert := by
    rcases hop with rfl | rfl <;> intro h <;> cases h
  have hnotdel : op ≠ .delete := by
    rcases hop with rfl | rfl <;> intro h <;> cases h
  intro l
  induction l with
  | zero =>
    intro b lb ub k loc pinfo nk0 hwf hloc hk
    obtain ⟨r, hr, hrb⟩ := hloc
    obtain ⟨bt, hst, hbn, hasc, hbounds⟩ := subtree_wf_leaf s b lb ub hwf
    have hst' : s.store r.blkno = some bt := by rw [hrb]; exact hst
    have hred : walk_loop k 0 q op 0 s loc pinfo nk0 = ⟨.ok bt.blkno, s, nk0⟩ := by
      simp only [walk_loop, hdirty, get_block_ref_read s loc r bt hr hst',
        if_neg hnotins, if_neg hnotdel]
    rw [hred]
    refine ⟨rfl, Or.inl ⟨bt.blkno, bt, ub, rfl, ?_, hasc, hk, Nat.le_refl _,
      ?_, ?_, ?_, Or.inl ⟨rfl, rfl⟩⟩⟩
    · rw [hbn]
      exact hst
    · intro e he
      exact (hbounds e he).2
    · intro e he
      rw [subtree_items_leaf s b bt hst]
      exact List.mem_map.mpr ⟨e, he, rfl⟩
    · intro it hit _ _ _
      rw [subtree_items_leaf s b bt hst] at hit
      exact hit
  | succ l ih =>
    intro b lb ub k loc pinfo nk0 hwf hloc hk
    obtain ⟨r, hr, hrb⟩ := hloc
    obtain ⟨bt, hst, hbn, hasc, hne, hgk, hch⟩ := subtree_wf_node s l b lb ub hwf
    have hst' : s.store r.blkno = some bt := by rw [hrb]; exact hst
    have h0 : 0 < bt.nr_items := by
      cases hE : bt.entries with
      | nil => exact absurd hE hne
      | cons a l2 => simp [Block.nr_items, hE]
    have hmono : ∀ j1 j2 : Nat, j1 ≤ j2 → j2 < bt.nr_items →
        key_at bt j1 ≤ key_at bt j2 := by
      intro j1 j2 hle hlt
      rcases Nat.eq_or_lt_of_le hle with rfl | hlt2
      · exact Nat.le_refl _
      · exact Nat.le_of_lt (key_at_lt bt hasc hlt2 hlt)
    have hgk' : key_at bt (bt.nr_items - 1) = ub := hgk
    obtain ⟨hfple, hskipped, hland⟩ := find_pos_after_seq_spec bt k (l + 1) q op hasc
    have hred : walk_loop k 0 q op (l + 1) s loc pinfo nk0 =
        (match bt.entries.get? (find_pos_after_seq bt k (l + 1) q op) with
         | none => ⟨.error (if op = .nextSeq then .noent else .io), s, nk0⟩
         | some ent =>
           walk_loop k 0 q op l s
             (.parent bt.blkno (find_pos_after_seq bt k (l + 1) q op))
             (some (bt.blkno, find_pos_after_seq bt k (l + 1) q op))
             (scoutfs_inc_key ent.2.key)) := by
      rw [walk_loop]
      simp only [hdirty, get_block_ref_read s loc r bt hr hst',
        if_neg hnotins, if_neg hnotdel]
    rcases hget : bt.entries.get? (find_pos_after_seq bt k (l + 1) q op)
      with _ | ent
    · have hpge : bt.entries.length ≤ find_pos_after_seq bt k (l + 1) q op :=
        List.get?_eq_none.mp hget
      have hnrlen : bt.nr_items = bt.entries.length := rfl
      have hlast : k ≤ key_at bt (bt.nr_items - 1) := by omega
      have hsk := hskipped (bt.nr_items - 1) (by omega) hlast (by omega)
      rcases hop with rfl | rfl
      · rw [skip_pos_seq_ne bt _ _ _ _ (by intro h; cases h)] at hsk
        exact absurd hsk (by simp)
      · rw [hred, hget]
        refine ⟨rfl, Or.inr ⟨by rw [if_pos rfl], rfl, ?_, Or.inr rfl, Or.inr rfl⟩⟩
        intro it hit hkit hitnk
        rw [subtree_items_node s l b bt hst] at hit
        rcases List.mem_flatMap.mp hit with ⟨e, he, hitc⟩
        rcases List.mem_iff_get.mp he with ⟨⟨j, hj⟩, hej⟩
        obtain ⟨rj, hvalj, hclej, hwfj, hsej⟩ := hch j hj
        have hibj : item_bref e.2 = rj := by
          unfold item_bref
          rw [← (by rw [pos_item_get bt j hj, hej] :
            pos_item bt j = e.2), hvalj]
        rw [hibj] at hitc
        have hcb := subtree_items_bounds s l rj.blkno (childlb bt lb j)
          (key_at bt j) hwfj it hitc
        by_cases hkj : key_at bt j < k
        · omega
        · have hskj := hskipped j (by omega) (by omega) hj
          obtain ⟨_, _, hstale⟩ := skip_pos_seq_node_true bt j l q .nextSeq hskj
          have hibs : item_block_ref_seq (pos_item bt j) = rj.seq := by
            unfold item_block_ref_seq
            rw [hvalj]
          have hsql := subtree_seq_le_spec s l rj.blkno rj.seq hsej it hitc
          exact qual_b_of_stale q it (by omega)
    · obtain ⟨hplen, hent⟩ := List.get?_eq_some.mp hget
      obtain ⟨rp, hvalp, hclep, hwfp, hsep⟩ := hch _ hplen
      have hpe : pos_item bt (find_pos_after_seq bt k (l + 1) q op) = ent.2 := by
        rw [pos_item_get bt _ hplen, hent]
      have hib : item_bref ent.2 = rp := by
        unfold item_bref
        rw [← hpe, hvalp]
      have hkp : k ≤ key_at bt (find_pos_after_seq bt k (l + 1) q op) :=
        (hland hplen).2
      have hloc' : read_ref_loc s
          (.parent bt.blkno (find_pos_after_seq bt k (l + 1) q op)) = some rp := by
        unfold read_ref_loc
        simp only [show s.store bt.blkno = some bt by rw [hbn]; exact hst,
          hget, hib]
      have hentk : ent.2.key = key_at bt (find_pos_after_seq bt k (l + 1) q op) := by
        rw [key_at, hpe]
      have hkaub : key_at bt (find_pos_after_seq bt k (l + 1) q op) ≤ ub := by
        rw [← hgk]
        exact key_at_le_greatest bt hasc _ hplen
      have hnrlen : bt.nr_items = bt.entries.length := rfl
      have hred2 : walk_loop k 0 q op (l + 1) s loc pinfo nk0 =
          walk_loop k 0 q op l s
            (.parent bt.blkno (find_pos_after_seq bt k (l + 1) q op))
            (some (bt.blkno, find_pos_after_seq bt k (l + 1) q op))
            (scoutfs_inc_key ent.2.key) := by
        rw [hred, hget]
      have IH := ih rp.blkno (childlb bt lb (find_pos_after_seq bt k (l + 1) q op))
        (key_at bt (find_pos_after_seq bt k (l + 1) q op)) k
        (.parent bt.blkno (find_pos_after_seq bt k (l + 1) q op))
        (some (bt.blkno, find_pos_after_seq bt k (l + 1) q op))
        (scoutfs_inc_key ent.2.key) hwfp ⟨rp, hloc', rfl⟩ hkp
      rw [hred2]
      obtain ⟨ihstate, ihcases⟩ := IH
      refine ⟨ihstate, ?_⟩
      rcases ihcases with ⟨blkno, L, ubL, hres, hstL, hascL, hkubL, hubLle,
          hLub, hLmem, hLcomp, hnk⟩ | ⟨hres, hopseq, hnoq, hprog, hbound⟩
      · left
        refine ⟨blkno, L, ubL, hres, hstL, hascL, hkubL,
          Nat.le_trans hubLle hkaub, hLub, ?_, ?_, ?_⟩
        · intro e' he'
          rw [subtree_items_node s l b bt hst]
          refine List.mem_flatMap.mpr ⟨ent, ?_, ?_⟩
          · rw [← hent]
            exact List.get_mem _ _ _
          · rw [hib]
            exact hLmem e' he'
        · intro it hit hkit hitub hq
          rw [subtree_items_node s l b bt hst] at hit
          rcases List.mem_flatMap.mp hit with ⟨e, he, hitc⟩
          rcases List.mem_iff_get.mp he with ⟨⟨j, hj⟩, hej⟩
          obtain ⟨rj, hvalj, hclej, hwfj, hsej⟩ := hch j hj
          have hibj : item_bref e.2 = rj := by
            unfold item_bref
            rw [← (by rw [pos_item_get bt j hj, hej] :
              pos_item bt j = e.2), hvalj]
          rw [hibj] at hitc
          have hcb := subtree_items_bounds s l rj.blkno (childlb bt lb j)
            (key_at bt j) hwfj it hitc
          rcases Nat.lt_trichotomy j (find_pos_after_seq bt k (l + 1) q op)
            with hjp | heq | hjp
          · by_cases hkj : key_at bt j < k
            · omega
            · have hskj := hskipped j hjp (by omega) hj
              obtain ⟨hopseq2, _, hstale⟩ :=
                skip_pos_seq_node_true bt j l q op hskj
              have hibs : item_block_ref_seq (pos_item bt j) = rj.seq := by
                unfold item_block_ref_seq
                rw [hvalj]
              have hsql := subtree_seq_le_spec s l rj.blkno rj.seq hsej it hitc
              rw [hopseq2] at hq
              rw [qual_b_of_stale q it (by omega)] at hq
              exact absurd hq (by simp)
          · have heent : e = ent := by
              subst heq
              rw [← hej]
              exact hent
            subst heent
            subst heq
            have hrr : rj = rp := by
              have h2 := hvalj.symm.trans hvalp
              injection h2
            subst hrr
            exact hLcomp it hitc hkit hitub hq
          · have hjlb : key_at bt (find_pos_after_seq bt k (l + 1) q op) + 1 ≤
                childlb bt lb j := by
              cases j with
              | zero => omega
              | succ j' =>
                show _ ≤ key_at bt j' + 1
                have := hmono (find_pos_after_seq bt k (l + 1) q op) j'
                  (by omega) (by omega)
                omega
            omega
        · rcases hnk with ⟨hnkeq, hubLeq⟩ | hnkeq
          · right
            rw [hnkeq, hubLeq, hentk]
            rfl
          · right
            exact hnkeq
      · right
        refine ⟨hres, hopseq, ?_, ?_, ?_⟩
        · intro it hit hkit hitnk
          rw [subtree_items_node s l b bt hst] at hit
          rcases List.mem_flatMap.mp hit with ⟨e, he, hitc⟩
          rcases List.mem_iff_get.mp he with ⟨⟨j, hj⟩, hej⟩
          obtain ⟨rj, hvalj, hclej, hwfj, hsej⟩ := hch j hj
          have hibj : item_bref e.2 = rj := by
            unfold item_bref
            rw [← (by rw [pos_item_get bt j hj, hej] :
              pos_item bt j = e.2), hvalj]
          rw [hibj] at hitc
          have hcb := subtree_items_bounds s l rj.blkno (childlb bt lb j)
            (key_at bt j) hwfj it hitc
          rcases Nat.lt_trichotomy j (find_pos_after_seq bt k (l + 1) q op)
            with hjp | heq | hjp
          · by_cases hkj : key_at bt j < k
            · omega
            · have hskj := hskipped j hjp (by omega) hj
              obtain ⟨hopseq2, _, hstale⟩ :=
                skip_pos_seq_node_true bt j l q op hskj
              have hibs : item_block_ref_seq (pos_item bt j) = rj.seq := by
                unfold item_block_ref_seq
                rw [hvalj]
              have hsql := subtree_seq_le_spec s l rj.blkno rj.seq hsej it hitc
              rw [hopseq2]
              exact qual_b_of_stale q it (by omega)
          · have heent : e = ent := by
              subst heq
              rw [← hej]
              exact hent
            subst heent
            subst heq
            have hrr : rj = rp := by
              have h2 := hvalj.symm.trans hvalp
              injection h2
            subst hrr
            exact hnoq it hitc hkit hitnk
          · have hjlb : key_at bt (find_pos_after_seq bt k (l + 1) q op) + 1 ≤
                childlb bt lb j := by
              cases j with
              | zero => omega
              | succ j' =>
                show _ ≤ key_at bt j' + 1
                have := hmono (find_pos_after_seq bt k (l + 1) q op) j'
                  (by omega) (by omega)
                omega
            have hnkb : (walk_loop k 0 q op l s
                (.parent bt.blkno (find_pos_after_seq bt k (l + 1) q op))
                (some (bt.blkno, find_pos_after_seq bt k (l + 1) q op))
                (scoutfs_inc_key ent.2.key)).next_key ≤
                key_at bt (find_pos_after_seq bt k (l + 1) q op) + 1 := by
              rcases hbound with hb | hb
              · rw [← hentk]
                omega
              · rw [hb, hentk]
                exact Nat.le_refl _
            omega
        · left
          rcases hprog with hb | hb
          · exact hb
          · rw [hb]
            show k < scoutfs_inc_key ent.2.key
            unfold scoutfs_inc_key
            omega
        · left
          rcases hbound with hb | hb
          · rw [← hentk] at hkaub
            omega
          · rw [hb]
            show scoutfs_inc_key ent.2.key ≤ ub + 1
            unfold scoutfs_inc_key
            omega

/-- Iteration-facing specification of a whole-tree walk on a nonempty
well-formed tree. -/
theorem btree_walk_iter_spec (s : TreeState) (q : Nat) (op : WalkOp)
    (hop : op = .next ∨ op = .nextSeq) (hh : s.root.height ≠ 0)
    (hwf : tree_wf s = true) (k : Nat) (hk : k ≤ SCOUTFS_MAX_KEY) :
    (btree_walk s k 0 q op).state = s ∧
    ((∃ blkno L ubL,
        (btree_walk s k 0 q op).res = .ok blkno ∧
        s.store blkno = some L ∧
        asc (block_keys L) = true ∧
        k ≤ ubL ∧
        (∀ e ∈ L.entries, e.2.key ≤ ubL) ∧
        (∀ e ∈ L.entries, e.2 ∈ tree_items s) ∧
        (∀ it ∈ tree_items s, k ≤ it.key → it.key ≤ ubL →
          qual_b q op it = true → it ∈ L.entries.map (fun e => e.2)) ∧
        ((btree_walk s k 0 q op).next_key = ubL + 1 ∨
          ((btree_walk s k 0 q op).next_key = SCOUTFS_MAX_KEY ∧
            ubL = SCOUTFS_MAX_KEY))) ∨
      ((btree_walk s k 0 q op).res = .error .noent ∧ op = .nextSeq ∧
        (∀ it ∈ tree_items s, k ≤ it.key →
          it.key < (btree_walk s k 0 q op).next_key →
          qual_b q op it = false) ∧
        (k < (btree_walk s k 0 q op).next_key ∨
          (btree_walk s k 0 q op).next_key = SCOUTFS_MAX_KEY))) := by
  unfold tree_wf at hwf
  rw [if_neg hh] at hwf
  simp only [Bool.and_eq_true] at hwf
  obtain ⟨hsub, hseq⟩ := hwf
  have htreeitems : tree_items s =
      subtree_items s (s.root.height - 1) s.root.ref.blkno := by
    unfold tree_items
    rw [if_neg hh]
  unfold btree_walk
  rw [if_neg hh]
  by_cases hprune : op = WalkOp.nextSeq ∧ s.root.ref.seq < q
  · rw [if_pos hprune]
    refine ⟨rfl, Or.inr ⟨rfl, hprune.1, ?_, Or.inr rfl⟩⟩
    intro it hit _ _
    rw [htreeitems] at hit
    have := subtree_seq_le_spec s (s.root.height - 1) s.root.ref.blkno
      s.root.ref.seq hseq it hit
    rw [hprune.1]
    exact qual_b_of_stale q it (by omega)
  · rw [if_neg hprune]
    have hspec := walk_loop_iter_spec s q op hop (s.root.height - 1)
      s.root.ref.blkno 0 SCOUTFS_MAX_KEY k .root none SCOUTFS_MAX_KEY hsub
      ⟨s.root.ref, rfl, rfl⟩ hk
    obtain ⟨hstate, hcases⟩ := hspec
    refine ⟨hstate, ?_⟩
    rcases hcases with ⟨blkno, L, ubL, hres, hstL, hascL, hkubL, _, hLub,
        hLmem, hLcomp, hnk⟩ | ⟨hres, hopseq, hnoq, hprog, _⟩
    · left
      refine ⟨blkno, L, ubL, hres, hstL, hascL, hkubL, hLub, ?_, ?_, ?_⟩
      · intro e he
        rw [htreeitems]
        exact hLmem e he
      · intro it hit h1 h2 h3
        rw [htreeitems] at hit
        exact hLcomp it hit h1 h2 h3
      · rcases hnk with ⟨h1, h2⟩ | h1
        · exact Or.inr ⟨h1, h2⟩
        · exact Or.inl h1
    · right
      refine ⟨hres, hopseq, ?_, ?_⟩
      · intro it hit h1 h2
        rw [htreeitems] at hit
        exact hnoq it hit h1 h2
      · exact hprog

/-- The invariant a seated iteration cursor maintains: it points at a
qualifying in-bounds item of a stored, sorted leaf whose items belong to
the tree, and every qualifying tree item with a key above the cursor's but
within the leaf's interval is in the leaf. -/
def CursInv (s : TreeState) (q : Nat) (op : WalkOp) (b p : Nat) : Prop :=
  ∃ L, s.store b = some L ∧ p < L.nr_items ∧ asc (block_keys L) = true ∧
    (∀ e ∈ L.entries, e.2 ∈ tree_items s) ∧
    qual_b q op (pos_item L p) = true ∧
    ∃ ubL, (∀ e ∈ L.entries, e.2.key ≤ ubL) ∧
      (∀ it ∈ tree_items s, qual_b q op it = true →
        (pos_item L p).key < it.key → it.key ≤ ubL →
        it ∈ L.entries.map (fun e => e.2))

/-- A skipped leaf position never holds a qualifying item. -/
theorem qual_of_skip_leaf (L : Block) (j q : Nat) (op : WalkOp)
    (h : skip_pos_seq L j 0 q op = true) :
    qual_b q op (pos_item L j) = false := by
  obtain ⟨hopseq, _, hstale⟩ := skip_pos_seq_leaf_true L j q op h
  rw [hopseq]
  exact qual_b_of_stale q _ hstale

/-- Every qualifying item of a sorted leaf with key at or above the search
key sits at or after the position `find_pos_after_seq` lands on. -/
theorem leaf_qual_at_ge (L : Block) (k q : Nat) (op : WalkOp)
    (hasc : asc (block_keys L) = true) :
    ∀ it, (∃ e ∈ L.entries, e.2 = it) → qual_b q op it = true → k ≤ it.key →
      ∃ j, j < L.nr_items ∧ pos_item L j = it ∧
        find_pos_after_seq L k 0 q op ≤ j := by
  obtain ⟨_, hskipped, _⟩ := find_pos_after_seq_spec L k 0 q op hasc
  rintro it ⟨e, he, rfl⟩ hq hk
  rcases List.mem_iff_get.mp he with ⟨⟨j, hj⟩, hej⟩
  have hpj : pos_item L j = e.2 := by rw [pos_item_get L j hj, hej]
  have hkj : key_at L j = e.2.key := by rw [key_at, hpj]
  refine ⟨j, hj, hpj, ?_⟩
  by_contra hlt
  push_neg at hlt
  have hsk := hskipped j hlt (by omega) hj
  have := qual_of_skip_leaf L j q op hsk
  rw [hpj] at this
  rw [this] at hq
  exact absurd hq (by simp)

/-- Sortedness of the whole tree's item keys. -/
theorem tree_items_asc (s : TreeState) (hwf : tree_wf s = true) :
    asc ((tree_items s).map (fun it => it.key)) = true := by
  unfold tree_wf at hwf
  unfold tree_items
  by_cases hh : s.root.height = 0
  · rw [if_pos hh]
    rfl
  · rw [if_neg hh]
    rw [if_neg hh] at hwf
    simp only [Bool.and_eq_true] at hwf
    exact subtree_items_asc s (s.root.height - 1) s.root.ref.blkno 0
      SCOUTFS_MAX_KEY hwf.1

/-- When nothing in the range qualifies, the expected yield is empty. -/
theorem range_items_nil (s : TreeState) (k last q : Nat) (op : WalkOp)
    (hnone : ∀ it ∈ tree_items s, qual_b q op it = true → k ≤ it.key →
      it.key ≤ last → False) :
    range_items s k last q op = [] := by
  unfold range_items
  rw [List.filter_eq_nil]
  intro it hit hcontr
  simp only [Bool.and_eq_true, decide_eq_true_eq] at hcontr
  exact hnone it hit hcontr.2 hcontr.1.1 hcontr.1.2

/-- Splitting the expected yield at its first element. -/
theorem range_items_split (s : TreeState) (k last q : Nat) (op : WalkOp)
    (it0 : Item) (hasc : asc ((tree_items s).map (fun it => it.key)) = true)
    (hmem : it0 ∈ tree_items s) (hk : k ≤ it0.key) (hl : it0.key ≤ last)
    (hq : qual_b q op it0 = true)
    (hfirst : ∀ it ∈ tree_items s, qual_b q op it = true → k ≤ it.key →
      it0.key ≤ it.key) :
    range_items s k last q op =
      it0 :: range_items s (it0.key + 1) last q op := by
  unfold range_items
  have main : ∀ lst : List Item, asc (lst.map (fun it => it.key)) = true →
      it0 ∈ lst →
      (∀ it ∈ lst, qual_b q op it = true → k ≤ it.key → it0.key ≤ it.key) →
      lst.filter (fun it => decide (k ≤ it.key) && decide (it.key ≤ last) &&
          qual_b q op it) =
        it0 :: lst.filter (fun it => decide (it0.key + 1 ≤ it.key) &&
          decide (it.key ≤ last) && qual_b q op it) := by
    intro lst
    induction lst with
    | nil => intro _ h; exact absurd h (by simp)
    | cons x rest ih =>
      intro hasc2 hmem2 hfirst2
      rw [List.map_cons] at hasc2
      rcases List.mem_cons.mp hmem2 with heq | hmem3
      · have hx : (decide (k ≤ x.key) && decide (x.key ≤ last) &&
            qual_b q op x) = true := by
          rw [← heq]
          simp only [Bool.and_eq_true, decide_eq_true_eq]
          exact ⟨⟨hk, hl⟩, hq⟩
        have hx2 : (decide (it0.key + 1 ≤ x.key) && decide (x.key ≤ last) &&
            qual_b q op x) = false := by
          rw [← heq]
          simp only [Bool.and_eq_false_iff]
          left
          left
          simp only [decide_eq_false_iff_not]
          omega
        rw [List.filter_cons, List.filter_cons, if_pos hx,
          if_neg (by rw [hx2]; simp)]
        have htail : rest.filter (fun it => decide (k ≤ it.key) &&
            decide (it.key ≤ last) && qual_b q op it) =
            rest.filter (fun it => decide (it0.key + 1 ≤ it.key) &&
              decide (it.key ≤ last) && qual_b q op it) := by
          apply List.filter_congr
          intro it hit
          have hgt : x.key < it.key :=
            asc_head_lt hasc2 it.key (List.mem_map.mpr ⟨it, hit, rfl⟩)
          have hxk : it0.key = x.key := by rw [heq]
          have h1 : decide (k ≤ it.key) = true := by
            simp only [decide_eq_true_eq]
            omega
          have h2 : decide (it0.key + 1 ≤ it.key) = true := by
            simp only [decide_eq_true_eq]
            omega
          rw [h1, h2]
        rw [htail, ← heq]
      · have hxk : x.key < it0.key :=
          asc_head_lt hasc2 it0.key (List.mem_map.mpr ⟨it0, hmem3, rfl⟩)
        have hx : (decide (k ≤ x.key) && decide (x.key ≤ last) &&
            qual_b q op x) = false := by
          by_cases hqx : qual_b q op x = true
          · by_cases hkx : k ≤ x.key
            · have := hfirst2 x (List.mem_cons_self _ _) hqx hkx
              omega
            · simp only [Bool.and_eq_false_iff]
              left
              left
              simp only [decide_eq_false_iff_not]
              exact hkx
          · simp only [Bool.and_eq_false_iff]
            right
            exact Bool.not_eq_true _ |>.mp hqx
        have hx2 : (decide (it0.key + 1 ≤ x.key) && decide (x.key ≤ last) &&
            qual_b q op x) = false := by
          simp only [Bool.and_eq_false_iff]
          left
          left
          simp only [decide_eq_false_iff_not]
          omega
        rw [List.filter_cons, List.filter_cons, if_neg (by rw [hx]; simp),
          if_neg (by rw [hx2]; simp)]
        exact ih (asc_tail hasc2) hmem3
          (fun it hit hq2 hk2 => hfirst2 it (List.mem_cons_of_mem _ hit) hq2 hk2)
  exact main (tree_items s) hasc hmem hfirst

/-- Specification of the leaf-searching loop of `btree_next`: with enough
fuel on a nonempty well-formed tree and `last` below the key sentinel, it
terminates without touching the state, either reporting that nothing at or
after the key qualifies within `last`, or seating a cursor on the first
qualifying item at or after the key. -/
theorem btree_next_walk_spec (s : TreeState) (q last : Nat) (op : WalkOp)
    (hop : op = .next ∨ op = .nextSeq) (hh : s.root.height ≠ 0)
    (hwf : tree_wf s = true) (hlast : last < SCOUTFS_MAX_KEY) :
    ∀ fuel, ∀ k, 0 < fuel → last + 2 ≤ fuel + k →
      (btree_next_walk last q op fuel s k = .done s none ∧
        (∀ it ∈ tree_items s, qual_b q op it = true → k ≤ it.key →
          it.key ≤ last → False)) ∨
      (∃ b p L, btree_next_walk last q op fuel s k = .done s (some (b, p)) ∧
        s.store b = some L ∧
        CursInv s q op b p ∧
        k ≤ (pos_item L p).key ∧
        (∀ it ∈ tree_items s, qual_b q op it = true → k ≤ it.key →
          (pos_item L p).key ≤ it.key)) := by
  intro fuel
  induction fuel with
  | zero =>
    intro k h0 _
    omega
  | succ fuel ihf =>
    intro k h0 hfk
    simp only [btree_next_walk]
    by_cases hkl : scoutfs_key_cmp k last ≤ 0
    · have hkle : k ≤ last := scoutfs_key_cmp_nonpos.mp hkl
      rw [if_pos hkl]
      have hw := btree_walk_iter_spec s q op hop hh hwf k (by
        unfold SCOUTFS_MAX_KEY at hlast ⊢; omega)
      obtain ⟨hstate, hcases⟩ := hw
      rcases hcases with ⟨blkno, L, ubL, hres, hstL, hascL, hkubL, hLub,
          hLmem, hLcomp, hnk⟩ | ⟨hres, hopseq, hnoq, hprog⟩
      · -- the walk found the leaf that should hold the key
        simp only [hres, hstate, hstL]
        obtain ⟨_, hskippedL, hlandL⟩ := find_pos_after_seq_spec L k 0 q op hascL
        have hnoq2 : ∀ it ∈ tree_items s, qual_b q op it = true →
            k ≤ it.key → it.key < (btree_walk s k 0 q op).next_key →
            L.nr_items ≤ find_pos_after_seq L k 0 q op → False := by
          intro it hit hq hk1 hk2 hge
          have hub2 : it.key ≤ ubL := by
            rcases hnk with h1 | ⟨h1, h2⟩
            · omega
            · omega
          have hinL := hLcomp it hit hk1 hub2 hq
          rcases List.mem_map.mp hinL with ⟨e, he, he2⟩
          obtain ⟨j, hj, hpj, hjge⟩ := leaf_qual_at_ge L k q op hascL it
            ⟨e, he, he2⟩ hq hk1
          omega
        by_cases hpos : find_pos_after_seq L k 0 q op < L.nr_items
        · rw [if_pos hpos]
          right
          have hka : key_at L (find_pos_after_seq L k 0 q op) =
              (pos_item L (find_pos_after_seq L k 0 q op)).key := rfl
          obtain ⟨hnoskip, hkc⟩ := hlandL hpos
          have hqual := skip_pos_seq_leaf_false L _ q op hpos hnoskip
          have hpmem : ∃ e ∈ L.entries, e.2 =
              pos_item L (find_pos_after_seq L k 0 q op) :=
            ⟨L.entries.get ⟨_, hpos⟩, List.get_mem _ _ _,
              (pos_item_get L _ hpos).symm⟩
          have hcub : (pos_item L (find_pos_after_seq L k 0 q op)).key ≤ ubL := by
            obtain ⟨e, he, he2⟩ := hpmem
            rw [← he2]
            exact hLub e he
          have hfirst : ∀ it ∈ tree_items s, qual_b q op it = true →
              k ≤ it.key →
              (pos_item L (find_pos_after_seq L k 0 q op)).key ≤ it.key := by
            intro it hit hq hk1
            by_contra hlt
            push_neg at hlt
            have hub2 : it.key ≤ ubL := by omega
            have hinL := hLcomp it hit hk1 hub2 hq
            rcases List.mem_map.mp hinL with ⟨e, he, he2⟩
            obtain ⟨j, hj, hpj, hjge⟩ := leaf_qual_at_ge L k q op hascL it
              ⟨e, he, he2⟩ hq hk1
            have : key_at L (find_pos_after_seq L k 0 q op) ≤ key_at L j := by
              rcases Nat.eq_or_lt_of_le hjge with rfl | hlt2
              · exact Nat.le_refl _
              · exact Nat.le_of_lt (key_at_lt L hascL hlt2 hj)
            have hkj : key_at L j = it.key := by rw [key_at, hpj]
            omega
          refine ⟨blkno, find_pos_after_seq L k 0 q op, L, rfl, hstL,
            ⟨L, hstL, hpos, hascL, hLmem, hqual, ubL, hLub, ?_⟩,
            by omega, hfirst⟩
          intro it hit hq h1 h2
          exact hLcomp it hit (by omega) h2 hq
        · rw [if_neg hpos]
          push_neg at hpos
          have hknk : k < (btree_walk s k 0 q op).next_key ∨
              (btree_walk s k 0 q op).next_key = SCOUTFS_MAX_KEY := by
            rcases hnk with h1 | ⟨h1, _⟩
            · left
              omega
            · right
              exact h1
          have harith : 0 < fuel ∧
              last + 2 ≤ fuel + (btree_walk s k 0 q op).next_key := by
            constructor
            · omega
            · rcases hknk with h1 | h1
              · omega
              · rw [h1]
                unfold SCOUTFS_MAX_KEY at hlast ⊢
                omega
          rcases ihf (btree_walk s k 0 q op).next_key harith.1 harith.2 with
            ⟨heq, hnone⟩ | ⟨b, p, L2, heq, hstL2, hCI, hge, hfirst2⟩
          · left
            refine ⟨heq, ?_⟩
            intro it hit hq hk1 hk2
            rcases Nat.lt_or_ge it.key (btree_walk s k 0 q op).next_key
              with h1 | h1
            · exact hnoq2 it hit hq hk1 h1 hpos
            · exact hnone it hit hq h1 hk2
          · right
            refine ⟨b, p, L2, heq, hstL2, hCI, ?_, ?_⟩
            · have : k < (btree_walk s k 0 q op).next_key ∨ k ≤ SCOUTFS_MAX_KEY := by
                rcases hknk with h1 | h1
                · exact Or.inl h1
                · right
                  unfold SCOUTFS_MAX_KEY at hlast ⊢
                  omega
              rcases hknk with h1 | h1
              · omega
              · have h2 : k ≤ SCOUTFS_MAX_KEY := by
                  unfold SCOUTFS_MAX_KEY at hlast ⊢
                  omega
                omega
            · intro it hit hq hk1
              rcases Nat.lt_or_ge it.key (btree_walk s k 0 q op).next_key
                with h1 | h1
              · exact absurd (hnoq2 it hit hq hk1 h1 hpos) (fun h => h)
              · exact hfirst2 it hit hq h1
      · -- the walk pruned everything reachable below the resume key
        simp only [hres, hstate]
        rw [if_pos hopseq]
        have harith : 0 < fuel ∧
            last + 2 ≤ fuel + (btree_walk s k 0 q op).next_key := by
          constructor
          · omega
          · rcases hprog with h1 | h1
            · omega
            · rw [h1]
              unfold SCOUTFS_MAX_KEY at hlast ⊢
              omega
        rcases ihf (btree_walk s k 0 q op).next_key harith.1 harith.2 with
          ⟨heq, hnone⟩ | ⟨b, p, L2, heq, hstL2, hCI, hge, hfirst2⟩
        · left
          refine ⟨heq, ?_⟩
          intro it hit hq hk1 hk2
          rcases Nat.lt_or_ge it.key (btree_walk s k 0 q op).next_key
            with h1 | h1
          · rw [hnoq it hit hk1 h1] at hq
            exact absurd hq (by simp)
          · exact hnone it hit hq h1 hk2
        · right
          refine ⟨b, p, L2, heq, hstL2, hCI, ?_, ?_⟩
          · rcases hprog with h1 | h1
            · omega
            · have h2 : k ≤ SCOUTFS_MAX_KEY := by
                unfold SCOUTFS_MAX_KEY at hlast ⊢
                omega
              omega
          · intro it hit hq hk1
            rcases Nat.lt_or_ge it.key (btree_walk s k 0 q op).next_key
              with h1 | h1
            · rw [hnoq it hit hk1 h1] at hq
              exact absurd hq (by simp)
            · exact hfirst2 it hit hq h1
    · rw [if_neg hkl]
      left
      refine ⟨rfl, ?_⟩
      intro it hit hq hk1 hk2
      have : 0 < scoutfs_key_cmp k last := by
        rcases Int.lt_or_lt_of_ne (fun h => hkl (le_of_eq h)) with h | h
        · exact absurd (le_of_lt h) hkl
        · exact h
      have := scoutfs_key_cmp_pos.mp this
      omega

/-- One `btree_next` call with no cursor: it either reports the range
exhausted or seats the cursor on the first qualifying in-range item,
peeling it off the expected yield. -/
theorem btree_next_none_spec (s : TreeState) (q first last : Nat)
    (op : WalkOp) (hop : op = .next ∨ op = .nextSeq) (hh : s.root.height ≠ 0)
    (hwf : tree_wf s = true) (hlast : last < SCOUTFS_MAX_KEY)
    (hfl : first ≤ last) (fuel : Nat) (hfuel : last + 2 ≤ fuel) :
    (btree_next fuel s first last q op none = .out 0 s none ∧
      range_items s first last q op = []) ∨
    (∃ b p L, btree_next fuel s first last q op none = .out 1 s (some (b, p)) ∧
      s.store b = some L ∧ CursInv s q op b p ∧
      range_items s first last q op =
        pos_item L p :: range_items s ((pos_item L p).key + 1) last q op) := by
  have hflneg : ¬ 0 < scoutfs_key_cmp first last := by
    intro h
    have := scoutfs_key_cmp_pos.mp h
    omega
  simp only [btree_next, if_neg hflneg]
  rcases btree_next_walk_spec s q last op hop hh hwf hlast fuel first
      (by omega) (by omega) with
    ⟨heq, hnone⟩ | ⟨b, p, L, heq, hstL, hCI, hge, hfirst⟩
  · left
    simp only [heq]
    exact ⟨trivial, range_items_nil s first last q op hnone⟩
  · simp only [heq]
    have hcurs : curs_item s (b, p) = pos_item L p := by
      unfold curs_item
      rw [hstL]
    rw [hcurs]
    obtain ⟨L2, hstL2, hplt, hascL, hLmem, hqual, ubL, hLub, hcomp⟩ := hCI
    have hLL : L2 = L := by
      have := hstL2.symm.trans hstL
      exact Option.some.inj this
    subst hLL
    have hmemtree : pos_item L2 p ∈ tree_items s := by
      have := hLmem (L2.entries.get ⟨p, hplt⟩) (List.get_mem _ _ _)
      rw [← pos_item_get L2 p hplt] at this
      exact this
    by_cases hkl : scoutfs_key_cmp (pos_item L2 p).key last ≤ 0
    · rw [if_pos hkl]
      right
      refine ⟨b, p, L2, rfl, hstL, ⟨L2, hstL, hplt, hascL, hLmem, hqual,
        ubL, hLub, hcomp⟩, ?_⟩
      exact range_items_split s first last q op (pos_item L2 p)
        (tree_items_asc s hwf) hmemtree hge (scoutfs_key_cmp_nonpos.mp hkl)
        hqual hfirst
    · rw [if_neg hkl]
      left
      refine ⟨rfl, range_items_nil s first last q op ?_⟩
      intro it hit hq h1 h2
      have h3 := hfirst it hit hq h1
      have h4 : last < (pos_item L2 p).key := by
        rcases Int.lt_or_lt_of_ne (fun h => hkl (le_of_eq h)) with h | h
        · exact absurd (le_of_lt h) hkl
        · exact scoutfs_key_cmp_pos.mp h
      omega

/-- One `btree_next` call on a seated cursor: advancing within the leaf or
walking on, it either reports the rest of the range exhausted or seats the
cursor on the next qualifying item, peeling it off the expected yield. -/
theorem btree_next_curs_spec (s : TreeState) (q first last : Nat)
    (op : WalkOp) (hop : op = .next ∨ op = .nextSeq) (hh : s.root.height ≠ 0)
    (hwf : tree_wf s = true) (hlast : last < SCOUTFS_MAX_KEY)
    (hfl : first ≤ last) (fuel : Nat) (hfuel : last + 2 ≤ fuel)
    (b0 p0 : Nat) (L0 : Block) (hstL0 : s.store b0 = some L0)
    (hCI : CursInv s q op b0 p0) :
    (btree_next fuel s first last q op (some (b0, p0)) = .out 0 s none ∧
      range_items s ((pos_item L0 p0).key + 1) last q op = []) ∨
    (∃ b p L, btree_next fuel s first last q op (some (b0, p0)) =
        .out 1 s (some (b, p)) ∧
      s.store b = some L ∧ CursInv s q op b p ∧
      range_items s ((pos_item L0 p0).key + 1) last q op =
        pos_item L p :: range_items s ((pos_item L p).key + 1) last q op) := by
  obtain ⟨L2, hstL2, hplt, hascL, hLmem, hqual, ubL, hLub, hcomp⟩ := hCI
  have hLL : L2 = L0 := Option.some.inj (hstL2.symm.trans hstL0)
  subst hLL
  have hflneg : ¬ 0 < scoutfs_key_cmp first last := by
    intro h
    have := scoutfs_key_cmp_pos.mp h
    omega
  have hka : ∀ j, key_at L2 j = (pos_item L2 j).key := fun _ => rfl
  -- the first qualifying item past the cursor, among the whole tree,
  -- relative to the resume key
  have hfirstk : ∀ p', p' = next_pos_seq L2 p0 0 q op → p' < L2.nr_items →
      qual_b q op (pos_item L2 p') = true ∧
      (pos_item L2 p0).key + 1 ≤ (pos_item L2 p').key ∧
      (∀ it ∈ tree_items s, qual_b q op it = true →
        (pos_item L2 p0).key + 1 ≤ it.key →
        (pos_item L2 p').key ≤ it.key) ∧
      (pos_item L2 p').key ≤ ubL := by
    rintro p' rfl hp'
    have hgt := next_pos_seq_gt L2 p0 0 q op
    have hq' := skip_pos_seq_leaf_false L2 _ q op hp'
      (next_pos_seq_not_skip L2 p0 0 q op)
    have hkgt : (pos_item L2 p0).key <
        (pos_item L2 (next_pos_seq L2 p0 0 q op)).key := by
      rw [← hka, ← hka]
      exact key_at_lt L2 hascL hgt hp'
    have hub' : (pos_item L2 (next_pos_seq L2 p0 0 q op)).key ≤ ubL := by
      have := hLub (L2.entries.get ⟨_, hp'⟩) (List.get_mem _ _ _)
      rw [← pos_item_get L2 _ hp'] at this
      exact this
    refine ⟨hq', by omega, ?_, hub'⟩
    intro it hit hq hk1
    by_contra hlt
    push_neg at hlt
    have hub2 : it.key ≤ ubL := by omega
    have hinL := hcomp it hit hq (by omega) hub2
    rcases List.mem_map.mp hinL with ⟨e, he, he2⟩
    rcases List.mem_iff_get.mp he with ⟨⟨j, hj⟩, hej⟩
    have hpj : pos_item L2 j = it := by rw [pos_item_get L2 j hj, hej, he2]
    have hj1 : p0 < j := by
      by_contra hle
      push_neg at hle
      have : key_at L2 j ≤ key_at L2 p0 := by
        rcases Nat.eq_or_lt_of_le hle with rfl | h2
        · exact Nat.le_refl _
        · exact Nat.le_of_lt (key_at_lt L2 hascL h2 hplt)
      rw [hka, hka, hpj] at this
      omega
    have hj2 : j < next_pos_seq L2 p0 0 q op := by
      by_contra hle
      push_neg at hle
      have : key_at L2 (next_pos_seq L2 p0 0 q op) ≤ key_at L2 j := by
        rcases Nat.eq_or_lt_of_le hle with h2 | h2
        · rw [h2]
        · exact Nat.le_of_lt (key_at_lt L2 hascL h2 hj)
      rw [hka, hka, hpj] at this
      omega
    have hsk := next_pos_seq_skipped L2 p0 0 q op j hj1 hj2
    have := qual_of_skip_leaf L2 j q op hsk
    rw [hpj] at this
    rw [this] at hq
    exact absurd hq (by simp)
  simp only [btree_next, if_neg hflneg, hstL0]
  by_cases hp' : next_pos_seq L2 p0 0 q op < L2.nr_items
  · rw [if_pos hp']
    obtain ⟨hq', hkgt, hfirst, hub'⟩ := hfirstk _ rfl hp'
    have hcurs : curs_item s (b0, next_pos_seq L2 p0 0 q op) =
        pos_item L2 (next_pos_seq L2 p0 0 q op) := by
      unfold curs_item
      rw [hstL0]
    simp only [hcurs]
    have hmemtree : pos_item L2 (next_pos_seq L2 p0 0 q op) ∈ tree_items s := by
      have := hLmem (L2.entries.get ⟨_, hp'⟩) (List.get_mem _ _ _)
      rw [← pos_item_get L2 _ hp'] at this
      exact this
    by_cases hkl : scoutfs_key_cmp
        (pos_item L2 (next_pos_seq L2 p0 0 q op)).key last ≤ 0
    · rw [if_pos hkl]
      right
      refine ⟨b0, next_pos_seq L2 p0 0 q op, L2, rfl, hstL0,
        ⟨L2, hstL0, hp', hascL, hLmem, hq', ubL, hLub, ?_⟩, ?_⟩
      · intro it hit hq2 h1 h2
        exact hcomp it hit hq2 (by omega) h2
      · exact range_items_split s ((pos_item L2 p0).key + 1) last q op
          (pos_item L2 (next_pos_seq L2 p0 0 q op)) (tree_items_asc s hwf)
          hmemtree hkgt (scoutfs_key_cmp_nonpos.mp hkl) hq' hfirst
    · rw [if_neg hkl]
      left
      refine ⟨rfl, range_items_nil s ((pos_item L2 p0).key + 1) last q op ?_⟩
      intro it hit hq2 h1 h2
      have h3 := hfirst it hit hq2 h1
      have h4 : last < (pos_item L2 (next_pos_seq L2 p0 0 q op)).key := by
        rcases Int.lt_or_lt_of_ne (fun h => hkl (le_of_eq h)) with h | h
        · exact absurd (le_of_lt h) hkl
        · exact scoutfs_key_cmp_pos.mp h
      omega
  · rw [if_neg hp']
    rcases btree_next_walk_spec s q last op hop hh hwf hlast fuel
        (scoutfs_inc_key (pos_item L2 p0).key) (by omega) (by omega) with
      ⟨heq, hnone⟩ | ⟨b, p, L, heq, hstL, hCI2, hge, hfirst2⟩
    · left
      simp only [heq]
      refine ⟨trivial, range_items_nil s ((pos_item L2 p0).key + 1) last q op ?_⟩
      intro it hit hq2 h1 h2
      exact hnone it hit hq2 h1 h2
    · simp only [heq]
      have hcurs : curs_item s (b, p) = pos_item L p := by
        unfold curs_item
        rw [hstL]
      rw [hcurs]
      obtain ⟨L3, hstL3, hplt3, hascL3, hLmem3, hqual3, ubL3, hLub3, hcomp3⟩ := hCI2
      have hLL3 : L3 = L := Option.some.inj (hstL3.symm.trans hstL)
      subst hLL3
      have hmemtree3 : pos_item L3 p ∈ tree_items s := by
        have := hLmem3 (L3.entries.get ⟨p, hplt3⟩) (List.get_mem _ _ _)
        rw [← pos_item_get L3 p hplt3] at this
        exact this
      by_cases hkl : scoutfs_key_cmp (pos_item L3 p).key last ≤ 0
      · rw [if_pos hkl]
        right
        refine ⟨b, p, L3, rfl, hstL, ⟨L3, hstL, hplt3, hascL3, hLmem3,
          hqual3, ubL3, hLub3, hcomp3⟩, ?_⟩
        exact range_items_split s ((pos_item L2 p0).key + 1) last q op
          (pos_item L3 p) (tree_items_asc s hwf) hmemtree3 hge
          (scoutfs_key_cmp_nonpos.mp hkl) hqual3 hfirst2
      · rw [if_neg hkl]
        left
        refine ⟨rfl, range_items_nil s ((pos_item L2 p0).key + 1) last q op ?_⟩
        intro it hit hq2 h1 h2
        have h3 := hfirst2 it hit hq2 h1
        have h4 : last < (pos_item L3 p).key := by
          rcases Int.lt_or_lt_of_ne (fun h => hkl (le_of_eq h)) with h | h
          · exact absurd (le_of_lt h) hkl
          · exact scoutfs_key_cmp_pos.mp h
        omega

/-- Repeated `btree_next` calls from a seated cursor collect exactly the
qualifying in-range items past the cursor, in order. -/
theorem btree_next_collect_curs (s : TreeState) (q first last : Nat)
    (op : WalkOp) (hop : op = .next ∨ op = .nextSeq) (hh : s.root.height ≠ 0)
    (hwf : tree_wf s = true) (hlast : last < SCOUTFS_MAX_KEY)
    (hfl : first ≤ last) (fuel_in : Nat) (hfuel : last + 2 ≤ fuel_in) :
    ∀ n b0 p0 L0, s.store b0 = some L0 → CursInv s q op b0 p0 →
      (range_items s ((pos_item L0 p0).key + 1) last q op).length < n →
      btree_next_collect first last q op fuel_in n s (some (b0, p0)) =
        some (range_items s ((pos_item L0 p0).key + 1) last q op) := by
  intro n
  induction n with
  | zero =>
    intro b0 p0 L0 _ _ hlen
    omega
  | succ n ihn =>
    intro b0 p0 L0 hstL0 hCI hlen
    simp only [btree_next_collect]
    rcases btree_next_curs_spec s q first last op hop hh hwf hlast hfl
        fuel_in hfuel b0 p0 L0 hstL0 hCI with
      ⟨heq, hnil⟩ | ⟨b, p, L, heq, hstL, hCI2, hsplit⟩
    · simp only [heq]
      rw [hnil]
    · simp only [heq]
      have hlen2 : (range_items s ((pos_item L p).key + 1) last q op).length
          < n := by
        rw [hsplit] at hlen
        simp only [List.length_cons] at hlen
        omega
      rw [ihn b p L hstL hCI2 hlen2, hsplit]
      have hcurs : curs_item s (b, p) = pos_item L p := by
        unfold curs_item
        rw [hstL]
      show some (curs_item s (b, p) ::
        range_items s ((pos_item L p).key + 1) last q op) = _
      rw [hcurs]

/-- On an empty tree, one `btree_next` call grows a fresh root leaf (the
walk's empty-tree branch runs `grow_tree` for reads) and then reports the
iteration done. -/
theorem btree_next_empty_tree (s : TreeState) (q first last : Nat)
    (op : WalkOp) (hop : op = .next ∨ op = .nextSeq)
    (hh : s.root.height = 0) (hlast : last < SCOUTFS_MAX_KEY)
    (hfl : first ≤ last) (fuel : Nat) (hfuel : last + 2 ≤ fuel) :
    btree_next fuel s first last q op none = .out 0 (grow_tree s).2 none := by
  have hnotins : op ≠ .insert := by
    rcases hop with rfl | rfl <;> intro h <;> cases h
  have hwalk : btree_walk s first 0 q op =
      ⟨.ok (grow_tree s).1.blkno, (grow_tree s).2, SCOUTFS_MAX_KEY⟩ := by
    unfold btree_walk
    rw [if_pos hh, if_neg hnotins]
  have hgs : (grow_tree s).2.store (grow_tree s).1.blkno =
      some (grow_tree s).1 := by
    show store_put s.store (grow_tree s).1 (grow_tree s).1.blkno = _
    exact store_put_eq _ _
  have hfps : find_pos_after_seq (grow_tree s).1 first 0 q op = 0 := by
    simp only [find_pos_after_seq]
    rw [skip_pos_seq_oob _ _ _ _ _
      (show (grow_tree s).1.nr_items ≤ _ from Nat.zero_le _)]
    rfl
  have hcmpfl : scoutfs_key_cmp first last ≤ 0 :=
    scoutfs_key_cmp_nonpos.mpr hfl
  have hcmpm : ¬ scoutfs_key_cmp SCOUTFS_MAX_KEY last ≤ 0 := by
    intro hcon
    have := scoutfs_key_cmp_nonpos.mp hcon
    omega
  obtain ⟨m, rfl⟩ : ∃ m, fuel = m + 2 := ⟨fuel - 2, by omega⟩
  have hloop : btree_next_walk last q op (m + 2) s first =
      .done (grow_tree s).2 none := by
    show btree_next_walk last q op (m + 1 + 1) s first = _
    simp only [btree_next_walk]
    rw [if_pos hcmpfl]
    simp only [hwalk, hgs, hfps]
    rw [if_neg (show ¬ (0 : Nat) < (grow_tree s).1.nr_items from
      fun hcon => Nat.lt_irrefl 0 hcon)]
    rw [if_neg hcmpm]
  simp only [btree_next]
  rw [if_neg (by
    intro h
    have := scoutfs_key_cmp_pos.mp h
    omega)]
  simp only [hloop]

/-- Full iteration correctness: repeatedly calling `btree_next` from an
empty cursor until it returns 0 collects exactly the qualifying items in
`[first, last]`, in tree (ascending key) order. -/
theorem btree_next_collect_spec (s : TreeState) (q first last : Nat)
    (op : WalkOp) (hop : op = .next ∨ op = .nextSeq)
    (hwf : tree_wf s = true) (hlast : last < SCOUTFS_MAX_KEY)
    (fuel_in fuel_out : Nat) (hfuel : last + 2 ≤ fuel_in)
    (hfo : (range_items s first last q op).length < fuel_out) :
    btree_next_collect first last q op fuel_in fuel_out s none =
      some (range_items s first last q op) := by
  cases fuel_out with
  | zero => omega
  | succ n =>
    simp only [btree_next_collect]
    by_cases hfl : first ≤ last
    · by_cases hh : s.root.height = 0
      · -- empty tree: the first walk grows an empty leaf and the loop
        -- then runs off the end of the range
        have htree : tree_items s = [] := by
          unfold tree_items
          rw [if_pos hh]
        have hrange : range_items s first last q op = [] := by
          unfold range_items
          rw [htree]
          rfl
        have hnone := btree_next_empty_tree s q first last op hop hh hlast
          hfl fuel_in hfuel
        simp only [hnone, hrange]
      · rcases btree_next_none_spec s q first last op hop hh hwf hlast hfl
            fuel_in hfuel with
          ⟨heq, hnil⟩ | ⟨b, p, L, heq, hstL, hCI, hsplit⟩
        · simp only [heq]
          rw [hnil]
        · simp only [heq]
          have hlen2 : (range_items s ((pos_item L p).key + 1) last q op).length
              < n := by
            rw [hsplit] at hfo
            simp only [List.length_cons] at hfo
            omega
          rw [btree_next_collect_curs s q first last op hop hh hwf hlast hfl
            fuel_in hfuel n b p L hstL hCI hlen2, hsplit]
          have hcurs : curs_item s (b, p) = pos_item L p := by
            unfold curs_item
            rw [hstL]
          show some (curs_item s (b, p) ::
            range_items s ((pos_item L p).key + 1) last q op) = _
          rw [hcurs]
    · have hrange : range_items s first last q op = [] := by
        apply range_items_nil
        intro it _ _ h1 h2
        omega
      have hpos : 0 < scoutfs_key_cmp first last :=
        scoutfs_key_cmp_pos.mpr (by omega)
      have hnone : btree_next fuel_in s first last q op none =
          .out 0 s none := by
        simp only [btree_next]
        rw [if_pos hpos]
      simp only [hnone, hrange]

/-!
Well-formedness for the delete walk: a flagged variant of the subtree
predicate recording block occupancy, the block numbers of a subtree, and
congruence of all three subtree observations under store changes that
preserve block skeletons.
-/

/-- The occupancy minimum well-formedness requires of a block.  Under the
strict (pre-walk) discipline a non-root leaf holds at least two items and a
non-root parent at least three children, so that one merge can neither
empty the reached leaf (unless the tree is the lone leaf) nor collapse the
tree at a non-root parent, while the root parent holds at least two
children so a merge directly below the root always finds a sibling; the
weak (post-walk) discipline only keeps parents nonempty. -/
def wf_min (str rt leaf : Bool) : Nat :=
  if str then
    if leaf then (if rt then 0 else 2)
    else (if rt then 2 else 3)
  else
    if leaf then 0 else 1

/-- The block numbers of the blocks of a subtree: the block itself and,
below a parent, those of every child subtree. -/
def subtree_blknos (s : TreeState) : Nat → Nat → List Nat
  | 0, blkno => [blkno]
  | l + 1, blkno =>
    blkno ::
      (match s.store blkno with
       | some bt =>
         bt.entries.flatMap (fun e => subtree_blknos s l (item_bref e.2).blkno)
       | none => [])

/-- Well-formedness of the subtree below a block for the delete walk,
covering the inclusive key interval `[lb, ub]`: as `subtree_wf` but without
the ref-seq conditions (which deletion neither needs nor preserves), and
with the occupancy minimum `wf_min`; `rt` marks the root of the tree. -/
def subtree_wfd (s : TreeState) (str : Bool) :
    Nat → Bool → Nat → Nat → Nat → Bool
  | 0, rt, blkno, lb, ub =>
    match s.store blkno with
    | some bt =>
      decide (bt.blkno = blkno) && asc (block_keys bt) &&
      decide (wf_min str rt true ≤ bt.nr_items) &&
      bt.entries.all (fun e => decide (lb ≤ e.2.key) && decide (e.2.key ≤ ub))
    | none => false
  | l + 1, rt, blkno, lb, ub =>
    match s.store blkno with
    | some bt =>
      decide (bt.blkno = blkno) && asc (block_keys bt) &&
      decide (wf_min str rt false ≤ bt.nr_items) &&
      decide (greatest_key bt = ub) &&
      (bt.entries.zip (lb :: bt.entries.map (fun e => e.2.key + 1))).all
        (fun p =>
          decide (p.2 ≤ p.1.2.key) &&
          match p.1.2.val with
          | .bref r => subtree_wfd s str l false r.blkno p.2 p.1.2.key
          | .bytes _ => false)
    | none => false

/-- Tree-level well-formedness for deletion: empty, or a strictly
well-formed subtree covering the whole key space whose block numbers are
pairwise distinct. -/
def tree_wfd (s : TreeState) : Bool :=
  if s.root.height = 0 then true
  else
    subtree_wfd s true (s.root.height - 1) true s.root.ref.blkno 0
      SCOUTFS_MAX_KEY &&
    decide (subtree_blknos s (s.root.height - 1) s.root.ref.blkno).Nodup

/-- Characterization of delete-walk well-formedness at a leaf. -/
theorem subtree_wfd_leaf_iff (s : TreeState) (str rt : Bool) (blkno lb ub : Nat) :
    subtree_wfd s str 0 rt blkno lb ub = true ↔
      ∃ bt, s.store blkno = some bt ∧ bt.blkno = blkno ∧
        asc (block_keys bt) = true ∧ wf_min str rt true ≤ bt.nr_items ∧
        ∀ e ∈ bt.entries, lb ≤ e.2.key ∧ e.2.key ≤ ub := by
  constructor
  · intro h
    unfold subtree_wfd at h
    cases hst : s.store blkno with
    | none =>
      rw [hst] at h
      exact Bool.noConfusion h
    | some bt =>
      rw [hst] at h
      simp only [Bool.and_eq_true, decide_eq_true_eq, List.all_eq_true] at h
      obtain ⟨⟨⟨h1, h2⟩, h3⟩, h4⟩ := h
      refine ⟨bt, rfl, h1, h2, h3, fun e he => ?_⟩
      have := h4 e he
      simp only [Bool.and_eq_true, decide_eq_true_eq] at this
      exact this
  · rintro ⟨bt, hbt, h1, h2, h3, h4⟩
    unfold subtree_wfd
    rw [hbt]
    simp only [Bool.and_eq_true, decide_eq_true_eq, List.all_eq_true]
    refine ⟨⟨⟨h1, h2⟩, h3⟩, fun e he => ?_⟩
    exact h4 e he

/-- The position-indexed lower bound list entry used by the well-formedness
chain. -/
theorem chain_get_childlb (bt : Block) (lb : Nat) (i : Nat)
    (hi : i < bt.entries.length + 1) :
    ((lb :: bt.entries.map (fun e => e.2.key + 1)).get ⟨i, by simpa using hi⟩) =
      childlb bt lb i := by
  cases i with
  | zero => rfl
  | succ j =>
    have hj : j < bt.entries.length := by omega
    have hj2 : j < (bt.entries.map (fun e => e.2.key + 1)).length := by
      simpa using hj
    show (bt.entries.map (fun e => e.2.key + 1)).get ⟨j, hj2⟩ =
      childlb bt lb (j + 1)
    simp only [List.get_map, childlb, key_at]
    rw [pos_item_get bt j hj]

/-- Characterization of delete-walk well-formedness at a parent. -/
theorem subtree_wfd_node_iff (s : TreeState) (str : Bool) (l : Nat) (rt : Bool)
    (blkno lb ub : Nat) :
    subtree_wfd s str (l + 1) rt blkno lb ub = true ↔
      ∃ bt, s.store blkno = some bt ∧ bt.blkno = blkno ∧
        asc (block_keys bt) = true ∧ wf_min str rt false ≤ bt.nr_items ∧
        greatest_key bt = ub ∧
        ∀ i, i < bt.nr_items → ∃ r,
          (pos_item bt i).val = .bref r ∧
          childlb bt lb i ≤ key_at bt i ∧
          subtree_wfd s str l false r.blkno (childlb bt lb i) (key_at bt i) =
            true := by
  constructor
  · intro h
    unfold subtree_wfd at h
    cases hst : s.store blkno with
    | none =>
      rw [hst] at h
      exact Bool.noConfusion h
    | some bt =>
      rw [hst] at h
      simp only [Bool.and_eq_true, decide_eq_true_eq, List.all_eq_true] at h
      obtain ⟨⟨⟨⟨hbn, hasc⟩, hmin⟩, hgk⟩, hall⟩ := h
      refine ⟨bt, rfl, hbn, hasc, hmin, hgk, ?_⟩
      intro i hi
      have hi' : i < bt.entries.length := hi
      have hzlen : i < (bt.entries.zip
          (lb :: bt.entries.map (fun e => e.2.key + 1))).length := by
        rw [List.length_zip]
        simp only [List.length_cons, List.length_map]
        omega
      have hmem : (bt.entries.get ⟨i, hi'⟩,
          (lb :: bt.entries.map (fun e => e.2.key + 1)).get
            ⟨i, by simpa using Nat.lt_succ_of_lt hi'⟩) ∈
          bt.entries.zip (lb :: bt.entries.map (fun e => e.2.key + 1)) := by
        have := @List.get_zip _ _ bt.entries
          (lb :: bt.entries.map (fun e => e.2.key + 1)) ⟨i, hzlen⟩
        rw [← this]
        exact List.get_mem _ _ _
      have hp := hall _ hmem
      rw [chain_get_childlb bt lb i (by omega)] at hp
      simp only [Bool.and_eq_true, decide_eq_true_eq] at hp
      obtain ⟨hle, hp2⟩ := hp
      rw [pos_item_get bt i hi]
      cases hval : (bt.entries.get ⟨i, hi'⟩).2.val with
      | bytes bs =>
        rw [hval] at hp2
        exact absurd hp2 (by simp)
      | bref r =>
        rw [hval] at hp2
        have hk : key_at bt i = (bt.entries.get ⟨i, hi'⟩).2.key := by
          simp only [key_at]
          rw [pos_item_get bt i hi]
        rw [hk]
        exact ⟨r, rfl, hk ▸ hle, hk ▸ hp2⟩
  · rintro ⟨bt, hbt, hbn, hasc, hmin, hgk, hch⟩
    unfold subtree_wfd
    rw [hbt]
    simp only [Bool.and_eq_true, decide_eq_true_eq, List.all_eq_true]
    refine ⟨⟨⟨⟨hbn, hasc⟩, hmin⟩, hgk⟩, ?_⟩
    intro p hp
    rcases List.mem_iff_get.mp hp with ⟨⟨i, hzlen⟩, hget⟩
    have hi : i < bt.entries.length := by
      rw [List.length_zip] at hzlen
      simp only [List.length_cons, List.length_map] at hzlen
      omega
    have hgz := @List.get_zip _ _ bt.entries
      (lb :: bt.entries.map (fun e => e.2.key + 1)) ⟨i, hzlen⟩
    rw [hgz] at hget
    obtain ⟨r, hval, hcle, hwf⟩ := hch i hi
    have hk : key_at bt i = (bt.entries.get ⟨i, hi⟩).2.key := by
      simp only [key_at]
      rw [pos_item_get bt i hi]
    have hvg : (bt.entries.get ⟨i, hi⟩).2.val = .bref r := by
      rw [← pos_item_get bt i hi]
      exact hval
    rw [← hget, chain_get_childlb bt lb i (by omega), hvg]
    simp only [Bool.and_eq_true, decide_eq_true_eq]
    exact ⟨hk ▸ hcle, hk ▸ hwf⟩

/-- The observable skeleton of a stored block: presence, block number and
item list. -/
def blk_skel : Option Block → Option (Nat × List (Nat × Item))
  | some b => some (b.blkno, b.entries)
  | none => none

/-- Two states agree on a set of block numbers up to block skeletons. -/
def store_like (s2 s : TreeState) (ns : List Nat) : Prop :=
  ∀ n ∈ ns, blk_skel (s2.store n) = blk_skel (s.store n)

theorem store_like_mono {s2 s : TreeState} {ns ns' : List Nat}
    (hsub : ∀ n ∈ ns', n ∈ ns) (h : store_like s2 s ns) :
    store_like s2 s ns' :=
  fun n hn => h n (hsub n hn)

theorem store_like_of_eq {s2 s : TreeState} {ns : List Nat}
    (h : ∀ n ∈ ns, s2.store n = s.store n) : store_like s2 s ns :=
  fun n hn => congrArg blk_skel (h n hn)

theorem store_like_put_not_mem {s : TreeState} {ns : List Nat} (b : Block)
    (h : b.blkno ∉ ns) : store_like (s.put b) s ns := by
  refine store_like_of_eq fun n hn => ?_
  show store_put s.store b n = s.store n
  exact store_put_ne s.store b n (fun he => h (he ▸ hn))

theorem store_like_del_not_mem {s : TreeState} {ns : List Nat} (n0 : Nat)
    (h : n0 ∉ ns) : store_like (free_tree_block s n0) s ns := by
  refine store_like_of_eq fun n hn => ?_
  show store_del s.store n0 n = s.store n
  exact store_del_ne s.store n0 n (fun he => h (he ▸ hn))

/-- Storing a block whose skeleton matches what the store already holds at
its number preserves likeness. -/
theorem store_like_put_skel {s : TreeState} {ns : List Nat} (b bt : Block)
    (hst : s.store b.blkno = some bt) (hbn : b.blkno = bt.blkno)
    (hent : b.entries = bt.entries) : store_like (s.put b) s ns := by
  intro n hn
  by_cases he : n = b.blkno
  · subst he
    show blk_skel (store_put s.store b b.blkno) = _
    rw [store_put_eq, hst]
    show some (b.blkno, b.entries) = some (bt.blkno, bt.entries)
    rw [hbn, hent]
  · show blk_skel (store_put s.store b n) = _
    rw [store_put_ne s.store b n he]

theorem store_like_trans {s3 s2 s : TreeState} {ns : List Nat}
    (h32 : store_like s3 s2 ns) (h21 : store_like s2 s ns) :
    store_like s3 s ns :=
  fun n hn => (h32 n hn).trans (h21 n hn)

/-- Unpacking skeleton agreement at a number both states store. -/
theorem blk_skel_some {o1 o2 : Option Block} (h : blk_skel o1 = blk_skel o2)
    {y : Block} (h2 : o2 = some y) :
    ∃ x, o1 = some x ∧ x.blkno = y.blkno ∧ x.entries = y.entries := by
  subst h2
  cases o1 with
  | none => exact absurd h (by intro hc; exact Option.noConfusion hc)
  | some x =>
    refine ⟨x, rfl, ?_⟩
    have := Option.some.inj h
    exact ⟨congrArg Prod.fst this, congrArg Prod.snd this⟩

/-- Skeleton agreement transfers absence. -/
theorem blk_skel_none {o1 o2 : Option Block} (h : blk_skel o1 = blk_skel o2)
    (h2 : o2 = none) : o1 = none := by
  subst h2
  cases o1 with
  | none => rfl
  | some x => exact absurd h (by intro hc; exact Option.noConfusion hc)

/-- Pointwise equal predicates give equal `all`. -/
theorem all_congr_eq {α : Type} (l : List α) (f g : α → Bool)
    (h : ∀ x ∈ l, f x = g x) : l.all f = l.all g := by
  induction l with
  | nil => rfl
  | cons a t ih =>
    simp only [List.all_cons]
    rw [h a (List.mem_cons_self a t), ih (fun x hx => h x (List.mem_cons_of_mem a hx))]

/-- Pointwise equal functions give equal `flatMap`. -/
theorem flatMap_congr_eq {α β : Type} (l : List α) (f g : α → List β)
    (h : ∀ x ∈ l, f x = g x) : l.flatMap f = l.flatMap g := by
  induction l with
  | nil => rfl
  | cons a t ih =>
    rw [List.flatMap_cons, List.flatMap_cons, h a (List.mem_cons_self a t),
      ih (fun x hx => h x (List.mem_cons_of_mem a hx))]

/-- A subtree's blocks are among its parent's. -/
theorem subtree_blknos_child_sub (s : TreeState) (l blkno : Nat) (bt : Block)
    (hst : s.store blkno = some bt) {e : Nat × Item} (he : e ∈ bt.entries) :
    ∀ n ∈ subtree_blknos s l (item_bref e.2).blkno,
      n ∈ subtree_blknos s (l + 1) blkno := by
  intro n hn
  have h0 : subtree_blknos s (l + 1) blkno = blkno ::
      (match s.store blkno with
       | some bt =>
         bt.entries.flatMap (fun e => subtree_blknos s l (item_bref e.2).blkno)
       | none => []) := rfl
  rw [h0, hst]
  exact List.mem_cons_of_mem _ (List.mem_flatMap.mpr ⟨e, he, hn⟩)

/-- A block heads its own subtree's block list. -/
theorem subtree_blknos_self (s : TreeState) (l blkno : Nat) :
    blkno ∈ subtree_blknos s l blkno := by
  cases l with
  | zero => exact List.mem_singleton.mpr rfl
  | succ l => exact List.mem_cons_self _ _

/-- Reading `subtree_blknos` at a parent. -/
theorem subtree_blknos_node (s : TreeState) (l blkno : Nat) (bt : Block)
    (hst : s.store blkno = some bt) :
    subtree_blknos s (l + 1) blkno = blkno ::
      bt.entries.flatMap (fun e => subtree_blknos s l (item_bref e.2).blkno) := by
  have h0 : subtree_blknos s (l + 1) blkno = blkno ::
      (match s.store blkno with
       | some bt =>
         bt.entries.flatMap (fun e => subtree_blknos s l (item_bref e.2).blkno)
       | none => []) := rfl
  rw [h0, hst]

/-- Reading `subtree_blknos` at an unstored parent. -/
theorem subtree_blknos_node_none (s : TreeState) (l blkno : Nat)
    (hst : s.store blkno = none) :
    subtree_blknos s (l + 1) blkno = [blkno] := by
  have h0 : subtree_blknos s (l + 1) blkno = blkno ::
      (match s.store blkno with
       | some bt =>
         bt.entries.flatMap (fun e => subtree_blknos s l (item_bref e.2).blkno)
       | none => []) := rfl
  rw [h0, hst]

/-- Reading `subtree_items` at an unstored leaf. -/
theorem subtree_items_leaf_none (s : TreeState) (blkno : Nat)
    (hst : s.store blkno = none) : subtree_items s 0 blkno = [] := by
  unfold subtree_items
  rw [hst]

/-- Reading `subtree_items` at an unstored parent. -/
theorem subtree_items_node_none (s : TreeState) (l blkno : Nat)
    (hst : s.store blkno = none) : subtree_items s (l + 1) blkno = [] := by
  have h0 : subtree_items s (l + 1) blkno = match s.store blkno with
      | some bt =>
        bt.entries.flatMap (fun e => subtree_items s l (item_bref e.2).blkno)
      | none => [] := rfl
  rw [h0, hst]

/-- States alike on a subtree's blocks list the same subtree blocks. -/
theorem subtree_blknos_congr (s2 s : TreeState) :
    ∀ l blkno, store_like s2 s (subtree_blknos s l blkno) →
      subtree_blknos s2 l blkno = subtree_blknos s l blkno := by
  intro l
  induction l with
  | zero => intro blkno _; rfl
  | succ l ih =>
    intro blkno hlike
    have hself := hlike blkno (subtree_blknos_self s (l + 1) blkno)
    cases hc1 : s.store blkno with
    | none =>
      rw [hc1] at hself
      rw [subtree_blknos_node_none s l blkno hc1,
        subtree_blknos_node_none s2 l blkno (blk_skel_none hself rfl)]
    | some y =>
      rw [hc1] at hself
      obtain ⟨x, hc2, hbn, hent⟩ := blk_skel_some hself rfl
      rw [subtree_blknos_node s2 l blkno x hc2, subtree_blknos_node s l blkno y hc1]
      congr 1
      rw [hent]
      refine flatMap_congr_eq _ _ _ fun e he => ?_
      exact ih (item_bref e.2).blkno
        (store_like_mono (subtree_blknos_child_sub s l blkno y hc1 he) hlike)

/-- States alike on a subtree's blocks hold the same subtree items. -/
theorem subtree_items_congr (s2 s : TreeState) :
    ∀ l blkno, store_like s2 s (subtree_blknos s l blkno) →
      subtree_items s2 l blkno = subtree_items s l blkno := by
  intro l
  induction l with
  | zero =>
    intro blkno hlike
    have hself := hlike blkno (subtree_blknos_self s 0 blkno)
    cases hc1 : s.store blkno with
    | none =>
      rw [hc1] at hself
      rw [subtree_items_leaf_none s blkno hc1,
        subtree_items_leaf_none s2 blkno (blk_skel_none hself rfl)]
    | some y =>
      rw [hc1] at hself
      obtain ⟨x, hc2, hbn, hent⟩ := blk_skel_some hself rfl
      rw [subtree_items_leaf s2 blkno x hc2, subtree_items_leaf s blkno y hc1,
        hent]
  | succ l ih =>
    intro blkno hlike
    have hself := hlike blkno (subtree_blknos_self s (l + 1) blkno)
    cases hc1 : s.store blkno with
    | none =>
      rw [hc1] at hself
      rw [subtree_items_node_none s l blkno hc1,
        subtree_items_node_none s2 l blkno (blk_skel_none hself rfl)]
    | some y =>
      rw [hc1] at hself
      obtain ⟨x, hc2, hbn, hent⟩ := blk_skel_some hself rfl
      rw [subtree_items_node s2 l blkno x hc2, subtree_items_node s l blkno y hc1,
        hent]
      refine flatMap_congr_eq _ _ _ fun e he => ?_
      exact ih (item_bref e.2).blkno
        (store_like_mono (subtree_blknos_child_sub s l blkno y hc1 he) hlike)

/-- States alike on a subtree's blocks agree on its well-formedness. -/
theorem subtree_wfd_congr (s2 s : TreeState) (str : Bool) :
    ∀ l rt blkno lb ub, store_like s2 s (subtree_blknos s l blkno) →
      subtree_wfd s2 str l rt blkno lb ub = subtree_wfd s str l rt blkno lb ub := by
  intro l
  induction l with
  | zero =>
    intro rt blkno lb ub hlike
    have hself := hlike blkno (subtree_blknos_self s 0 blkno)
    unfold subtree_wfd
    cases hc1 : s.store blkno with
    | none =>
      rw [hc1] at hself
      rw [blk_skel_none hself rfl]
    | some y =>
      rw [hc1] at hself
      obtain ⟨x, hc2, hbn, hent⟩ := blk_skel_some hself rfl
      simp only [hc1, hc2]
      have hbk : block_keys x = block_keys y := by
        unfold block_keys
        rw [hent]
      have hnr : x.nr_items = y.nr_items := by
        show x.entries.length = y.entries.length
        rw [hent]
      rw [hbn, hbk, hnr, hent]
  | succ l ih =>
    intro rt blkno lb ub hlike
    have hself := hlike blkno (subtree_blknos_self s (l + 1) blkno)
    unfold subtree_wfd
    cases hc1 : s.store blkno with
    | none =>
      rw [hc1] at hself
      rw [blk_skel_none hself rfl]
    | some y =>
      rw [hc1] at hself
      obtain ⟨x, hc2, hbn, hent⟩ := blk_skel_some hself rfl
      simp only [hc1, hc2]
      have hbk : block_keys x = block_keys y := by
        unfold block_keys
        rw [hent]
      have hnr : x.nr_items = y.nr_items := by
        show x.entries.length = y.entries.length
        rw [hent]
      have hgx : greatest_key x = greatest_key y := by
        unfold greatest_key pos_item
        rw [hent, hnr]
      rw [hbn, hbk, hnr, hgx, hent]
      congr 1
      refine all_congr_eq _ _ _ fun p hp => ?_
      congr 1
      have hep : p.1 ∈ y.entries := (List.mem_zip hp).1
      cases hv : p.1.2.val with
      | bytes bs => rfl
      | bref r =>
        refine ih false r.blkno p.2 p.1.2.key
          (store_like_mono (fun n hn => ?_) hlike)
        have hbr : item_bref p.1.2 = r := by
          unfold item_bref
          rw [hv]
        have hn2 : n ∈ subtree_blknos s l (item_bref p.1.2).blkno := by
          rw [hbr]
          exact hn
        exact subtree_blknos_child_sub s l blkno y hc1 hep n hn2

/-- A parent's occupancy minimum is positive under either discipline. -/
theorem wf_min_node_pos (str rt : Bool) : 1 ≤ wf_min str rt false := by
  unfold wf_min
  cases str <;> cases rt <;> simp

/-- Items of a delete-walk well-formed subtree lie inside its interval. -/
theorem subtree_items_boundsW (s : TreeState) (str : Bool) :
    ∀ l rt blkno lb ub, subtree_wfd s str l rt blkno lb ub = true →
      ∀ it ∈ subtree_items s l blkno, lb ≤ it.key ∧ it.key ≤ ub := by
  intro l
  induction l with
  | zero =>
    intro rt blkno lb ub h it hit
    obtain ⟨bt, hst, _, _, _, hb⟩ := (subtree_wfd_leaf_iff s str rt blkno lb ub).mp h
    rw [subtree_items_leaf s blkno bt hst] at hit
    rcases List.mem_map.mp hit with ⟨e, he, rfl⟩
    exact hb e he
  | succ l ih =>
    intro rt blkno lb ub h it hit
    obtain ⟨bt, hst, hbn, hasc, hmin, hgk, hch⟩ :=
      (subtree_wfd_node_iff s str l rt blkno lb ub).mp h
    rw [subtree_items_node s l blkno bt hst] at hit
    rcases List.mem_flatMap.mp hit with ⟨e, he, hit2⟩
    rcases List.mem_iff_get.mp he with ⟨⟨i, hi⟩, hei⟩
    obtain ⟨r, hval, hcle, hwf⟩ := hch i hi
    have hpe : pos_item bt i = e.2 := by rw [pos_item_get bt i hi, hei]
    have hib : item_bref e.2 = r := by
      unfold item_bref
      rw [← hpe, hval]
    rw [hib] at hit2
    have hrec := ih false r.blkno (childlb bt lb i) (key_at bt i) hwf it hit2
    have h0 : 0 < bt.nr_items := lt_of_lt_of_le (wf_min_node_pos str rt) hmin
    obtain ⟨r0, _, hcle0, _⟩ := hch 0 h0
    have hlb0 : lb ≤ key_at bt 0 := hcle0
    have hlbi := childlb_ge bt lb hasc hlb0 i hi
    have hub : key_at bt i ≤ ub := by
      rw [← hgk]
      exact key_at_le_greatest bt hasc i hi
    exact ⟨by omega, by omega⟩

/-- The items of a delete-walk well-formed subtree are strictly sorted. -/
theorem subtree_items_ascW (s : TreeState) (str : Bool) :
    ∀ l rt blkno lb ub, subtree_wfd s str l rt blkno lb ub = true →
      asc ((subtree_items s l blkno).map (fun it => it.key)) = true := by
  intro l
  induction l with
  | zero =>
    intro rt blkno lb ub h
    obtain ⟨bt, hst, _, hasc, _, _⟩ := (subtree_wfd_leaf_iff s str rt blkno lb ub).mp h
    rw [subtree_items_leaf s blkno bt hst, List.map_map]
    exact hasc
  | succ l ih =>
    intro rt blkno lb ub h
    obtain ⟨bt, hst, hbn, hasc, hmin, hgk, hch⟩ :=
      (subtree_wfd_node_iff s str l rt blkno lb ub).mp h
    have h0 : 0 < bt.nr_items := lt_of_lt_of_le (wf_min_node_pos str rt) hmin
    rw [subtree_items_node s l blkno bt hst]
    suffices H : ∀ n i, bt.nr_items ≤ i + n →
        asc (((bt.entries.drop i).flatMap
          (fun e => subtree_items s l (item_bref e.2).blkno)).map
            (fun it => it.key)) = true ∧
        (∀ it ∈ (bt.entries.drop i).flatMap
          (fun e => subtree_items s l (item_bref e.2).blkno),
            childlb bt lb i ≤ it.key) by
      have := (H bt.nr_items 0 (by omega)).1
      rw [List.drop_zero] at this
      exact this
    intro n
    induction n with
    | zero =>
      intro i hle
      have hd : bt.entries.drop i = [] :=
        List.drop_eq_nil_of_le (by simpa [Block.nr_items] using hle)
      rw [hd]
      exact ⟨rfl, by intro it hit; exact absurd hit (by simp)⟩
    | succ n ihn =>
      intro i hle
      rcases Nat.lt_or_ge i bt.nr_items with hi | hi
      · have hi' : i < bt.entries.length := hi
        have hd : bt.entries.drop i =
            bt.entries.get ⟨i, hi'⟩ :: bt.entries.drop (i + 1) :=
          List.drop_eq_get_cons hi'
        obtain ⟨r, hval, hcle, hwf⟩ := hch i hi
        have hpe : pos_item bt i = (bt.entries.get ⟨i, hi'⟩).2 :=
          pos_item_get bt i hi
        have hib : item_bref (bt.entries.get ⟨i, hi'⟩).2 = r := by
          unfold item_bref
          rw [← hpe, hval]
        obtain ⟨ihn1, ihn2⟩ := ihn (i + 1) (by omega)
        have hcasc : asc ((subtree_items s l r.blkno).map
            (fun it => it.key)) = true :=
          ih false r.blkno (childlb bt lb i) (key_at bt i) hwf
        have hcb := subtree_items_boundsW s str l false r.blkno (childlb bt lb i)
          (key_at bt i) hwf
        rw [hd, List.flatMap_cons, List.map_append]
        constructor
        · refine asc_append_of (by rw [hib]; exact hcasc) ihn1 ?_
          intro a ha b hb
          rcases List.mem_map.mp ha with ⟨ita, hita, rfl⟩
          rcases List.mem_map.mp hb with ⟨itb, hitb, rfl⟩
          rw [hib] at hita
          have ha2 := (hcb ita hita).2
          have hb2 := ihn2 itb hitb
          show ita.key < itb.key
          simp only [childlb] at hb2
          omega
        · intro it hit
          rcases List.mem_append.mp hit with hit | hit
          · rw [hib] at hit
            have := (hcb it hit).1
            omega
          · have := ihn2 it hit
            simp only [childlb] at this
            have hge := childlb_ge bt lb hasc (by
              obtain ⟨r0, _, hcle0, _⟩ := hch 0 h0
              exact hcle0) i hi
            have hcli : childlb bt lb i ≤ key_at bt i := hcle
            omega
      · have hd : bt.entries.drop i = [] :=
          List.drop_eq_nil_of_le (by simpa [Block.nr_items] using hi)
        rw [hd]
        exact ⟨rfl, by intro it hit; exact absurd hit (by simp)⟩

/-- `pos_item` through the item-list projection of the entries. -/
theorem pos_item_proj (bt : Block) (i : Nat) :
    pos_item bt i = match (bt.entries.map (fun e => e.2)).get? i with
      | some it => it
      | none => ⟨0, 0, .bytes []⟩ := by
  unfold pos_item
  rw [List.get?_map]
  cases bt.entries.get? i <;> rfl

/-- Blocks with the same item list agree on `pos_item`. -/
theorem pos_item_congr {x y : Block}
    (h : x.entries.map (fun e => e.2) = y.entries.map (fun e => e.2)) (i : Nat) :
    pos_item x i = pos_item y i := by
  rw [pos_item_proj, pos_item_proj, h]

/-- Blocks with the same item list agree on the item count. -/
theorem nr_items_congr {x y : Block}
    (h : x.entries.map (fun e => e.2) = y.entries.map (fun e => e.2)) :
    x.nr_items = y.nr_items := by
  have h2 := congrArg List.length h
  simpa using h2

/-- The key list through the item-list projection. -/
theorem block_keys_proj (x : Block) :
    block_keys x = (x.entries.map (fun e => e.2)).map (fun it => it.key) := by
  unfold block_keys
  rw [List.map_map]
  rfl

/-- Blocks with the same item list agree on the key list. -/
theorem block_keys_congr {x y : Block}
    (h : x.entries.map (fun e => e.2) = y.entries.map (fun e => e.2)) :
    block_keys x = block_keys y := by
  rw [block_keys_proj, block_keys_proj, h]

/-- Blocks with the same item list agree on `key_at`. -/
theorem key_at_congr {x y : Block}
    (h : x.entries.map (fun e => e.2) = y.entries.map (fun e => e.2)) (i : Nat) :
    key_at x i = key_at y i := by
  unfold key_at
  rw [pos_item_congr h]

/-- Blocks with the same item list agree on the greatest key. -/
theorem greatest_key_congr {x y : Block}
    (h : x.entries.map (fun e => e.2) = y.entries.map (fun e => e.2)) :
    greatest_key x = greatest_key y := by
  unfold greatest_key
  rw [pos_item_congr h, nr_items_congr h]

/-- Blocks with the same item list agree on `childlb`. -/
theorem childlb_congr {x y : Block}
    (h : x.entries.map (fun e => e.2) = y.entries.map (fun e => e.2))
    (lb i : Nat) : childlb x lb i = childlb y lb i := by
  cases i with
  | zero => rfl
  | succ j =>
    show key_at x j + 1 = key_at y j + 1
    rw [key_at_congr h]

/-- Entries after an in-bounds value overwrite. -/
theorem set_item_val_entries (bt : Block) (pos : Nat) (v : Val)
    (h : pos < bt.entries.length) :
    (set_item_val bt pos v).entries =
      bt.entries.set pos ((bt.entries.get ⟨pos, h⟩).1,
        { (bt.entries.get ⟨pos, h⟩).2 with val := v }) := by
  unfold set_item_val
  rw [List.get?_eq_getElem?, List.getElem?_eq_getElem h]
  rfl

/-- Entries after an in-bounds key overwrite. -/
theorem set_item_key_entries (bt : Block) (pos : Nat) (k : Nat)
    (h : pos < bt.entries.length) :
    (set_item_key bt pos k).entries =
      bt.entries.set pos ((bt.entries.get ⟨pos, h⟩).1,
        { (bt.entries.get ⟨pos, h⟩).2 with key := k }) := by
  unfold set_item_key
  rw [List.get?_eq_getElem?, List.getElem?_eq_getElem h]
  rfl

/-- Entries after an in-bounds deletion. -/
theorem delete_item_entries (bt : Block) (pos : Nat)
    (h : pos < bt.entries.length) :
    (delete_item bt pos).entries = bt.entries.eraseIdx pos := by
  unfold delete_item
  rw [List.get?_eq_getElem?, List.getElem?_eq_getElem h]

/-- Mapping commutes with index removal. -/
theorem map_eraseIdx_eq {α β : Type} (f : α → β) :
    ∀ (l : List α) (i : Nat), (l.eraseIdx i).map f = (l.map f).eraseIdx i := by
  intro l
  induction l with
  | nil => intro i; cases i <;> rfl
  | cons a t ih =>
    intro i
    cases i with
    | zero => rfl
    | succ j => simp only [List.eraseIdx_cons_succ, List.map_cons, ih]

/-- The item list after an in-bounds value overwrite. -/
theorem set_item_val_proj (bt : Block) (pos : Nat) (v : Val)
    (h : pos < bt.entries.length) :
    (set_item_val bt pos v).entries.map (fun e => e.2) =
      (bt.entries.map (fun e => e.2)).set pos
        { (bt.entries.get ⟨pos, h⟩).2 with val := v } := by
  rw [set_item_val_entries bt pos v h, List.map_set]

/-- The item list after an in-bounds key overwrite. -/
theorem set_item_key_proj (bt : Block) (pos : Nat) (k : Nat)
    (h : pos < bt.entries.length) :
    (set_item_key bt pos k).entries.map (fun e => e.2) =
      (bt.entries.map (fun e => e.2)).set pos
        { (bt.entries.get ⟨pos, h⟩).2 with key := k } := by
  rw [set_item_key_entries bt pos k h, List.map_set]

/-- The item list after an in-bounds deletion. -/
theorem delete_item_proj (bt : Block) (pos : Nat)
    (h : pos < bt.entries.length) :
    (delete_item bt pos).entries.map (fun e => e.2) =
      (bt.entries.map (fun e => e.2)).eraseIdx pos := by
  rw [delete_item_entries bt pos h, map_eraseIdx_eq]

/-- Setting an index rewrites the list as its take, the element, and its
drop. -/
theorem set_eq_take_cons_drop {α : Type} :
    ∀ (l : List α) (i : Nat) (a : α), i < l.length →
      l.set i a = l.take i ++ a :: l.drop (i + 1) := by
  intro l
  induction l with
  | nil => intro i a h; exact absurd h (by simp)
  | cons x t ih =>
    intro i a h
    cases i with
    | zero => rfl
    | succ j =>
      have hj : j < t.length := by simpa using h
      show x :: t.set j a = x :: (t.take j ++ a :: t.drop (j + 1))
      rw [ih j a hj]

/-- Removing an index rewrites the list as its take and its drop. -/
theorem eraseIdx_eq_take_drop {α : Type} :
    ∀ (l : List α) (i : Nat), i < l.length →
      l.eraseIdx i = l.take i ++ l.drop (i + 1) := by
  intro l
  induction l with
  | nil => intro i h; exact absurd h (by simp)
  | cons x t ih =>
    intro i h
    cases i with
    | zero => rfl
    | succ j =>
      have hj : j < t.length := by simpa using h
      show x :: t.eraseIdx j = x :: (t.take j ++ t.drop (j + 1))
      rw [ih j hj]

/-- Removing an index just set removes the original element. -/
theorem eraseIdx_set_same {α : Type} :
    ∀ (l : List α) (i : Nat) (a : α), (l.set i a).eraseIdx i = l.eraseIdx i := by
  intro l
  induction l with
  | nil => intro i a; rfl
  | cons x t ih =>
    intro i a
    cases i with
    | zero => rfl
    | succ j =>
      show x :: (t.set j a).eraseIdx j = x :: t.eraseIdx j
      rw [ih j a]

/-- A member's image is a sublist of the flat map. -/
theorem sublist_flatMap_of_mem {α β : Type} (f : α → List β) :
    ∀ {l : List α} {a : α}, a ∈ l → (f a).Sublist (l.flatMap f) := by
  intro l
  induction l with
  | nil => intro a ha; exact absurd ha (by simp)
  | cons b t ih =>
    intro a ha
    rw [List.flatMap_cons]
    rcases List.mem_cons.mp ha with rfl | ha
    · exact List.sublist_append_left _ _
    · exact (ih ha).trans (List.sublist_append_right _ _)

/-- In a duplicate-free flat map, the images of two distinct positions are
disjoint. -/
theorem flatMap_nodup_pair {α β : Type} (l : List α) (f : α → List β)
    (hnd : (l.flatMap f).Nodup) {i j : Nat} (hij : i < j)
    (hi : i < l.length) (hj : j < l.length) :
    ∀ x ∈ f (l.get ⟨i, hi⟩), x ∉ f (l.get ⟨j, hj⟩) := by
  have hsplit : l = l.take (i + 1) ++ l.drop (i + 1) :=
    (List.take_append_drop (i + 1) l).symm
  have hnd2 : ((l.take (i + 1) ++ l.drop (i + 1)).flatMap f).Nodup := by
    rw [← hsplit]
    exact hnd
  rw [List.flatMap_append] at hnd2
  have hdisj := List.disjoint_of_nodup_append hnd2
  intro x hx hx2
  have hmem1 : l.get ⟨i, hi⟩ ∈ l.take (i + 1) := by
    have hlt : i < (l.take (i + 1)).length := by
      rw [List.length_take]
      omega
    have : (l.take (i + 1)).get ⟨i, hlt⟩ = l.get ⟨i, hi⟩ := by
      simp [List.get_eq_getElem, List.getElem_take]
    rw [← this]
    exact List.get_mem _ _ _
  have hmem2 : l.get ⟨j, hj⟩ ∈ l.drop (i + 1) := by
    have hlt : j - (i + 1) < (l.drop (i + 1)).length := by
      rw [List.length_drop]
      omega
    have : (l.drop (i + 1)).get ⟨j - (i + 1), hlt⟩ = l.get ⟨j, hj⟩ := by
      simp only [List.get_eq_getElem, List.getElem_drop]
      congr 1
      omega
    rw [← this]
    exact List.get_mem _ _ _
  exact hdisj ((sublist_flatMap_of_mem f hmem1).mem hx)
    ((sublist_flatMap_of_mem f hmem2).mem hx2)

/-- Computing a flat map when all but one position agree with reference
values: the list splits around the distinguished position. -/
theorem flatMap_split_congr {α β : Type} (L : List α) (j : Nat)
    (hj : j < L.length) (g2 g : α → List β)
    (hoth : ∀ i, (hi : i < L.length) → i ≠ j →
      g2 (L.get ⟨i, hi⟩) = g (L.get ⟨i, hi⟩)) :
    L.flatMap g2 =
      (L.take j).flatMap g ++
        (g2 (L.get ⟨j, hj⟩) ++ (L.drop (j + 1)).flatMap g) := by
  have hsplit : L = L.take j ++ L.get ⟨j, hj⟩ :: L.drop (j + 1) := by
    have h1 : L.drop j = L.get ⟨j, hj⟩ :: L.drop (j + 1) :=
      List.drop_eq_get_cons hj
    rw [← h1]
    exact (List.take_append_drop j L).symm
  conv_lhs => rw [hsplit]
  rw [List.flatMap_append, List.flatMap_cons]
  congr 1
  · refine flatMap_congr_eq _ _ _ fun x hx => ?_
    rcases List.mem_iff_get.mp hx with ⟨⟨i, hlt⟩, hgi⟩
    have hlen : i < j := by
      have := hlt
      rw [List.length_take] at this
      omega
    have hix : (L.take j).get ⟨i, hlt⟩ = L.get ⟨i, by omega⟩ := by
      simp [List.get_eq_getElem, List.getElem_take]
    rw [← hgi, hix]
    exact hoth i (by omega) (by omega)
  · congr 1
    refine flatMap_congr_eq _ _ _ fun x hx => ?_
    rcases List.mem_iff_get.mp hx with ⟨⟨i, hlt⟩, hgi⟩
    have hlen : j + 1 + i < L.length := by
      have := hlt
      rw [List.length_drop] at this
      omega
    have hix : (L.drop (j + 1)).get ⟨i, hlt⟩ = L.get ⟨j + 1 + i, hlen⟩ := by
      simp [List.get_eq_getElem, List.getElem_drop]
    rw [← hgi, hix]
    exact hoth (j + 1 + i) hlen (by omega)

/-- Reading `subtree_items` at a parent through the item projection. -/
theorem subtree_items_node_proj (s : TreeState) (l blkno : Nat) (bt : Block)
    (hst : s.store blkno = some bt) :
    subtree_items s (l + 1) blkno =
      (bt.entries.map (fun e => e.2)).flatMap
        (fun it => subtree_items s l (item_bref it).blkno) := by
  rw [subtree_items_node s l blkno bt hst, List.flatMap_map]

/-- Reading `subtree_blknos` at a parent through the item projection. -/
theorem subtree_blknos_node_proj (s : TreeState) (l blkno : Nat) (bt : Block)
    (hst : s.store blkno = some bt) :
    subtree_blknos s (l + 1) blkno = blkno ::
      (bt.entries.map (fun e => e.2)).flatMap
        (fun it => subtree_blknos s l (item_bref it).blkno) := by
  rw [subtree_blknos_node s l blkno bt hst, List.flatMap_map]

/-- A well-formed subtree's head block is stored under its number. -/
theorem subtree_wfd_stored (s : TreeState) (str : Bool) :
    ∀ l rt blkno lb ub, subtree_wfd s str l rt blkno lb ub = true →
      ∃ bt, s.store blkno = some bt ∧ bt.blkno = blkno := by
  intro l rt blkno lb ub h
  cases l with
  | zero =>
    obtain ⟨bt, hst, hbn, -⟩ := (subtree_wfd_leaf_iff s str rt blkno lb ub).mp h
    exact ⟨bt, hst, hbn⟩
  | succ l =>
    obtain ⟨bt, hst, hbn, -⟩ := (subtree_wfd_node_iff s str l rt blkno lb ub).mp h
    exact ⟨bt, hst, hbn⟩

/-- Setting an index to its current value changes nothing. -/
theorem set_self_eq {α : Type} :
    ∀ (l : List α) (i : Nat) (h : i < l.length), l.set i (l.get ⟨i, h⟩) = l := by
  intro l
  induction l with
  | nil => intro i h; exact absurd h (by simp)
  | cons x t ih =>
    intro i h
    cases i with
    | zero => rfl
    | succ j =>
      have hj : j < t.length := by simpa using h
      show x :: t.set j (t.get ⟨j, hj⟩) = x :: t
      rw [ih j hj]

/-- Setting one index leaves the others unread. -/
theorem get?_set_ne {α : Type} :
    ∀ (l : List α) (i j : Nat) (a : α), i ≠ j →
      (l.set i a).get? j = l.get? j := by
  intro l
  induction l with
  | nil => intro i j a h; rfl
  | cons x t ih =>
    intro i j a h
    cases i with
    | zero =>
      cases j with
      | zero => exact absurd rfl h
      | succ j2 => rfl
    | succ i2 =>
      cases j with
      | zero => rfl
      | succ j2 =>
        show (t.set i2 a).get? j2 = t.get? j2
        exact ih i2 j2 a (fun he => h (by rw [he]))

/-- Reading the index just set. -/
theorem get?_set_eq {α : Type} :
    ∀ (l : List α) (i : Nat) (a : α), i < l.length →
      (l.set i a).get? i = some a := by
  intro l
  induction l with
  | nil => intro i a h; exact absurd h (by simp)
  | cons x t ih =>
    intro i a h
    cases i with
    | zero => rfl
    | succ j =>
      have hj : j < t.length := by simpa using h
      show (t.set j a).get? j = some a
      exact ih j a hj

/-- `key_at` through the key list. -/
theorem key_at_proj (bt : Block) (i : Nat) :
    key_at bt i = match (block_keys bt).get? i with
      | some k => k
      | none => 0 := by
  unfold key_at
  rw [pos_item_proj]
  rw [block_keys_proj, List.get?_map, List.get?_map, List.get?_map]
  cases bt.entries.get? i <;> rfl

/-- Blocks with the same key list agree on `key_at`. -/
theorem key_at_keys_congr {x y : Block} (h : block_keys x = block_keys y)
    (i : Nat) : key_at x i = key_at y i := by
  rw [key_at_proj, key_at_proj, h]

/-- The greatest key is `key_at` the last position. -/
theorem greatest_key_eq_key_at (bt : Block) :
    greatest_key bt = key_at bt (bt.nr_items - 1) := rfl

/-- Blocks with the same key list and item count agree on the greatest
key. -/
theorem greatest_key_keys_congr {x y : Block} (hk : block_keys x = block_keys y)
    (hn : x.nr_items = y.nr_items) : greatest_key x = greatest_key y := by
  rw [greatest_key_eq_key_at, greatest_key_eq_key_at, hn, key_at_keys_congr hk]

/-- Blocks with the same key list agree on `childlb`. -/
theorem childlb_keys_congr {x y : Block} (h : block_keys x = block_keys y)
    (lb i : Nat) : childlb x lb i = childlb y lb i := by
  cases i with
  | zero => rfl
  | succ j =>
    show key_at x j + 1 = key_at y j + 1
    rw [key_at_keys_congr h]

theorem take_set_self {α : Type} :
    ∀ (l : List α) (i : Nat) (a : α), (l.set i a).take i = l.take i := by
  intro l
  induction l with
  | nil => intro i a; rfl
  | cons x t ih =>
    intro i a
    cases i with
    | zero => rfl
    | succ j =>
      show x :: (t.set j a).take j = x :: t.take j
      rw [ih j a]

theorem drop_set_succ {α : Type} :
    ∀ (l : List α) (i : Nat) (a : α), (l.set i a).drop (i + 1) = l.drop (i + 1) := by
  intro l
  induction l with
  | nil => intro i a; rfl
  | cons x t ih =>
    intro i a
    cases i with
    | zero => rfl
    | succ j =>
      show (t.set j a).drop (j + 1) = t.drop (j + 1)
      exact ih j a

/-- An in-bounds value overwrite leaves the key list unchanged. -/
theorem set_item_val_keys (bt : Block) (pos : Nat) (v : Val)
    (h : pos < bt.entries.length) :
    block_keys (set_item_val bt pos v) = block_keys bt := by
  rw [block_keys_proj, set_item_val_proj bt pos v h, List.map_set]
  have h2 : pos < (block_keys bt).length := by
    unfold block_keys
    simpa using h
  have hk : (block_keys bt).get ⟨pos, h2⟩ = (bt.entries.get ⟨pos, h⟩).2.key := by
    unfold block_keys
    simp [List.get_map]
  rw [← block_keys_proj]
  show (block_keys bt).set pos (bt.entries.get ⟨pos, h⟩).2.key = block_keys bt
  rw [← hk, set_self_eq]

/-- An in-bounds key overwrite sets one entry of the key list. -/
theorem set_item_key_keys (bt : Block) (pos : Nat) (k : Nat)
    (h : pos < bt.entries.length) :
    block_keys (set_item_key bt pos k) = (block_keys bt).set pos k := by
  rw [block_keys_proj, set_item_key_proj bt pos k h, List.map_set, ← block_keys_proj]

/-- An in-bounds value overwrite keeps the item count. -/
theorem set_item_val_nr (bt : Block) (pos : Nat) (v : Val)
    (h : pos < bt.entries.length) :
    (set_item_val bt pos v).nr_items = bt.nr_items := by
  show (set_item_val bt pos v).entries.length = bt.entries.length
  rw [set_item_val_entries bt pos v h, List.length_set]

/-- An in-bounds key overwrite keeps the item count. -/
theorem set_item_key_nr (bt : Block) (pos : Nat) (k : Nat)
    (h : pos < bt.entries.length) :
    (set_item_key bt pos k).nr_items = bt.nr_items := by
  show (set_item_key bt pos k).entries.length = bt.entries.length
  rw [set_item_key_entries bt pos k h, List.length_set]

/-- Items at other positions after an in-bounds value overwrite. -/
theorem pos_item_set_val_ne (bt : Block) (pos : Nat) (v : Val)
    (h : pos < bt.entries.length) (i : Nat) (hne : i ≠ pos) :
    pos_item (set_item_val bt pos v) i = pos_item bt i := by
  rw [pos_item_proj, pos_item_proj, set_item_val_proj bt pos v h,
    get?_set_ne _ _ _ _ (fun he => hne he.symm)]

/-- The item at the position of an in-bounds value overwrite. -/
theorem pos_item_set_val_eq (bt : Block) (pos : Nat) (v : Val)
    (h : pos < bt.entries.length) :
    pos_item (set_item_val bt pos v) pos = { pos_item bt pos with val := v } := by
  rw [pos_item_proj, set_item_val_proj bt pos v h,
    get?_set_eq _ _ _ (by simpa using h)]
  have : pos_item bt pos = (bt.entries.get ⟨pos, h⟩).2 := pos_item_get bt pos h
  rw [this]

/-- Items at other positions after an in-bounds key overwrite. -/
theorem pos_item_set_key_ne (bt : Block) (pos : Nat) (k : Nat)
    (h : pos < bt.entries.length) (i : Nat) (hne : i ≠ pos) :
    pos_item (set_item_key bt pos k) i = pos_item bt i := by
  rw [pos_item_proj, pos_item_proj, set_item_key_proj bt pos k h,
    get?_set_ne _ _ _ _ (fun he => hne he.symm)]

/-- The item at the position of an in-bounds key overwrite. -/
theorem pos_item_set_key_eq (bt : Block) (pos : Nat) (k : Nat)
    (h : pos < bt.entries.length) :
    pos_item (set_item_key bt pos k) pos = { pos_item bt pos with key := k } := by
  rw [pos_item_proj, set_item_key_proj bt pos k h,
    get?_set_eq _ _ _ (by simpa using h)]
  have : pos_item bt pos = (bt.entries.get ⟨pos, h⟩).2 := pos_item_get bt pos h
  rw [this]

theorem get_set_ne_at {α : Type} (l : List α) (i j : Nat) (a : α)
    (hne : i ≠ j) (hj : j < (l.set i a).length) (hj2 : j < l.length) :
    (l.set i a).get ⟨j, hj⟩ = l.get ⟨j, hj2⟩ := by
  have h1 := get?_set_ne l i j a hne
  rw [List.get?_eq_get hj, List.get?_eq_get hj2] at h1
  exact Option.some.inj h1

theorem get_set_eq_at {α : Type} (l : List α) (i : Nat) (a : α)
    (hi : i < (l.set i a).length) (hi2 : i < l.length) :
    (l.set i a).get ⟨i, hi⟩ = a := by
  have h1 := get?_set_eq l i a hi2
  rw [List.get?_eq_get hi] at h1
  exact Option.some.inj h1

/-- The dirty fetch of a child during the delete walk (`get_block_ref`
with `dirty`): the child block is restamped with the dirty seq and the
parent's ref item is rewritten in place with the same block number; the
subtree's shape, items and block numbers are unchanged. -/
theorem dirty_parent_step (s : TreeState) (l : Nat) (rt : Bool)
    (pb ppos plb pub : Nat) (P : Block)
    (hP : s.store pb = some P)
    (hwf : subtree_wfd s true (l + 1) rt pb plb pub = true)
    (hnd : (subtree_blknos s (l + 1) pb).Nodup)
    (hpos : ppos < P.nr_items) :
    ∃ bt' P1 s1,
      get_block_ref s (.parent pb ppos) true = some (bt', s1) ∧
      bt'.blkno = (item_bref (pos_item P ppos)).blkno ∧
      P1 = set_item_val P ppos (.bref ⟨bt'.blkno, s.dirty_seq⟩) ∧
      s1.store bt'.blkno = some bt' ∧
      s1.store pb = some P1 ∧
      subtree_wfd s1 true (l + 1) rt pb plb pub = true ∧
      subtree_items s1 (l + 1) pb = subtree_items s (l + 1) pb ∧
      subtree_blknos s1 (l + 1) pb = subtree_blknos s (l + 1) pb ∧
      (∀ n, n ∉ subtree_blknos s (l + 1) pb → s1.store n = s.store n) := by
  obtain ⟨P0, hst0, hbn, hasc, hmin, hgk, hch⟩ :=
    (subtree_wfd_node_iff s true l rt pb plb pub).mp hwf
  have hPP : P0 = P := Option.some.inj (hst0.symm.trans hP)
  rw [hPP] at hbn hasc hmin hgk hch
  obtain ⟨r, hval, hcle, hwfc⟩ := hch ppos hpos
  have hrb : item_bref (pos_item P ppos) = r := by
    unfold item_bref
    rw [hval]
  obtain ⟨bt0, hbt0, hbt0n⟩ :=
    subtree_wfd_stored s true l false r.blkno _ _ hwfc
  have hposl : ppos < P.entries.length := hpos
  have hentp : pos_item P ppos = (P.entries.get ⟨ppos, hposl⟩).2 :=
    pos_item_get P ppos hpos
  have hcbmem : r.blkno ∈ P.entries.flatMap
      (fun e => subtree_blknos s l (item_bref e.2).blkno) := by
    refine List.mem_flatMap.mpr ⟨P.entries.get ⟨ppos, hposl⟩, List.get_mem _ _ _, ?_⟩
    rw [← hentp, hrb]
    exact subtree_blknos_self s l r.blkno
  have hndc := hnd
  rw [subtree_blknos_node s l pb P hP] at hndc
  obtain ⟨hpbnot, hflnd⟩ := List.nodup_cons.mp hndc
  have hpbne : pb ≠ r.blkno := fun he => hpbnot (he ▸ hcbmem)
  have hread : read_ref_loc s (.parent pb ppos) = some r := by
    unfold read_ref_loc
    simp only [hP, List.get?_eq_getElem?, List.getElem?_eq_getElem hposl]
    show some (item_bref (P.entries.get ⟨ppos, hposl⟩).2) = some r
    rw [← hentp, hrb]
  set bt' : Block := { bt0 with seq := s.dirty_seq } with hbt'
  set P1 : Block := set_item_val P ppos (.bref ⟨bt0.blkno, s.dirty_seq⟩) with hP1d
  set s1 : TreeState := (s.put bt').put P1 with hs1d
  have hbtb : bt'.blkno = bt0.blkno := rfl
  have hP1b : P1.blkno = pb := by
    rw [hP1d, (set_item_val_blkno_seq P ppos _).1]
    exact hbn
  have hget : get_block_ref s (.parent pb ppos) true = some (bt', s1) := by
    unfold get_block_ref
    simp only [hread, hbt0]
    unfold write_ref_loc
    have hsp : (s.put bt').store pb = some P := by
      show store_put s.store bt' pb = some P
      rw [store_put_ne s.store _ pb (by
        show pb ≠ bt0.blkno
        rw [hbt0n]
        exact hpbne), hP]
    simp only [hsp]
    rfl
  have hs1cb : s1.store bt'.blkno = some bt' := by
    show store_put (store_put s.store bt') P1 bt'.blkno = some bt'
    rw [store_put_ne _ P1 bt'.blkno (by
      rw [hP1b, hbtb, hbt0n]
      exact fun he => hpbne he.symm)]
    exact store_put_eq s.store bt'
  have hs1pb : s1.store pb = some P1 := by
    show store_put (store_put s.store bt') P1 pb = some P1
    rw [show pb = P1.blkno from hP1b.symm]
    exact store_put_eq _ _
  have hlike : ∀ ns : List Nat, pb ∉ ns → store_like s1 s ns := by
    intro ns hpb n hn
    have hnp : n ≠ pb := fun he => hpb (he ▸ hn)
    show blk_skel (store_put (store_put s.store bt') P1 n) = blk_skel (s.store n)
    rw [store_put_ne _ P1 n (fun he => hnp (he.trans hP1b))]
    by_cases hncb : n = bt0.blkno
    · subst hncb
      rw [show store_put s.store bt' bt0.blkno = some bt' from store_put_eq s.store bt',
        hbt0n, hbt0]
      show some (bt'.blkno, bt'.entries) = some (bt0.blkno, bt0.entries)
      rfl
    · rw [store_put_ne _ bt' n (by rw [hbtb]; exact hncb)]
  have hchild_nopb : ∀ i, (hi : i < P.entries.length) →
      pb ∉ subtree_blknos s l (item_bref (P.entries.get ⟨i, hi⟩).2).blkno := by
    intro i hi hmem
    exact hpbnot (List.mem_flatMap.mpr ⟨P.entries.get ⟨i, hi⟩, List.get_mem _ _ _, hmem⟩)
  have hlikei : ∀ i, (hi : i < P.entries.length) →
      store_like s1 s (subtree_blknos s l (item_bref (P.entries.get ⟨i, hi⟩).2).blkno) :=
    fun i hi => hlike _ (hchild_nopb i hi)
  have hentbr : item_bref (P.entries.get ⟨ppos, hposl⟩).2 = r := by
    rw [← hentp]
    exact hrb
  have hlkr : store_like s1 s (subtree_blknos s l r.blkno) := by
    have h0 := hlikei ppos hposl
    rw [hentbr] at h0
    exact h0
  have hkeys : block_keys P1 = block_keys P := set_item_val_keys P ppos _ hposl
  have hnr : P1.nr_items = P.nr_items := set_item_val_nr P ppos _ hposl
  have hpi_ne : ∀ i, i ≠ ppos → pos_item P1 i = pos_item P i := fun i hne =>
    pos_item_set_val_ne P ppos _ hposl i hne
  have hpi_eq : pos_item P1 ppos =
      { pos_item P ppos with val := .bref ⟨bt0.blkno, s.dirty_seq⟩ } :=
    pos_item_set_val_eq P ppos _ hposl
  have hwfd1 : subtree_wfd s1 true (l + 1) rt pb plb pub = true := by
    refine (subtree_wfd_node_iff s1 true l rt pb plb pub).mpr
      ⟨P1, hs1pb, hP1b, by rw [hkeys]; exact hasc, by rw [hnr]; exact hmin,
        by rw [greatest_key_keys_congr hkeys hnr]; exact hgk, ?_⟩
    intro i hi
    have hip : i < P.nr_items := by rw [← hnr]; exact hi
    have hil : i < P.entries.length := hip
    by_cases hie : i = ppos
    · rw [hie]
      refine ⟨⟨bt0.blkno, s.dirty_seq⟩, by rw [hpi_eq], ?_, ?_⟩
      · rw [key_at_keys_congr hkeys, childlb_keys_congr hkeys]
        exact hcle
      · show subtree_wfd s1 true l false bt0.blkno (childlb P1 plb ppos)
          (key_at P1 ppos) = true
        rw [key_at_keys_congr hkeys, childlb_keys_congr hkeys, hbt0n,
          subtree_wfd_congr s1 s true l false r.blkno _ _ hlkr]
        exact hwfc
    · obtain ⟨ri, hvali, hclei, hwfi⟩ := hch i hip
      refine ⟨ri, by rw [hpi_ne i hie]; exact hvali, ?_, ?_⟩
      · rw [key_at_keys_congr hkeys, childlb_keys_congr hkeys]
        exact hclei
      · rw [key_at_keys_congr hkeys, childlb_keys_congr hkeys]
        have hrb2 : item_bref (P.entries.get ⟨i, hil⟩).2 = ri := by
          unfold item_bref
          rw [← pos_item_get P i hip, hvali]
        have hlk := hlikei i hil
        rw [hrb2] at hlk
        rw [subtree_wfd_congr s1 s true l false ri.blkno _ _ hlk]
        exact hwfi
  have hmaplen : ppos < (P.entries.map (fun e => e.2)).length := by
    rw [List.length_map]
    exact hposl
  have hsetlen : ppos < ((P.entries.map (fun e => e.2)).set ppos
      { (P.entries.get ⟨ppos, hposl⟩).2 with
        val := .bref ⟨bt0.blkno, s.dirty_seq⟩ }).length := by
    rw [List.length_set]
    exact hmaplen
  have hgetw : ∀ i, (hi2 : i < ((P.entries.map (fun e => e.2)).set ppos
      { (P.entries.get ⟨ppos, hposl⟩).2 with
        val := .bref ⟨bt0.blkno, s.dirty_seq⟩ }).length) → i ≠ ppos →
      ∀ hil : i < P.entries.length,
      ((P.entries.map (fun e => e.2)).set ppos
        { (P.entries.get ⟨ppos, hposl⟩).2 with
          val := .bref ⟨bt0.blkno, s.dirty_seq⟩ }).get ⟨i, hi2⟩ =
        (P.entries.get ⟨i, hil⟩).2 := by
    intro i hi2 hne hil
    have hmi : i < (P.entries.map (fun e => e.2)).length := by
      rw [List.length_map]
      exact hil
    rw [get_set_ne_at _ ppos i _ (fun he => hne he.symm) hi2 hmi]
    simp [List.get_map]
  have hitems1 : subtree_items s1 (l + 1) pb = subtree_items s (l + 1) pb := by
    rw [subtree_items_node_proj s1 l pb P1 hs1pb,
      subtree_items_node_proj s l pb P hP, set_item_val_proj P ppos _ hposl]
    rw [flatMap_split_congr _ ppos hsetlen
      (fun it => subtree_items s1 l (item_bref it).blkno)
      (fun it => subtree_items s l (item_bref it).blkno)
      (by
        intro i hi2 hne
        have hil : i < P.entries.length := by
          rw [List.length_set, List.length_map] at hi2
          exact hi2
        rw [hgetw i hi2 hne hil]
        exact subtree_items_congr s1 s l _ (hlikei i hil))]
    rw [flatMap_split_congr (P.entries.map (fun e => e.2)) ppos hmaplen
      (fun it => subtree_items s l (item_bref it).blkno)
      (fun it => subtree_items s l (item_bref it).blkno)
      (fun i hi2 hne => rfl)]
    rw [take_set_self, drop_set_succ]
    congr 1
    congr 1
    rw [get_set_eq_at _ ppos _ hsetlen hmaplen]
    have hmg : (P.entries.map (fun e => e.2)).get ⟨ppos, hmaplen⟩ =
        (P.entries.get ⟨ppos, hposl⟩).2 := by
      simp [List.get_map]
    rw [hmg, hentbr]
    show subtree_items s1 l bt0.blkno = subtree_items s l r.blkno
    rw [hbt0n]
    exact subtree_items_congr s1 s l r.blkno hlkr
  have hblknos1 : subtree_blknos s1 (l + 1) pb = subtree_blknos s (l + 1) pb := by
    rw [subtree_blknos_node_proj s1 l pb P1 hs1pb,
      subtree_blknos_node_proj s l pb P hP, set_item_val_proj P ppos _ hposl]
    congr 1
    rw [flatMap_split_congr _ ppos hsetlen
      (fun it => subtree_blknos s1 l (item_bref it).blkno)
      (fun it => subtree_blknos s l (item_bref it).blkno)
      (by
        intro i hi2 hne
        have hil : i < P.entries.length := by
          rw [List.length_set, List.length_map] at hi2
          exact hi2
        rw [hgetw i hi2 hne hil]
        exact subtree_blknos_congr s1 s l _ (hlikei i hil))]
    rw [flatMap_split_congr (P.entries.map (fun e => e.2)) ppos hmaplen
      (fun it => subtree_blknos s l (item_bref it).blkno)
      (fun it => subtree_blknos s l (item_bref it).blkno)
      (fun i hi2 hne => rfl)]
    rw [take_set_self, drop_set_succ]
    congr 1
    congr 1
    rw [get_set_eq_at _ ppos _ hsetlen hmaplen]
    have hmg : (P.entries.map (fun e => e.2)).get ⟨ppos, hmaplen⟩ =
        (P.entries.get ⟨ppos, hposl⟩).2 := by
      simp [List.get_map]
    rw [hmg, hentbr]
    show subtree_blknos s1 l bt0.blkno = subtree_blknos s l r.blkno
    rw [hbt0n]
    exact subtree_blknos_congr s1 s l r.blkno hlkr
  have huntouched : ∀ n, n ∉ subtree_blknos s (l + 1) pb →
      s1.store n = s.store n := by
    intro n hn
    have hnpb : n ≠ pb := fun he => hn (he ▸ subtree_blknos_self s (l + 1) pb)
    have hncb : n ≠ bt0.blkno := by
      intro he
      refine hn ?_
      rw [subtree_blknos_node s l pb P hP]
      refine List.mem_cons_of_mem _ ?_
      rw [he, hbt0n]
      exact hcbmem
    show store_put (store_put s.store bt') P1 n = s.store n
    rw [store_put_ne _ P1 n (fun he => hnpb (he.trans hP1b)),
      store_put_ne _ bt' n (by rw [hbtb]; exact hncb)]
  exact ⟨bt', P1, s1, hget, by rw [hrb]; exact hbtb.trans hbt0n, rfl, hs1cb,
    hs1pb, hwfd1, hitems1, hblknos1, huntouched⟩

/-- The interval chain a parent's item list must satisfy, as a recursion
over the list: each item covers `[lb, key]` for the running lower bound
`lb`, holds a block ref accepted by `w` on that interval, and hands
`key + 1` to the next item. -/
def chain_wfd (w : Nat → Nat → Nat → Bool) : List Item → Nat → Bool
  | [], _ => true
  | it :: L, lb =>
    (decide (lb ≤ it.key) &&
     (match it.val with
      | .bref r => w r.blkno lb it.key
      | .bytes _ => false)) && chain_wfd w L (it.key + 1)

/-- The lower bound the chain hands to whatever follows the list. -/
def chain_next : List Item → Nat → Nat
  | [], lb => lb
  | it :: L, _ => chain_next L (it.key + 1)

theorem chain_wfd_append (w : Nat → Nat → Nat → Bool) :
    ∀ (A B : List Item) (lb : Nat),
      chain_wfd w (A ++ B) lb =
        (chain_wfd w A lb && chain_wfd w B (chain_next A lb)) := by
  intro A
  induction A with
  | nil =>
    intro B lb
    show chain_wfd w B lb = (true && chain_wfd w B lb)
    rw [Bool.true_and]
  | cons it A ih =>
    intro B lb
    rw [List.cons_append]
    show ((decide (lb ≤ it.key) &&
      (match it.val with
       | .bref r => w r.blkno lb it.key
       | .bytes _ => false)) && chain_wfd w (A ++ B) (it.key + 1)) = _
    rw [ih B (it.key + 1), ← Bool.and_assoc]
    rfl

theorem chain_next_append :
    ∀ (A B : List Item) (lb : Nat),
      chain_next (A ++ B) lb = chain_next B (chain_next A lb) := by
  intro A
  induction A with
  | nil => intro B lb; rfl
  | cons it A ih =>
    intro B lb
    rw [List.cons_append]
    show chain_next (A ++ B) (it.key + 1) = _
    rw [ih B (it.key + 1)]
    rfl

/-- Every key in a satisfied chain is at least the incoming bound. -/
theorem chain_wfd_ge (w : Nat → Nat → Nat → Bool) :
    ∀ (L : List Item) (lb : Nat), chain_wfd w L lb = true →
      ∀ it ∈ L, lb ≤ it.key := by
  intro L
  induction L with
  | nil => intro lb _ it hit; exact absurd hit (by simp)
  | cons x L ih =>
    intro lb h it hit
    rw [show chain_wfd w (x :: L) lb =
      ((decide (lb ≤ x.key) && _) && chain_wfd w L (x.key + 1)) from rfl] at h
    simp only [Bool.and_eq_true, decide_eq_true_eq] at h
    rcases List.mem_cons.mp hit with rfl | hit
    · exact h.1.1
    · have := ih (x.key + 1) h.2 it hit
      omega

/-- The outgoing bound never drops below the incoming one. -/
theorem chain_next_ge (w : Nat → Nat → Nat → Bool) :
    ∀ (L : List Item) (lb : Nat), chain_wfd w L lb = true →
      lb ≤ chain_next L lb := by
  intro L
  induction L with
  | nil => intro lb _; exact Nat.le_refl _
  | cons x L ih =>
    intro lb h
    rw [show chain_wfd w (x :: L) lb =
      ((decide (lb ≤ x.key) && _) && chain_wfd w L (x.key + 1)) from rfl] at h
    simp only [Bool.and_eq_true, decide_eq_true_eq] at h
    have h1 := ih (x.key + 1) h.2
    have h2 := h.1.1
    show lb ≤ chain_next L (x.key + 1)
    omega

/-- Every key in a satisfied chain is below the outgoing bound. -/
theorem chain_wfd_lt_next (w : Nat → Nat → Nat → Bool) :
    ∀ (L : List Item) (lb : Nat), chain_wfd w L lb = true →
      ∀ it ∈ L, it.key < chain_next L lb := by
  intro L
  induction L with
  | nil => intro lb _ it hit; exact absurd hit (by simp)
  | cons x L ih =>
    intro lb h it hit
    rw [show chain_wfd w (x :: L) lb =
      ((decide (lb ≤ x.key) && _) && chain_wfd w L (x.key + 1)) from rfl] at h
    simp only [Bool.and_eq_true, decide_eq_true_eq] at h
    rcases List.mem_cons.mp hit with rfl | hit
    · have := chain_next_ge w L (it.key + 1) h.2
      show it.key < chain_next L (it.key + 1)
      omega
    · exact ih (x.key + 1) h.2 it hit

/-- Chains only look at the referee through the refs its items hold. -/
theorem chain_wfd_congr_w {w w' : Nat → Nat → Nat → Bool} :
    ∀ (L : List Item) (lb : Nat),
      (∀ it ∈ L, ∀ r, it.val = .bref r → ∀ a c, w r.blkno a c = w' r.blkno a c) →
      chain_wfd w L lb = chain_wfd w' L lb := by
  intro L
  induction L with
  | nil => intro lb _; rfl
  | cons x L ih =>
    intro lb hw
    show ((decide (lb ≤ x.key) && _) && chain_wfd w L (x.key + 1)) =
      ((decide (lb ≤ x.key) && _) && chain_wfd w' L (x.key + 1))
    rw [ih (x.key + 1) (fun it hit => hw it (List.mem_cons_of_mem x hit))]
    congr 2
    cases hv : x.val with
    | bytes bs => rfl
    | bref r => exact hw x (List.mem_cons_self x L) r hv lb x.key

/-- The outgoing bound of a nonempty chain is one past its last key. -/
theorem chain_next_last :
    ∀ (L : List Item) (lb : Nat), L ≠ [] →
      chain_next L lb =
        (match L.get? (L.length - 1) with
         | some it => it.key
         | none => 0) + 1 := by
  intro L
  induction L with
  | nil => intro lb h; exact absurd rfl h
  | cons x L ih =>
    intro lb _
    cases hL : L with
    | nil => rfl
    | cons y L2 =>
      rw [← hL]
      show chain_next L (x.key + 1) = _
      rw [ih (x.key + 1) (by rw [hL]; exact List.cons_ne_nil y L2)]
      have hlen : 0 < L.length := by rw [hL]; simp
      have h2 : (x :: L).length - 1 = (L.length - 1) + 1 := by
        simp only [List.length_cons]
        omega
      rw [h2]
      rfl

/-- The running lower bound at a position of an item list. -/
def chain_lb (L : List Item) (lb : Nat) : Nat → Nat
  | 0 => lb
  | i + 1 =>
    (match L.get? i with
     | some it => it.key
     | none => 0) + 1

theorem chain_lb_cons (x : Item) (L : List Item) (lb : Nat) :
    ∀ j, chain_lb (x :: L) lb (j + 1) = chain_lb L (x.key + 1) j := by
  intro j
  cases j with
  | zero => rfl
  | succ k => rfl

/-- The chain predicate position by position. -/
theorem chain_wfd_iff_forall (w : Nat → Nat → Nat → Bool) :
    ∀ (L : List Item) (lb : Nat),
      chain_wfd w L lb = true ↔
        ∀ i, (hi : i < L.length) → ∃ r,
          (L.get ⟨i, hi⟩).val = .bref r ∧
          chain_lb L lb i ≤ (L.get ⟨i, hi⟩).key ∧
          w r.blkno (chain_lb L lb i) (L.get ⟨i, hi⟩).key = true := by
  intro L
  induction L with
  | nil =>
    intro lb
    constructor
    · intro _ i hi
      exact absurd hi (by simp)
    · intro _
      rfl
  | cons x L ih =>
    intro lb
    constructor
    · intro h i hi
      rw [show chain_wfd w (x :: L) lb =
        ((decide (lb ≤ x.key) && _) && chain_wfd w L (x.key + 1)) from rfl] at h
      simp only [Bool.and_eq_true, decide_eq_true_eq] at h
      cases i with
      | zero =>
        cases hv : x.val with
        | bytes bs =>
          rw [hv] at h
          exact absurd h.1.2 (by simp)
        | bref r =>
          rw [hv] at h
          exact ⟨r, hv, h.1.1, h.1.2⟩
      | succ j =>
        have hj : j < L.length := by simpa using hi
        obtain ⟨r, h1, h2, h3⟩ := (ih (x.key + 1)).mp h.2 j hj
        refine ⟨r, h1, ?_, ?_⟩
        · rw [chain_lb_cons]
          exact h2
        · rw [chain_lb_cons]
          exact h3
    · intro h
      obtain ⟨r0, hv0, hle0, hw0⟩ := h 0 (by simp)
      show ((decide (lb ≤ x.key) && _) && chain_wfd w L (x.key + 1)) = true
      simp only [Bool.and_eq_true, decide_eq_true_eq]
      refine ⟨⟨hle0, ?_⟩, ?_⟩
      · rw [show (x :: L).get ⟨0, by simp⟩ = x from rfl] at hv0 hw0
        rw [hv0]
        exact hw0
      · refine (ih (x.key + 1)).mpr ?_
        intro j hj
        obtain ⟨r, h1, h2, h3⟩ := h (j + 1) (by simpa using hj)
        refine ⟨r, h1, ?_, ?_⟩
        · rw [chain_lb_cons] at h2
          exact h2
        · rw [chain_lb_cons] at h3
          exact h3

/-- `childlb` through the item projection. -/
theorem childlb_chain_lb (bt : Block) (lb : Nat) :
    ∀ i, childlb bt lb i = chain_lb (bt.entries.map (fun e => e.2)) lb i := by
  intro i
  cases i with
  | zero => rfl
  | succ j =>
    show key_at bt j + 1 = (match (bt.entries.map (fun e => e.2)).get? j with
      | some it => it.key
      | none => 0) + 1
    rw [key_at_proj, block_keys_proj, List.get?_map, List.get?_map]
    cases bt.entries.get? j <;> rfl

/-- Delete-walk well-formedness at a parent through the chain predicate. -/
theorem subtree_wfd_node_chain (s : TreeState) (str : Bool) (l : Nat)
    (rt : Bool) (blkno lb ub : Nat) :
    subtree_wfd s str (l + 1) rt blkno lb ub = true ↔
      ∃ bt, s.store blkno = some bt ∧ bt.blkno = blkno ∧
        asc (block_keys bt) = true ∧ wf_min str rt false ≤ bt.nr_items ∧
        greatest_key bt = ub ∧
        chain_wfd (fun b a c => subtree_wfd s str l false b a c)
          (bt.entries.map (fun e => e.2)) lb = true := by
  rw [subtree_wfd_node_iff]
  constructor
  · rintro ⟨bt, hst, hbn, hasc, hmin, hgk, hch⟩
    refine ⟨bt, hst, hbn, hasc, hmin, hgk, ?_⟩
    refine (chain_wfd_iff_forall _ _ _).mpr ?_
    intro i hi
    have hie : i < bt.entries.length := by simpa using hi
    obtain ⟨r, hval, hcle, hwf⟩ := hch i hie
    have hget : (bt.entries.map (fun e => e.2)).get ⟨i, hi⟩ =
        (bt.entries.get ⟨i, hie⟩).2 := by
      simp [List.get_map]
    have hpi : pos_item bt i = (bt.entries.get ⟨i, hie⟩).2 := pos_item_get bt i hie
    have hka : key_at bt i = (bt.entries.get ⟨i, hie⟩).2.key := by
      unfold key_at
      rw [hpi]
    refine ⟨r, ?_, ?_, ?_⟩
    · rw [hget, ← hpi]
      exact hval
    · rw [hget, ← childlb_chain_lb, ← hka]
      exact hcle
    · rw [hget, ← childlb_chain_lb, ← hka]
      exact hwf
  · rintro ⟨bt, hst, hbn, hasc, hmin, hgk, hch⟩
    refine ⟨bt, hst, hbn, hasc, hmin, hgk, ?_⟩
    intro i hie
    have hi : i < (bt.entries.map (fun e => e.2)).length := by simpa using hie
    obtain ⟨r, hval, hcle, hwf⟩ := (chain_wfd_iff_forall _ _ _).mp hch i hi
    have hget : (bt.entries.map (fun e => e.2)).get ⟨i, hi⟩ =
        (bt.entries.get ⟨i, hie⟩).2 := by
      simp [List.get_map]
    have hpi : pos_item bt i = (bt.entries.get ⟨i, hie⟩).2 := pos_item_get bt i hie
    have hka : key_at bt i = (bt.entries.get ⟨i, hie⟩).2.key := by
      unfold key_at
      rw [hpi]
    rw [hget] at hval hcle hwf
    refine ⟨r, ?_, ?_, ?_⟩
    · rw [hpi]
      exact hval
    · rw [childlb_chain_lb, hka]
      exact hcle
    · rw [childlb_chain_lb, hka]
      exact hwf

/-- A chain for a stronger referee satisfies a weaker one. -/
theorem chain_wfd_mono {w w' : Nat → Nat → Nat → Bool} :
    ∀ (L : List Item) (lb : Nat),
      (∀ b a c, w b a c = true → w' b a c = true) →
      chain_wfd w L lb = true → chain_wfd w' L lb = true := by
  intro L
  induction L with
  | nil => intro lb _ _; rfl
  | cons x L ih =>
    intro lb hw h
    rw [show chain_wfd w (x :: L) lb =
      ((decide (lb ≤ x.key) && _) && chain_wfd w L (x.key + 1)) from rfl] at h
    simp only [Bool.and_eq_true, decide_eq_true_eq] at h
    show ((decide (lb ≤ x.key) &&
      (match x.val with
       | .bref r => w' r.blkno lb x.key
       | .bytes _ => false)) && chain_wfd w' L (x.key + 1)) = true
    simp only [Bool.and_eq_true, decide_eq_true_eq]
    refine ⟨⟨h.1.1, ?_⟩, ih (x.key + 1) hw h.2⟩
    cases hv : x.val with
    | bytes bs =>
      rw [hv] at h
      exact absurd h.1.2 (by simp)
    | bref r =>
      rw [hv] at h
      exact hw r.blkno lb x.key h.1.2

/-- Strict well-formedness implies the weak discipline. -/
theorem subtree_wfd_weaken (s : TreeState) :
    ∀ l rt blkno lb ub, subtree_wfd s true l rt blkno lb ub = true →
      subtree_wfd s false l rt blkno lb ub = true := by
  intro l
  induction l with
  | zero =>
    intro rt blkno lb ub h
    obtain ⟨bt, hst, hbn, hasc, hmin, hb⟩ :=
      (subtree_wfd_leaf_iff s true rt blkno lb ub).mp h
    refine (subtree_wfd_leaf_iff s false rt blkno lb ub).mpr
      ⟨bt, hst, hbn, hasc, ?_, hb⟩
    have : wf_min false rt true ≤ wf_min true rt true := by
      cases rt <;> decide
    omega
  | succ l ih =>
    intro rt blkno lb ub h
    obtain ⟨bt, hst, hbn, hasc, hmin, hgk, hch⟩ :=
      (subtree_wfd_node_chain s true l rt blkno lb ub).mp h
    refine (subtree_wfd_node_chain s false l rt blkno lb ub).mpr
      ⟨bt, hst, hbn, hasc, ?_, hgk, ?_⟩
    · have : wf_min false rt false ≤ wf_min true rt false := by
        cases rt <;> decide
      omega
    · exact chain_wfd_mono _ lb (fun b a c => ih false b a c) hch

/-- Well-formedness away from the root also holds with the root's laxer
occupancy minimum. -/
theorem subtree_wfd_root_of_nonroot (s : TreeState) (str : Bool) :
    ∀ l blkno lb ub, subtree_wfd s str l false blkno lb ub = true →
      subtree_wfd s str l true blkno lb ub = true := by
  intro l
  cases l with
  | zero =>
    intro blkno lb ub h
    obtain ⟨bt, hst, hbn, hasc, hmin, hb⟩ :=
      (subtree_wfd_leaf_iff s str false blkno lb ub).mp h
    refine (subtree_wfd_leaf_iff s str true blkno lb ub).mpr
      ⟨bt, hst, hbn, hasc, ?_, hb⟩
    have : wf_min str true true ≤ wf_min str false true := by
      cases str <;> decide
    omega
  | succ l =>
    intro blkno lb ub h
    obtain ⟨bt, hst, hbn, hasc, hmin, hgk, hch⟩ :=
      (subtree_wfd_node_chain s str l false blkno lb ub).mp h
    refine (subtree_wfd_node_chain s str l true blkno lb ub).mpr
      ⟨bt, hst, hbn, hasc, ?_, hgk, hch⟩
    have : wf_min str true false ≤ wf_min str false false := by
      cases str <;> decide
    omega

/-- The outgoing bound of a nonempty block's chain is one past its greatest
key. -/
theorem chain_next_greatest (bt : Block) (lb : Nat)
    (hne : bt.entries ≠ []) :
    chain_next (bt.entries.map (fun e => e.2)) lb = greatest_key bt + 1 := by
  have hne2 : bt.entries.map (fun e => e.2) ≠ [] := by
    intro hc
    exact hne (List.map_eq_nil.mp hc)
  rw [chain_next_last _ lb hne2]
  congr 1
  have hlen : (bt.entries.map (fun e => e.2)).length = bt.nr_items := by
    simp [Block.nr_items]
  rw [hlen, greatest_key_eq_key_at, key_at_proj, block_keys_proj,
    List.get?_map, List.get?_map, List.get?_map]
  cases bt.entries.get? (bt.nr_items - 1) <;> rfl

/-- The keys of a well-formed block lie inside its interval and are
strictly sorted. -/
theorem subtree_wfd_keys_bounds (s : TreeState) (str : Bool) :
    ∀ l rt blkno lb ub bt, subtree_wfd s str l rt blkno lb ub = true →
      s.store blkno = some bt →
      asc (block_keys bt) = true ∧
      ∀ kk ∈ block_keys bt, lb ≤ kk ∧ kk ≤ ub := by
  intro l rt blkno lb ub bt h hst
  cases l with
  | zero =>
    obtain ⟨bt0, hst0, hbn, hasc, hmin, hb⟩ :=
      (subtree_wfd_leaf_iff s str rt blkno lb ub).mp h
    have hbb : bt0 = bt := Option.some.inj (hst0.symm.trans hst)
    rw [← hbb]
    refine ⟨hasc, ?_⟩
    intro kk hkk
    rcases List.mem_map.mp hkk with ⟨e, he, rfl⟩
    exact hb e he
  | succ l =>
    obtain ⟨bt0, hst0, hbn, hasc, hmin, hgk, hch⟩ :=
      (subtree_wfd_node_chain s str l rt blkno lb ub).mp h
    have hbb : bt0 = bt := Option.some.inj (hst0.symm.trans hst)
    rw [← hbb]
    refine ⟨hasc, ?_⟩
    intro kk hkk
    rw [block_keys_proj] at hkk
    rcases List.mem_map.mp hkk with ⟨it, hit, rfl⟩
    constructor
    · exact chain_wfd_ge _ _ lb hch it hit
    · have h1 := chain_wfd_lt_next _ _ lb hch it hit
      have hne : bt0.entries ≠ [] := by
        intro hc
        rw [hc] at hit
        exact absurd hit (by simp)
      rw [chain_next_greatest bt0 lb hne, hgk] at h1
      omega

/-- The last item of an appended list with a nonempty right part. -/
theorem get_last_append {α : Type} (A B : List α) (hB : B ≠ []) :
    (A ++ B).get? ((A ++ B).length - 1) = B.get? (B.length - 1) := by
  have hBl : 0 < B.length := List.length_pos.mpr hB
  have h1 : (A ++ B).length - 1 = A.length + (B.length - 1) := by
    rw [List.length_append]
    omega
  rw [h1, List.get?_append_right (by omega)]
  congr 1
  omega

/-- The greatest key of a block whose items end in another block's items. -/
theorem greatest_key_append_right (M bt : Block) (A : List Item)
    (hproj : M.entries.map (fun e => e.2) = A ++ bt.entries.map (fun e => e.2))
    (hne : bt.entries ≠ []) : greatest_key M = greatest_key bt := by
  have hneb : bt.entries.map (fun e => e.2) ≠ [] := by
    intro hc
    exact hne (List.map_eq_nil.mp hc)
  have hneM : M.entries ≠ [] := by
    intro hc
    rw [hc] at hproj
    rcases List.append_eq_nil.mp hproj.symm with ⟨-, h2⟩
    exact hneb h2
  have h1 := chain_next_greatest M 0 hneM
  rw [hproj, chain_next_append, chain_next_greatest bt _ hne] at h1
  omega

/-- Per-level item gathering below a list of parent items: at level 0 the
items themselves, above that the concatenated subtrees they reference. -/
def gather (s : TreeState) : Nat → List Item → List Item
  | 0, X => X
  | l + 1, X => X.flatMap (fun it => subtree_items s l (item_bref it).blkno)

theorem gather_append (s : TreeState) (l : Nat) (X Y : List Item) :
    gather s l (X ++ Y) = gather s l X ++ gather s l Y := by
  cases l with
  | zero => rfl
  | succ l =>
    show (X ++ Y).flatMap _ = _
    rw [List.flatMap_append]
    rfl

/-- A stored block's subtree items are its item list's gathering. -/
theorem subtree_items_gather (s : TreeState) (l : Nat) (b : Nat) (B : Block)
    (hst : s.store b = some B) :
    subtree_items s l b = gather s l (B.entries.map (fun e => e.2)) := by
  cases l with
  | zero => exact subtree_items_leaf s b B hst
  | succ l => exact subtree_items_node_proj s l b B hst

/-- Gathering above level 0 only reads the referenced subtrees. -/
theorem gather_congr_succ (s2 s : TreeState) (l : Nat) (X : List Item)
    (h : ∀ it ∈ X, store_like s2 s (subtree_blknos s l (item_bref it).blkno)) :
    gather s2 (l + 1) X = gather s (l + 1) X := by
  show X.flatMap _ = X.flatMap _
  refine flatMap_congr_eq _ _ _ fun it hit => ?_
  exact subtree_items_congr s2 s l (item_bref it).blkno (h it hit)

/-- A chain survives lowering the incoming bound when the referee does. -/
theorem chain_wfd_lb_mono {w : Nat → Nat → Nat → Bool}
    (hw : ∀ b a a' c, a' ≤ a → w b a c = true → w b a' c = true) :
    ∀ (L : List Item) (lb lb' : Nat), lb' ≤ lb →
      chain_wfd w L lb = true → chain_wfd w L lb' = true := by
  intro L
  cases L with
  | nil => intro lb lb' _ _; rfl
  | cons x L =>
    intro lb lb' hle h
    rw [show chain_wfd w (x :: L) lb =
      ((decide (lb ≤ x.key) && _) && chain_wfd w L (x.key + 1)) from rfl] at h
    simp only [Bool.and_eq_true, decide_eq_true_eq] at h
    show ((decide (lb' ≤ x.key) &&
      (match x.val with
       | .bref r => w r.blkno lb' x.key
       | .bytes _ => false)) && chain_wfd w L (x.key + 1)) = true
    simp only [Bool.and_eq_true, decide_eq_true_eq]
    refine ⟨⟨by omega, ?_⟩, h.2⟩
    cases hv : x.val with
    | bytes bs =>
      rw [hv] at h
      exact absurd h.1.2 (by simp)
    | bref r =>
      rw [hv] at h
      exact hw r.blkno lb lb' x.key hle h.1.2

/-- Well-formedness survives widening the interval downward. -/
theorem subtree_wfd_lb_mono (s : TreeState) (str : Bool) :
    ∀ l rt blkno lb ub lb', lb' ≤ lb →
      subtree_wfd s str l rt blkno lb ub = true →
      subtree_wfd s str l rt blkno lb' ub = true := by
  intro l
  induction l with
  | zero =>
    intro rt blkno lb ub lb' hle h
    obtain ⟨bt, hst, hbn, hasc, hmin, hb⟩ :=
      (subtree_wfd_leaf_iff s str rt blkno lb ub).mp h
    refine (subtree_wfd_leaf_iff s str rt blkno lb' ub).mpr
      ⟨bt, hst, hbn, hasc, hmin, fun e he => ?_⟩
    have := hb e he
    omega
  | succ l ih =>
    intro rt blkno lb ub lb' hle h
    obtain ⟨bt, hst, hbn, hasc, hmin, hgk, hch⟩ :=
      (subtree_wfd_node_chain s str l rt blkno lb ub).mp h
    refine (subtree_wfd_node_chain s str l rt blkno lb' ub).mpr
      ⟨bt, hst, hbn, hasc, hmin, hgk, ?_⟩
    exact chain_wfd_lb_mono (fun b a a' c hle2 h2 => ih false b a c a' hle2 h2)
      _ lb lb' hle hch

/-- A strictly well-formed non-root block holds at least two items. -/
theorem subtree_wfd_two_items (s : TreeState) :
    ∀ l blkno lb ub bt, subtree_wfd s true l false blkno lb ub = true →
      s.store blkno = some bt → 2 ≤ bt.nr_items := by
  intro l blkno lb ub bt h hst
  cases l with
  | zero =>
    obtain ⟨bt0, hst0, -, -, hmin, -⟩ :=
      (subtree_wfd_leaf_iff s true false blkno lb ub).mp h
    have hbb : bt0 = bt := Option.some.inj (hst0.symm.trans hst)
    rw [hbb] at hmin
    exact hmin
  | succ l =>
    obtain ⟨bt0, hst0, -, -, hmin, -, -⟩ :=
      (subtree_wfd_node_chain s true l false blkno lb ub).mp h
    have hbb : bt0 = bt := Option.some.inj (hst0.symm.trans hst)
    rw [hbb] at hmin
    have h3 : (3 : Nat) ≤ bt.nr_items := hmin
    omega

/-- The greatest key of a nonempty block is one of its keys. -/
theorem greatest_key_mem (bt : Block) (hne : bt.entries ≠ []) :
    greatest_key bt ∈ block_keys bt := by
  have hnr : bt.nr_items = bt.entries.length := rfl
  have hlen : 0 < bt.entries.length := List.length_pos.mpr hne
  have hlt : bt.nr_items - 1 < bt.nr_items := by omega
  rw [greatest_key_eq_key_at, key_at_get bt _ hlt]
  exact List.get_mem _ _ _

/-- Replacing one key keeps the list strictly ascending when the new key
stays between its neighbours. -/
theorem asc_set (L : List Nat) (q : Nat) (x : Nat) (hq : q < L.length)
    (hasc : asc L = true)
    (hlo : ∀ h : 0 < q, L.get ⟨q - 1, by omega⟩ < x)
    (hhi : ∀ h : q + 1 < L.length, x < L.get ⟨q + 1, h⟩) :
    asc (L.set q x) = true := by
  have hlen : (L.set q x).length = L.length := List.length_set L q x
  have hgc : ∀ (a b : Nat) (ha : a < L.length) (hb : b < L.length), a = b →
      L.get ⟨a, ha⟩ = L.get ⟨b, hb⟩ := by
    intro a b ha hb h
    subst h
    rfl
  have hget : ∀ (t : Nat) (ht : t < (L.set q x).length),
      (L.set q x).get ⟨t, ht⟩ = if t = q then x else L.get ⟨t, by omega⟩ := by
    intro t ht
    by_cases htq : t = q
    · subst htq
      rw [if_pos rfl]
      exact get_set_eq_at L t x ht (by omega)
    · rw [if_neg htq]
      exact get_set_ne_at L q t x (fun he => htq he.symm) ht (by omega)
  rw [asc_iff_pairwise, List.pairwise_iff_get]
  intro i j hij
  have hj2 : (j : Nat) < L.length := by
    have := j.isLt
    omega
  have hij2 : (i : Nat) < (j : Nat) := hij
  rw [show (L.set q x).get i = (L.set q x).get ⟨(i : Nat), i.isLt⟩ from rfl,
    hget (i : Nat) i.isLt,
    show (L.set q x).get j = (L.set q x).get ⟨(j : Nat), j.isLt⟩ from rfl,
    hget (j : Nat) j.isLt]
  by_cases hiq : (i : Nat) = q
  · rw [if_pos hiq]
    by_cases hjq : (j : Nat) = q
    · exfalso
      omega
    · rw [if_neg hjq]
      have hq1 : q + 1 ≤ (j : Nat) := by omega
      have hq1l : q + 1 < L.length := by omega
      have h1 := hhi hq1l
      have h2 : L.get ⟨q + 1, hq1l⟩ ≤ L.get ⟨(j : Nat), by omega⟩ := by
        rcases Nat.eq_or_lt_of_le hq1 with he | hl
        · exact le_of_eq (hgc _ _ _ _ he)
        · exact le_of_lt (asc_get hasc hl (by omega))
      exact lt_of_lt_of_le h1 h2
  · rw [if_neg hiq]
    by_cases hjq : (j : Nat) = q
    · rw [if_pos hjq]
      have h0q : 0 < q := by omega
      have h1 := hlo h0q
      have h2 : L.get ⟨(i : Nat), by omega⟩ ≤ L.get ⟨q - 1, by omega⟩ := by
        rcases Nat.eq_or_lt_of_le (show (i : Nat) ≤ q - 1 by omega) with he | hl
        · exact le_of_eq (hgc _ _ _ _ he)
        · exact le_of_lt (asc_get hasc hl (by omega))
      exact lt_of_le_of_lt h2 h1
    · rw [if_neg hjq]
      exact asc_get hasc hij2 (by omega)

/-- Whatever bound follows a taken prefix of a block's items also bounds
every remaining key from below. -/
theorem take_next_le_drop (B : Block) (lb m : Nat)
    (hasc : asc (block_keys B) = true)
    (hlb : ∀ kk ∈ block_keys B, lb ≤ kk) :
    ∀ kk ∈ (block_keys B).drop m,
      chain_next ((B.entries.take m).map (fun e => e.2)) lb ≤ kk := by
  intro kk hkk
  by_cases hm0 : (B.entries.take m).map (fun e => e.2) = []
  · rw [hm0]
    show lb ≤ kk
    exact hlb kk (List.Sublist.mem hkk (List.drop_sublist _ _))
  · rcases List.mem_iff_get.mp hkk with ⟨⟨i, hi⟩, hgi⟩
    have hilen : i < (block_keys B).length - m := by
      have := hi
      rwa [List.length_drop] at this
    have hkl : (block_keys B).length = B.entries.length := by
      unfold block_keys
      rw [List.length_map]
    have hmlt : m < B.entries.length := by omega
    have hnel : 0 < m := by
      by_contra h0
      have hm00 : m = 0 := by omega
      apply hm0
      rw [hm00]
      rfl
    rw [chain_next_last _ lb hm0]
    have hlen2 : ((B.entries.take m).map (fun e => e.2)).length = m := by
      rw [List.length_map, List.length_take]
      omega
    rw [hlen2]
    have hm1 : m - 1 < m := by omega
    have hget : ((B.entries.take m).map (fun e => e.2)).get? (m - 1) =
        some (B.entries.get ⟨m - 1, by omega⟩).2 := by
      rw [List.get?_map, List.get?_take hm1,
        List.get?_eq_get (show m - 1 < B.entries.length by omega)]
      rfl
    rw [hget]
    have hmi : m + i < (block_keys B).length := by omega
    have hgd : kk = (block_keys B).get ⟨m + i, hmi⟩ := by
      rw [← hgi]
      simp [List.get_eq_getElem, List.getElem_drop]
    show (B.entries.get ⟨m - 1, by omega⟩).2.key + 1 ≤ kk
    have hkey : (B.entries.get ⟨m - 1, by omega⟩).2.key =
        (block_keys B).get ⟨m - 1, by omega⟩ := by
      unfold block_keys
      simp [List.get_map]
    rw [hkey, hgd]
    have := asc_get hasc (show m - 1 < m + i by omega) hmi
    omega

/-- Splitting a flat map at two adjacent positions whose images change. -/
theorem flatMap_split2_congr {α β : Type} (L : List α) (q : Nat)
    (hq : q + 1 < L.length) (g2 g : α → List β)
    (hoth : ∀ i, (hi : i < L.length) → i ≠ q → i ≠ q + 1 →
      g2 (L.get ⟨i, hi⟩) = g (L.get ⟨i, hi⟩)) :
    L.flatMap g2 =
      (L.take q).flatMap g ++
        (g2 (L.get ⟨q, by omega⟩) ++ (g2 (L.get ⟨q + 1, hq⟩) ++
          (L.drop (q + 2)).flatMap g)) := by
  have hq0 : q < L.length := by omega
  have hsplit : L = L.take q ++ L.get ⟨q, hq0⟩ :: L.get ⟨q + 1, hq⟩ ::
      L.drop (q + 2) := by
    have h1 : L.drop q = L.get ⟨q, hq0⟩ :: L.drop (q + 1) :=
      List.drop_eq_get_cons hq0
    have h2 : L.drop (q + 1) = L.get ⟨q + 1, hq⟩ :: L.drop (q + 2) :=
      List.drop_eq_get_cons hq
    rw [h2] at h1
    rw [← h1]
    exact (List.take_append_drop q L).symm
  conv_lhs => rw [hsplit]
  rw [List.flatMap_append, List.flatMap_cons, List.flatMap_cons]
  congr 1
  · refine flatMap_congr_eq _ _ _ fun x hx => ?_
    rcases List.mem_iff_get.mp hx with ⟨⟨i, hlt⟩, hgi⟩
    have hlen : i < q := by
      have := hlt
      rw [List.length_take] at this
      omega
    have hix : (L.take q).get ⟨i, hlt⟩ = L.get ⟨i, by omega⟩ := by
      simp [List.get_eq_getElem, List.getElem_take]
    rw [← hgi, hix]
    exact hoth i (by omega) (by omega) (by omega)
  · congr 2
    refine flatMap_congr_eq _ _ _ fun x hx => ?_
    rcases List.mem_iff_get.mp hx with ⟨⟨i, hlt⟩, hgi⟩
    have hlen : q + 2 + i < L.length := by
      have := hlt
      rw [List.length_drop] at this
      omega
    have hix : (L.drop (q + 2)).get ⟨i, hlt⟩ = L.get ⟨q + 2 + i, hlen⟩ := by
      simp [List.get_eq_getElem, List.getElem_drop]
    rw [← hgi, hix]
    exact hoth (q + 2 + i) hlen (by omega) (by omega)

/-- Moving a block of middle elements across a marker is a permutation. -/
theorem perm_merge_shift {α : Type} (a b : α) (A B C D : List α) :
    ((a :: A) ++ ((b :: (B ++ C)) ++ D)).Perm
      ((a :: (A ++ B)) ++ ((b :: C) ++ D)) := by
  simp only [List.cons_append, List.append_assoc]
  refine List.Perm.cons a ?_
  refine List.Perm.append_left A ?_
  exact List.perm_middle.symm

/-- Per-level block-number gathering below a list of parent items. -/
def gatherB (s : TreeState) : Nat → List Item → List Nat
  | 0, _ => []
  | l + 1, X => X.flatMap (fun it => subtree_blknos s l (item_bref it).blkno)

/-- A stored block's subtree block numbers, through its item list. -/
theorem subtree_blknos_gatherB (s : TreeState) (l : Nat) (b : Nat) (B : Block)
    (hst : s.store b = some B) :
    subtree_blknos s l b = b :: gatherB s l (B.entries.map (fun e => e.2)) := by
  cases l with
  | zero => rfl
  | succ l =>
    rw [subtree_blknos_node_proj s l b B hst]
    rfl

theorem gatherB_append (s : TreeState) (l : Nat) (X Y : List Item) :
    gatherB s l (X ++ Y) = gatherB s l X ++ gatherB s l Y := by
  cases l with
  | zero => rfl
  | succ l =>
    show (X ++ Y).flatMap _ = _
    rw [List.flatMap_append]
    rfl

theorem gatherB_congr_succ (s2 s : TreeState) (l : Nat) (X : List Item)
    (h : ∀ it ∈ X, store_like s2 s (subtree_blknos s l (item_bref it).blkno)) :
    gatherB s2 (l + 1) X = gatherB s (l + 1) X := by
  show X.flatMap _ = X.flatMap _
  refine flatMap_congr_eq _ _ _ fun it hit => ?_
  exact subtree_blknos_congr s2 s l (item_bref it).blkno (h it hit)

/-- What a sibling merge during the delete walk produces, seen from the
parent's subtree: the fetched child keeps its number and only gains items;
its subtree is strictly well formed over a possibly widened interval still
containing the search key; blocks outside the parent's subtree are
untouched; and either the parent remains — weakly well formed over the
same interval, holding the same items and a subset of the blocks, with the
child under a known position — or the tree collapsed into the child. -/
def MergeOut (s : TreeState) (l : Nat) (rt : Bool) (pb plb pub key : Nat)
    (bt btM : Block) (sM : TreeState) : Prop :=
  btM.blkno = bt.blkno ∧
  sM.store bt.blkno = some btM ∧
  bt.nr_items ≤ btM.nr_items ∧
  (∀ n, n ∉ subtree_blknos s (l + 1) pb → sM.store n = s.store n) ∧
  (∀ n, n ∈ subtree_blknos sM l bt.blkno → n ≠ bt.blkno →
    sM.store n = s.store n ∧ n ≠ pb ∧ n ∈ subtree_blknos s (l + 1) pb) ∧
  (subtree_blknos sM l bt.blkno).Nodup ∧
  (∃ nlb nub,
    subtree_wfd sM true l false bt.blkno nlb nub = true ∧
    nlb ≤ key ∧ key ≤ nub ∧
    ((sM.root = s.root ∧
      ∃ Pf, sM.store pb = some Pf ∧ Pf.blkno = pb ∧
        subtree_wfd sM false (l + 1) rt pb plb pub = true ∧
        subtree_items sM (l + 1) pb = subtree_items s (l + 1) pb ∧
        (subtree_blknos sM (l + 1) pb).Nodup ∧
        (∀ x ∈ subtree_blknos sM (l + 1) pb,
          x ∈ subtree_blknos s (l + 1) pb) ∧
        ∃ j, j < Pf.nr_items ∧ (item_bref (pos_item Pf j)).blkno = bt.blkno ∧
          childlb Pf plb j = nlb ∧ key_at Pf j = nub) ∨
     (rt = true ∧
      sM.root.height = s.root.height - 1 ∧ sM.root.ref.blkno = bt.blkno ∧
      sM.store pb = none ∧
      subtree_items sM l bt.blkno = subtree_items s (l + 1) pb ∧
      (∀ x ∈ subtree_blknos sM l bt.blkno,
        x ∈ subtree_blknos s (l + 1) pb))))

/-- The empty tree: no blocks, root height 0, allocator at 1, dirty seq 7. -/
def empty_state : TreeState := ⟨fun _ => none, ⟨0, ⟨0, 0⟩⟩, 1, 7⟩

/-- A single-leaf tree holding one item with key 5. -/
def leaf5 : Block :=
  ⟨1, 5, SCOUTFS_BLOCK_SIZE - 19, 0,
    [(SCOUTFS_BLOCK_SIZE - 19, ⟨5, 5, .bytes [9]⟩)]⟩

/-- The state whose tree is the single leaf `leaf5`. -/
def state5 : TreeState :=
  ⟨fun n => if n = 1 then some leaf5 else none, ⟨1, ⟨1, 5⟩⟩, 2, 7⟩

/-- A two-item block used as a witness input. -/
def wblock : Block :=
  ⟨3, 4, SCOUTFS_BLOCK_SIZE - 40, 0,
    [(SCOUTFS_BLOCK_SIZE - 19, ⟨2, 1, .bytes [7]⟩),
     (SCOUTFS_BLOCK_SIZE - 40, ⟨6, 3, .bytes [1, 2, 3]⟩)]⟩

/-- A block too full for the insert fast paths of `try_split`, used as a
witness input. -/
def fullb : Block :=
  ⟨9, 4, 60, 0,
    [(SCOUTFS_BLOCK_SIZE - 19, ⟨2, 1, .bytes [7]⟩),
     (60, ⟨6, 3, .bytes [1, 2, 3]⟩)]⟩

/-- A left-sibling leaf for the merge witness. -/
def mc11 : Block := ⟨11, 4, SCOUTFS_BLOCK_SIZE - 19, 0,
  [(SCOUTFS_BLOCK_SIZE - 19, ⟨3, 2, .bytes [5]⟩)]⟩

/-- A mostly-empty leaf that triggers a merge, for the merge witness. -/
def mc12 : Block := ⟨12, 6, SCOUTFS_BLOCK_SIZE - 19, 0,
  [(SCOUTFS_BLOCK_SIZE - 19, ⟨8, 2, .bytes [7]⟩)]⟩

/-- A three-child parent block for the merge witness. -/
def mp7 : Block := ⟨7, 6, SCOUTFS_BLOCK_SIZE - 3 * 34, 0,
  [(SCOUTFS_BLOCK_SIZE - 34, ⟨3, 2, .bref ⟨11, 4⟩⟩),
   (SCOUTFS_BLOCK_SIZE - 2 * 34, ⟨8, 2, .bref ⟨12, 6⟩⟩),
   (SCOUTFS_BLOCK_SIZE - 3 * 34, ⟨SCOUTFS_MAX_KEY, 2, .bref ⟨13, 1⟩⟩)]⟩

/-- A height-2 tree over `mp7`, for the merge witness. -/
def mstate4 : TreeState :=
  ⟨fun n => if n = 7 then some mp7 else if n = 11 then some mc11
    else if n = 12 then some mc12 else none, ⟨2, ⟨7, 6⟩⟩, 20, 9⟩

/-- The merged block `try_merge` produces from `mc12` and `mc11`. -/
def mms1 : Block := ⟨12, 6, 4058, 0,
  [(4058, ⟨3, 2, .bytes [5]⟩), (4077, ⟨8, 2, .bytes [7]⟩)]⟩

/-- The drained sibling left over by the merge witness. -/
def mms2 : Block := ⟨11, 9, 4077, 19, []⟩

/-- `mp7` with the sibling ref re-dirtied, as the merge witness's walk
leaves it before deleting the drained sibling's item. -/
def mP1 : Block := ⟨7, 6, 3994, 0,
  [(4062, ⟨3, 2, .bref ⟨11, 9⟩⟩), (4028, ⟨8, 2, .bref ⟨12, 6⟩⟩),
   (3994, ⟨SCOUTFS_MAX_KEY, 2, .bref ⟨13, 1⟩⟩)]⟩

/-- The final parent of the merge witness: the drained sibling's item
deleted. -/
def mpfin : Block := ⟨7, 6, 3994, 34,
  [(4028, ⟨8, 2, .bref ⟨12, 6⟩⟩),
   (3994, ⟨SCOUTFS_MAX_KEY, 2, .bref ⟨13, 1⟩⟩)]⟩

/-- The scanning loop of `scoutfs_btree_hole` on a nonempty well-formed
tree: tracking a candidate hole that every smaller in-range key beats, it
returns the least absent key of the range, or no-space when every key in
the range is present. -/
theorem btree_hole_loop_ind (s : TreeState) (first last : Nat)
    (hh : s.root.height ≠ 0) (hwf : tree_wf s = true)
    (hlast : last < SCOUTFS_MAX_KEY) (hfl : first ≤ last)
    (fuel_in : Nat) (hfuel : last + 2 ≤ fuel_in) :
    ∀ n (c : Cursor) h,
      first ≤ h →
      (∀ x, first ≤ x → x < h → ∃ it ∈ tree_items s, it.key = x) →
      ((c = none ∧ h = first) ∨
        (∃ b p L, c = some (b, p) ∧ s.store b = some L ∧
          CursInv s 0 .next b p ∧ (pos_item L p).key + 1 = h)) →
      (range_items s h last 0 .next).length + 1 ≤ n →
      (∃ h2, btree_hole_loop first last fuel_in n s c h = .found h2 s ∧
        first ≤ h2 ∧ h2 ≤ last ∧
        (∀ x, first ≤ x → x < h2 → ∃ it ∈ tree_items s, it.key = x) ∧
        ¬ ∃ it ∈ tree_items s, it.key = h2) ∨
      (btree_hole_loop first last fuel_in n s c h = .nospace s ∧
        ∀ x, first ≤ x → x ≤ last → ∃ it ∈ tree_items s, it.key = x) := by
  intro n
  induction n with
  | zero =>
    intro c h _ _ _ hlen
    omega
  | succ n ihn =>
    intro c h hfh hpre hcur hlen
    simp only [btree_hole_loop]
    have hstep : (btree_next fuel_in s first last 0 .next c = .out 0 s none ∧
        range_items s h last 0 .next = []) ∨
      (∃ b p L, btree_next fuel_in s first last 0 .next c =
          .out 1 s (some (b, p)) ∧
        s.store b = some L ∧ CursInv s 0 .next b p ∧
        range_items s h last 0 .next =
          pos_item L p :: range_items s ((pos_item L p).key + 1) last
            0 .next) := by
      rcases hcur with ⟨rfl, hq2⟩ | ⟨b0, p0, L0, rfl, hstL0, hCI0, hk0⟩
      · rw [hq2]
        exact btree_next_none_spec s 0 first last .next (Or.inl rfl) hh hwf
          hlast hfl fuel_in hfuel
      · have hx := btree_next_curs_spec s 0 first last .next (Or.inl rfl) hh
          hwf hlast hfl fuel_in hfuel b0 p0 L0 hstL0 hCI0
        rw [hk0] at hx
        exact hx
    rcases hstep with ⟨heq, hnil⟩ | ⟨b, p, L, heq, hstL, hCI, hsplit⟩
    · simp only [heq]
      rw [if_neg (by omega)]
      by_cases hhl : scoutfs_key_cmp h last ≤ 0
      · rw [if_pos hhl]
        left
        refine ⟨h, rfl, hfh, scoutfs_key_cmp_nonpos.mp hhl, hpre, ?_⟩
        rintro ⟨it, hit, hkey⟩
        have hmem : it ∈ range_items s h last 0 .next := by
          unfold range_items
          refine List.mem_filter.mpr ⟨hit, ?_⟩
          simp only [Bool.and_eq_true, decide_eq_true_eq]
          exact ⟨⟨by omega, by
            have := scoutfs_key_cmp_nonpos.mp hhl
            omega⟩, rfl⟩
        rw [hnil] at hmem
        exact absurd hmem (by simp)
      · rw [if_neg hhl]
        right
        refine ⟨rfl, ?_⟩
        intro x hx1 hx2
        have hlast2 : last < h := by
          rcases Int.lt_or_lt_of_ne (fun hcon => hhl (le_of_eq hcon)) with hcon | hcon
          · exact absurd (le_of_lt hcon) hhl
          · exact scoutfs_key_cmp_pos.mp hcon
        exact hpre x hx1 (by omega)
    · simp only [heq]
      rw [if_pos (by omega)]
      have hcurs : curs_item s (b, p) = pos_item L p := by
        unfold curs_item
        rw [hstL]
      simp only [hcurs]
      have hhead : pos_item L p ∈ range_items s h last 0 .next := by
        rw [hsplit]
        exact List.mem_cons_self _ _
      have hheadf := List.mem_filter.mp (by
        unfold range_items at hhead
        exact hhead)
      have hpl : h ≤ (pos_item L p).key ∧ (pos_item L p).key ≤ last := by
        have := hheadf.2
        simp only [Bool.and_eq_true, decide_eq_true_eq] at this
        exact this.1
      by_cases hkh : 0 < scoutfs_key_cmp (pos_item L p).key h
      · rw [if_pos hkh]
        have hgt : h < (pos_item L p).key := scoutfs_key_cmp_pos.mp hkh
        rw [if_pos (scoutfs_key_cmp_nonpos.mpr (by omega))]
        left
        refine ⟨h, rfl, hfh, by omega, hpre, ?_⟩
        rintro ⟨it, hit, hkey⟩
        have hmem : it ∈ range_items s h last 0 .next := by
          unfold range_items
          refine List.mem_filter.mpr ⟨hit, ?_⟩
          simp only [Bool.and_eq_true, decide_eq_true_eq]
          exact ⟨⟨by omega, by omega⟩, rfl⟩
        rw [hsplit] at hmem
        rcases List.mem_cons.mp hmem with rfl | hmem2
        · omega
        · have := List.mem_filter.mp (by
            unfold range_items at hmem2
            exact hmem2)
          have h2 := this.2
          simp only [Bool.and_eq_true, decide_eq_true_eq] at h2
          omega
      · rw [if_neg hkh]
        have hle : (pos_item L p).key ≤ h := by
          by_contra hcon
          push_neg at hcon
          exact hkh (scoutfs_key_cmp_pos.mpr hcon)
        have hkeq : (pos_item L p).key = h := by omega
        have hrec := ihn (some (b, p)) (scoutfs_inc_key (pos_item L p).key)
          (by
            show first ≤ (pos_item L p).key + 1
            omega)
          (by
            intro x hx1 hx2
            have hx2b : x < (pos_item L p).key + 1 := hx2
            rcases Nat.lt_or_ge x h with hxh | hxh
            · exact hpre x hx1 hxh
            · exact ⟨pos_item L p, hheadf.1, by omega⟩)
          (Or.inr ⟨b, p, L, rfl, hstL, hCI, rfl⟩)
          (by
            show (range_items s ((pos_item L p).key + 1) last 0 .next).length
              + 1 ≤ n
            rw [hsplit] at hlen
            simp only [List.length_cons] at hlen
            omega)
        exact hrec

/-- On the single-leaf tree `state5`, searching from key 6 with the
maximum key as `last`, the leaf-searching loop of `btree_next` never
finishes: the resume key sticks at the sentinel. -/
theorem btree_next_state5_sentinel_fuel :
    ∀ fuel, btree_next fuel state5 6 SCOUTFS_MAX_KEY 0 .next none = .fuel := by
  have hstick : ∀ f, btree_next_walk SCOUTFS_MAX_KEY 0 .next f state5
      SCOUTFS_MAX_KEY = .fuel := by
    intro f
    induction f with
    | zero => rfl
    | succ f ihf =>
      have hstep : btree_next_walk SCOUTFS_MAX_KEY 0 .next (f + 1) state5
          SCOUTFS_MAX_KEY =
          btree_next_walk SCOUTFS_MAX_KEY 0 .next f state5
            SCOUTFS_MAX_KEY := rfl
      rw [hstep, ihf]
  intro fuel
  cases fuel with
  | zero => rfl
  | succ f =>
    have hfirst : btree_next_walk SCOUTFS_MAX_KEY 0 .next (f + 1) state5 6 =
        btree_next_walk SCOUTFS_MAX_KEY 0 .next f state5
          SCOUTFS_MAX_KEY := rfl
    have hlo : btree_next_walk SCOUTFS_MAX_KEY 0 .next (f + 1) state5 6 =
        .fuel := by
      rw [hfirst, hstick f]
    show btree_next (f + 1) state5 6 SCOUTFS_MAX_KEY 0 .next none = .fuel
    simp only [btree_next]
    rw [if_neg (by decide)]
    simp only [hlo]

/-!
Claims.
-/

/-- C1: the spec says that on an empty tree (`height == 0`) an INSERT walk
grows a new root leaf via `grow_tree` while every other operation returns
not-found.  The code at `btree_walk` has the condition inverted: INSERT
returns `-ENOENT` and every other operation grows the tree.  This theorem
evaluates the embedded walk on the empty tree: the INSERT walk and
`scoutfs_btree_insert` fail with not-found and leave the root empty, while
a LOOKUP walk allocates a root leaf and bumps the height to 1. -/
theorem c1_empty_tree_walk_inverted :
    (btree_walk empty_state 1 8 0 .insert).res = .error .noent ∧
    (btree_walk empty_state 1 8 0 .insert).state.root.height = 0 ∧
    (scoutfs_btree_insert empty_state 1 8).1 = .error .noent ∧
    (btree_walk empty_state 1 0 0 .lookup).res = .ok 1 ∧
    (btree_walk empty_state 1 0 0 .lookup).state.root.height = 1 ∧
    (btree_walk empty_state 1 0 0 .delete).res = .ok 1 ∧
    (btree_walk empty_state 1 0 0 .delete).state.root.height = 1 := by
  refine ⟨rfl, rfl, rfl, rfl, rfl, rfl, rfl⟩

/-- C6: on a block whose offset array is strictly key-sorted, `find_pos`
returns a pair `(pos, cmp)` with `pos ≤ nr_items`, every item before `pos`
has a key below the search key, `cmp = 0` exactly when the item at `pos`
holds the search key, `cmp < 0` exactly marks the insertion slot whose item
(if any) has a greater key, and `pos = nr_items` exactly when the search
key exceeds every key in the block. -/
theorem c6_find_pos_spec (bt : Block) (key : Nat)
    (hs : asc (block_keys bt) = true) :
    (find_pos bt key).1 ≤ bt.nr_items ∧
    (∀ i, i < (find_pos bt key).1 → key_at bt i < key) ∧
    ((find_pos bt key).2 = 0 ↔
      (find_pos bt key).1 < bt.nr_items ∧ key_at bt (find_pos bt key).1 = key) ∧
    ((find_pos bt key).1 < bt.nr_items → key < key_at bt (find_pos bt key).1 →
      (find_pos bt key).2 < 0) ∧
    ((find_pos bt key).2 < 0 → (find_pos bt key).1 < bt.nr_items →
      key < key_at bt (find_pos bt key).1) ∧
    ((find_pos bt key).1 = bt.nr_items ↔
      ∀ i, i < bt.nr_items → key_at bt i < key) := by
  rcases find_pos_spec bt key hs with ⟨h1, h2, h3⟩
  refine ⟨h1, h2, ?_, ?_, ?_, ?_⟩
  · constructor
    · intro hz
      rcases h3 with ⟨_, hlt, heq⟩ | ⟨hneg, _⟩
      · exact ⟨hlt, heq⟩
      · omega
    · intro ⟨hlt, heq⟩
      rcases h3 with ⟨hz, _, _⟩ | ⟨hneg, hup⟩
      · exact hz
      · have := hup _ (le_refl _) hlt
        omega
  · intro hlt hgt
    rcases h3 with ⟨_, _, heq⟩ | ⟨hneg, _⟩
    · omega
    · exact hneg
  · intro hneg hlt
    rcases h3 with ⟨hz, _, _⟩ | ⟨_, hup⟩
    · omega
    · exact hup _ (le_refl _) hlt
  · constructor
    · intro he i hi
      exact h2 i (by omega)
    · intro hall
      rcases Nat.eq_or_lt_of_le h1 with heq | hlt
      · exact heq
      · rcases h3 with ⟨_, hlt2, heq⟩ | ⟨_, hup⟩
        · have := hall _ hlt2
          omega
        · have := hup _ (le_refl _) hlt
          have := hall _ hlt
          omega

/-- Witness for C6 at a concrete sorted block and key. -/
theorem c6_find_pos_spec_witness :
    asc (block_keys wblock) = true ∧
    ((find_pos wblock 6).1 ≤ wblock.nr_items ∧
      (∀ i, i < (find_pos wblock 6).1 → key_at wblock i < 6) ∧
      ((find_pos wblock 6).2 = 0 ↔
        (find_pos wblock 6).1 < wblock.nr_items ∧
          key_at wblock (find_pos wblock 6).1 = 6) ∧
      ((find_pos wblock 6).1 < wblock.nr_items →
        6 < key_at wblock (find_pos wblock 6).1 → (find_pos wblock 6).2 < 0) ∧
      ((find_pos wblock 6).2 < 0 → (find_pos wblock 6).1 < wblock.nr_items →
        6 < key_at wblock (find_pos wblock 6).1) ∧
      ((find_pos wblock 6).1 = wblock.nr_items ↔
        ∀ i, i < wblock.nr_items → key_at wblock i < 6)) :=
  ⟨by decide, c6_find_pos_spec wblock 6 (by decide)⟩

/-- C8: on a well-formed block — strictly key-sorted, with consistent space
bookkeeping — `compact_items` preserves the key-sorted sequence of items
(each key, seq and value unchanged), clears `free_reclaim`, makes
`contig_free` equal to the block's `reclaimable_free` before the call, and
repacks every item contiguously against the back of the block above the new
`free_end`. -/
theorem c8_compact_items_spec (bt : Block) (hs : asc (block_keys bt) = true)
    (hsp : space_ok bt = true) :
    (compact_items bt).entries.map (fun e => e.2) =
      bt.entries.map (fun e => e.2) ∧
    (compact_items bt).free_reclaim = 0 ∧
    contig_free (compact_items bt) = reclaimable_free bt ∧
    packed_between (compact_items bt).free_end SCOUTFS_BLOCK_SIZE
      (compact_packed bt) := by
  unfold space_ok at hsp
  rw [Bool.and_eq_true, decide_eq_true_iff, decide_eq_true_iff] at hsp
  have hle : ents_bytes bt.entries ≤ SCOUTFS_BLOCK_SIZE := by omega
  have hperm1 : (compact_byoff bt).Perm bt.entries := List.mergeSort_perm _ _
  have hble : ents_bytes (compact_byoff bt) ≤ SCOUTFS_BLOCK_SIZE := by
    rw [ents_bytes_perm hperm1]
    exact hle
  refine ⟨compact_items_entries bt hs, rfl, ?_, ?_⟩
  · have hfe : (compact_items bt).free_end = compact_end bt := rfl
    have hnr := compact_items_nr bt
    unfold contig_free reclaimable_free contig_free
    rw [hfe, hnr, compact_end_eq bt hle]
    simp only [SCOUTFS_BLOCK_SIZE, BTREE_HDR_SIZE, OFF_SIZE] at hsp ⊢
    omega
  · have hfe : (compact_items bt).free_end = compact_end bt := rfl
    rw [hfe]
    exact compact_entries_packed (compact_byoff bt) SCOUTFS_BLOCK_SIZE hble

/-- Witness for C8 at a concrete fragmented block. -/
theorem c8_compact_items_spec_witness :
    asc (block_keys wblock) = true ∧ space_ok wblock = true ∧
    ((compact_items wblock).entries.map (fun e => e.2) =
        wblock.entries.map (fun e => e.2) ∧
      (compact_items wblock).free_reclaim = 0 ∧
      contig_free (compact_items wblock) = reclaimable_free wblock ∧
      packed_between (compact_items wblock).free_end SCOUTFS_BLOCK_SIZE
        (compact_packed wblock)) :=
  ⟨by decide, by decide, c8_compact_items_spec wblock (by decide) (by decide)⟩

/-- C9: each in-block mutation preserves the strict key order of the offset
array: `create_item` at the slot `find_pos` chose for a missing key,
`delete_item` at any position, `compact_items`, and `move_items` between
sibling blocks whose key ranges are on the proper sides. -/
theorem c9_mutations_preserve_sorted :
    (∀ bt key vlen, asc (block_keys bt) = true → (find_pos bt key).2 ≠ 0 →
      asc (block_keys (create_item bt (find_pos bt key).1 key vlen)) = true) ∧
    (∀ bt pos, asc (block_keys bt) = true →
      asc (block_keys (delete_item bt pos)) = true) ∧
    (∀ bt, asc (block_keys bt) = true →
      asc (block_keys (compact_items bt)) = true) ∧
    (∀ dst src tm, asc (block_keys dst) = true → asc (block_keys src) = true →
      (∀ x ∈ block_keys dst, ∀ y ∈ block_keys src, x < y) →
      asc (block_keys (move_items dst src false tm).1) = true ∧
      asc (block_keys (move_items dst src false tm).2) = true) ∧
    (∀ dst src tm, asc (block_keys dst) = true → asc (block_keys src) = true →
      (∀ x ∈ block_keys src, ∀ y ∈ block_keys dst, x < y) →
      asc (block_keys (move_items dst src true tm).1) = true ∧
      asc (block_keys (move_items dst src true tm).2) = true) := by
  refine ⟨?_, ?_, ?_, ?_, ?_⟩
  · intro bt key vlen hs hne
    rcases find_pos_spec bt key hs with ⟨h1, h2, h3⟩
    rcases h3 with ⟨hz, _, _⟩ | ⟨hneg, hup⟩
    · exact absurd hz hne
    · exact create_item_asc bt (find_pos bt key).1 key vlen hs h1 h2 hup
  · intro bt pos hs
    exact delete_item_asc bt pos hs
  · intro bt hs
    exact compact_items_asc bt hs
  · intro dst src tm hd hs hcross
    exact move_items_false_asc dst src tm hd hs hcross
  · intro dst src tm hd hs hcross
    exact move_items_true_asc dst src tm hd hs hcross

/-- Witness for C9: the preservation statements applied to concrete blocks. -/
theorem c9_mutations_preserve_sorted_witness :
    (asc (block_keys wblock) = true ∧ (find_pos wblock 4).2 ≠ 0 ∧
      asc (block_keys (create_item wblock (find_pos wblock 4).1 4 2)) = true) ∧
    asc (block_keys (delete_item wblock 0)) = true ∧
    asc (block_keys (compact_items wblock)) = true ∧
    asc (block_keys (move_items (delete_item wblock 1) leaf5 false 100).1) = true := by
  refine ⟨⟨by decide, by decide, ?_⟩, ?_, ?_, ?_⟩
  · exact (c9_mutations_preserve_sorted).1 wblock 4 2 (by decide) (by decide)
  · exact (c9_mutations_preserve_sorted).2.1 wblock 0 (by decide)
  · exact (c9_mutations_preserve_sorted).2.2.1 wblock (by decide)
  · exact ((c9_mutations_preserve_sorted).2.2.2.1 (delete_item wblock 1) leaf5 100
      (by decide) (by decide) (by decide)).1

/-- C10 counterexample: the claim quantifies over every starting position,
but starting `next_pos_seq` at `pos = nr_items` (here the empty block of
the empty-tree walk) returns `nr_items + 1`, exceeding `nr_items`. -/
theorem c10_counterexample :
    ¬ next_pos_seq (⟨9, 0, SCOUTFS_BLOCK_SIZE, 0, []⟩ : Block) 0 0 0 .next ≤
      (⟨9, 0, SCOUTFS_BLOCK_SIZE, 0, []⟩ : Block).nr_items := by
  decide

/-- C10 (amended): for every block and every starting position strictly
below `nr_items`, the seq-skipping advance `next_pos_seq` returns a
position at most `nr_items`; the skip predicate is false at every position
at or past `nr_items` (the loop never reads an item past the offset
array); and under any op other than NEXT_SEQ the advance returns the
immediate successor position.  (Termination is the totality of
`next_pos_seq`, established by the same bound the skip predicate
enforces.) -/
theorem c10_next_pos_seq_spec (bt : Block) (pos level seq : Nat) (op : WalkOp) :
    (pos < bt.nr_items → next_pos_seq bt pos level seq op ≤ bt.nr_items) ∧
    (∀ p, bt.nr_items ≤ p → skip_pos_seq bt p level seq op = false) ∧
    (op ≠ .nextSeq → next_pos_seq bt pos level seq op = pos + 1) := by
  refine ⟨fun h => next_pos_seq_le bt pos level seq op h, ?_, ?_⟩
  · intro p hp
    exact skip_pos_seq_oob bt p level seq op hp
  · intro hop
    exact next_pos_seq_succ bt pos level seq op hop

/-- Witness for C10's amended statement on a concrete block. -/
theorem c10_next_pos_seq_spec_witness :
    (0 < wblock.nr_items ∧ next_pos_seq wblock 0 0 2 .nextSeq ≤ wblock.nr_items) ∧
    (WalkOp.next ≠ WalkOp.nextSeq ∧ next_pos_seq wblock 0 0 0 .next = 1) :=
  ⟨⟨by decide, (c10_next_pos_seq_spec wblock 0 0 2 .nextSeq).1 (by decide)⟩,
    ⟨by decide, (c10_next_pos_seq_spec wblock 0 0 0 .next).2.2 (by decide)⟩⟩

theorem split_left0_blkno (s : TreeState) : (split_left0 s).blkno = s.next_blkno :=
  rfl

theorem create_parent_item_blkno (p : Block) (pos : Nat) (child : Block)
    (k : Nat) : (create_parent_item p pos child k).blkno = p.blkno := by
  unfold create_parent_item set_item_val
  cases hq : (create_item p pos k REF_SIZE).entries.get? pos <;> rfl

/-- C3: during an INSERT descent, with `need` the bytes for an item of the
given value length (replaced by a block-ref at non-leaf levels), `try_split`
does nothing when `contig_free ≥ need`; only compacts when
`contig_free < need ≤ reclaimable_free`; and otherwise allocates a fresh
left sibling, moves the lower half (`used_total/2` bytes' worth of items)
of the block into it, inserts a parent item referencing the left sibling
keyed by `greatest_key(left)` (growing a new root parent that references
the original block under the maximum-key sentinel when there is no parent),
and returns the left sibling when the search key is at most
`greatest_key(left)`, else the original right block, compacted again if its
contiguous free space is still short. -/
theorem c3_try_split_spec (s : TreeState) (level : Nat) (key val_len0 : Nat)
    (pinfo : Option (Nat × Nat)) (right : Block) :
    (all_val_bytes (if level ≠ 0 then REF_SIZE else val_len0) ≤
        contig_free right →
      try_split s level key val_len0 pinfo right = (right, s)) ∧
    (contig_free right < all_val_bytes (if level ≠ 0 then REF_SIZE else val_len0) →
      all_val_bytes (if level ≠ 0 then REF_SIZE else val_len0) ≤
        reclaimable_free right →
      try_split s level key val_len0 pinfo right =
        (compact_items right, s.put (compact_items right))) ∧
    (reclaimable_free right <
        all_val_bytes (if level ≠ 0 then REF_SIZE else val_len0) →
      (scoutfs_key_cmp key (greatest_key (split_moved s right).1) ≤ 0 →
        (try_split s level key val_len0 pinfo right).1 = (split_moved s right).1) ∧
      (0 < scoutfs_key_cmp key (greatest_key (split_moved s right).1) →
        (try_split s level key val_len0 pinfo right).1 =
          (if contig_free (split_moved s right).2 <
              all_val_bytes (if level ≠ 0 then REF_SIZE else val_len0) then
            compact_items (split_moved s right).2
          else (split_moved s right).2)) ∧
      (∀ pb pp p, pinfo = some (pb, pp) → pb ≠ right.blkno →
        pb ≠ s.next_blkno → s.store pb = some p → p.blkno = pb →
        (try_split s level key val_len0 pinfo right).2.store pb =
          some (create_parent_item p pp (split_moved s right).1
            (greatest_key (split_moved s right).1))) ∧
      (pinfo = none → right.blkno ≠ s.next_blkno + 1 →
        (try_split s level key val_len0 pinfo right).2.root.height =
          s.root.height + 1 ∧
        (try_split s level key val_len0 pinfo right).2.root.ref.blkno =
          s.next_blkno + 1 ∧
        ∃ p', (try_split s level key val_len0 pinfo right).2.store
            (s.next_blkno + 1) = some p' ∧
          p'.entries.map (fun e => e.2) =
            [⟨greatest_key (split_moved s right).1, s.dirty_seq,
                .bref ⟨s.next_blkno, s.dirty_seq⟩⟩,
              ⟨SCOUTFS_MAX_KEY, s.dirty_seq, .bref ⟨right.blkno, right.seq⟩⟩])) := by
  have hcr : contig_free right ≤ reclaimable_free right := Nat.le_add_right _ _
  refine ⟨?_, ?_, ?_⟩
  · intro h
    simp only [try_split]
    rw [if_pos h]
  · intro h1 h2
    simp only [try_split]
    rw [if_neg (by omega), if_pos h2]
  · intro h
    have h1 : ¬ all_val_bytes (if level ≠ 0 then REF_SIZE else val_len0) ≤
        contig_free right := by omega
    have h2 : ¬ all_val_bytes (if level ≠ 0 then REF_SIZE else val_len0) ≤
        reclaimable_free right := by omega
    rcases move_items_blkno_seq (split_left0 s) right false
      ((used_total right / 2 : Nat) : Int) with ⟨⟨hlb, hls⟩, hrb, hrs⟩
    refine ⟨?_, ?_, ?_, ?_⟩
    · intro hkey
      simp only [try_split]
      rw [if_neg h1, if_neg h2]
      simp only [split_moved, split_left0] at hkey ⊢
      rw [if_pos hkey]
    · intro hkey
      simp only [try_split]
      rw [if_neg h1, if_neg h2]
      simp only [split_moved, split_left0] at hkey ⊢
      rw [if_neg (by omega)]
    · intro pb pp p hpi hne1 hne2 hsp hpblk
      subst hpi
      simp only [try_split, try_split_parent]
      rw [if_neg h1, if_neg h2]
      simp only [split_moved, split_left0] at hlb hls hrb hrs ⊢
      have hs4 : store_put (store_put (store_put s.store (alloc_tree_block s).1)
          (move_items (alloc_tree_block s).1 right false
            ((used_total right / 2 : Nat) : Int)).1)
          (move_items (alloc_tree_block s).1 right false
            ((used_total right / 2 : Nat) : Int)).2 pb = some p := by
        rw [store_put_ne _ _ _ (by rw [hrb]; exact hne1),
          store_put_ne _ _ _ (by rw [hlb]; exact hne2),
          store_put_ne _ _ _ hne2]
        exact hsp
      show (if scoutfs_key_cmp key _ ≤ 0 then _ else _ : Block × TreeState).2.store pb = _
      rw [show (((alloc_tree_block s).2.put
          (move_items (alloc_tree_block s).1 right false
            ((used_total right / 2 : Nat) : Int)).1).put
          (move_items (alloc_tree_block s).1 right false
            ((used_total right / 2 : Nat) : Int)).2).store pb = some p from hs4]
      by_cases hkey : scoutfs_key_cmp key (greatest_key
          (move_items (alloc_tree_block s).1 right false
            ((used_total right / 2 : Nat) : Int)).1) ≤ 0
      · rw [if_pos hkey]
        show store_put _ _ pb = _
        have hc : (create_parent_item p pp
            (move_items (alloc_tree_block s).1 right false
              ((used_total right / 2 : Nat) : Int)).1
            (greatest_key (move_items (alloc_tree_block s).1 right false
              ((used_total right / 2 : Nat) : Int)).1)).blkno = pb := by
          rw [create_parent_item_blkno]
          exact hpblk
        rw [← hc, store_put_eq]
      · rw [if_neg hkey]
        show store_put _ _ pb = _
        have hr2 : (if contig_free (move_items (alloc_tree_block s).1 right false
              ((used_total right / 2 : Nat) : Int)).2 <
                all_val_bytes (if level ≠ 0 then REF_SIZE else val_len0) then
              compact_items ((move_items (alloc_tree_block s).1 right false
                ((used_total right / 2 : Nat) : Int)).2)
            else (move_items (alloc_tree_block s).1 right false
              ((used_total right / 2 : Nat) : Int)).2).blkno = right.blkno := by
          by_cases hcf : contig_free (move_items (alloc_tree_block s).1 right false
              ((used_total right / 2 : Nat) : Int)).2 <
                all_val_bytes (if level ≠ 0 then REF_SIZE else val_len0)
          · rw [if_pos hcf]
            exact (compact_items_blkno_seq _).1.trans hrb
          · rw [if_neg hcf]
            exact hrb
        rw [store_put_ne _ _ _ (by rw [hr2]; exact hne1)]
        show store_put _ _ pb = _
        have hc : (create_parent_item p pp
            (move_items (alloc_tree_block s).1 right false
              ((used_total right / 2 : Nat) : Int)).1
            (greatest_key (move_items (alloc_tree_block s).1 right false
              ((used_total right / 2 : Nat) : Int)).1)).blkno = pb := by
          rw [create_parent_item_blkno]
          exact hpblk
        rw [← hc, store_put_eq]
    · intro hpi hrt
      subst hpi
      simp only [try_split, try_split_parent]
      rw [if_neg h1, if_neg h2]
      simp only [split_moved, split_left0] at hlb hls hrb hrs ⊢
      have hpb1 : (create_parent_item (grow_tree (alloc_tree_block s).2).1 0 right
          SCOUTFS_MAX_KEY).blkno = s.next_blkno + 1 := by
        rw [create_parent_item_blkno]
        rfl
      rw [hpb1]
      have hs4d : ((((grow_tree (alloc_tree_block s).2).2.put
          (create_parent_item (grow_tree (alloc_tree_block s).2).1 0 right
            SCOUTFS_MAX_KEY)).put
          (move_items (alloc_tree_block s).1 right false
            ((used_total right / 2 : Nat) : Int)).1).put
          (move_items (alloc_tree_block s).1 right false
            ((used_total right / 2 : Nat) : Int)).2).store (s.next_blkno + 1) =
          some (create_parent_item (grow_tree (alloc_tree_block s).2).1 0 right
            SCOUTFS_MAX_KEY) := by
        show store_put _ _ _ = _
        rw [store_put_ne _ _ _ (by rw [hrb]; exact fun he => hrt he.symm)]
        show store_put _ _ _ = _
        rw [store_put_ne _ _ _ (by rw [hlb]; exact Nat.succ_ne_self s.next_blkno)]
        show store_put _ _ _ = _
        rw [← hpb1, store_put_eq]
      rw [hs4d]
      have hPb : (create_parent_item
          (create_parent_item (grow_tree (alloc_tree_block s).2).1 0 right
            SCOUTFS_MAX_KEY) 0
          (move_items (alloc_tree_block s).1 right false
            ((used_total right / 2 : Nat) : Int)).1
          (greatest_key (move_items (alloc_tree_block s).1 right false
            ((used_total right / 2 : Nat) : Int)).1)).blkno = s.next_blkno + 1 := by
        rw [create_parent_item_blkno]
        exact hpb1
      have hLb : (move_items (alloc_tree_block s).1 right false
          ((used_total right / 2 : Nat) : Int)).1.blkno = s.next_blkno := hlb.trans rfl
      have hLs : (move_items (alloc_tree_block s).1 right false
          ((used_total right / 2 : Nat) : Int)).1.seq = s.dirty_seq := hls.trans rfl
      have hmap : (create_parent_item
          (create_parent_item (grow_tree (alloc_tree_block s).2).1 0 right
            SCOUTFS_MAX_KEY) 0
          (move_items (alloc_tree_block s).1 right false
            ((used_total right / 2 : Nat) : Int)).1
          (greatest_key (move_items (alloc_tree_block s).1 right false
            ((used_total right / 2 : Nat) : Int)).1)).entries.map (fun e => e.2) =
          [⟨greatest_key (move_items (alloc_tree_block s).1 right false
              ((used_total right / 2 : Nat) : Int)).1, s.dirty_seq,
              .bref ⟨s.next_blkno, s.dirty_seq⟩⟩,
            ⟨SCOUTFS_MAX_KEY, s.dirty_seq, .bref ⟨right.blkno, right.seq⟩⟩] := by
        have hmap0 : (create_parent_item
            (create_parent_item (grow_tree (alloc_tree_block s).2).1 0 right
              SCOUTFS_MAX_KEY) 0
            (move_items (alloc_tree_block s).1 right false
              ((used_total right / 2 : Nat) : Int)).1
            (greatest_key (move_items (alloc_tree_block s).1 right false
              ((used_total right / 2 : Nat) : Int)).1)).entries.map (fun e => e.2) =
            [⟨greatest_key (move_items (alloc_tree_block s).1 right false
                ((used_total right / 2 : Nat) : Int)).1, s.dirty_seq,
                .bref ⟨(move_items (alloc_tree_block s).1 right false
                  ((used_total right / 2 : Nat) : Int)).1.blkno,
                  (move_items (alloc_tree_block s).1 right false
                    ((used_total right / 2 : Nat) : Int)).1.seq⟩⟩,
              ⟨SCOUTFS_MAX_KEY, s.dirty_seq, .bref ⟨right.blkno, right.seq⟩⟩] := rfl
        rw [hmap0, hLb, hLs]
      by_cases hkey : scoutfs_key_cmp key (greatest_key
          (move_items (alloc_tree_block s).1 right false
            ((used_total right / 2 : Nat) : Int)).1) ≤ 0
      · rw [if_pos hkey]
        refine ⟨rfl, rfl, _, ?_, hmap⟩
        show store_put _ _ _ = _
        rw [← hPb, store_put_eq]
      · rw [if_neg hkey]
        refine ⟨rfl, rfl, _, ?_, hmap⟩
        show store_put _ _ _ = _
        have hr2d : (if contig_free (move_items (alloc_tree_block s).1 right false
              ((used_total right / 2 : Nat) : Int)).2 <
                all_val_bytes (if level ≠ 0 then REF_SIZE else val_len0) then
              compact_items ((move_items (alloc_tree_block s).1 right false
                ((used_total right / 2 : Nat) : Int)).2)
            else (move_items (alloc_tree_block s).1 right false
              ((used_total right / 2 : Nat) : Int)).2).blkno = right.blkno := by
          by_cases hcf : contig_free (move_items (alloc_tree_block s).1 right false
              ((used_total right / 2 : Nat) : Int)).2 <
                all_val_bytes (if level ≠ 0 then REF_SIZE else val_len0)
          · rw [if_pos hcf]
            exact (compact_items_blkno_seq _).1.trans hrb
          · rw [if_neg hcf]
            exact hrb
        rw [store_put_ne _ _ _ (by rw [hr2d]; exact fun he => hrt he.symm)]
        show store_put _ _ _ = _
        rw [← hPb, store_put_eq]

/-- Witness for C3: on a concrete overfull leaf with no parent, the split
hypotheses hold and the tree grows a new root over the fresh left sibling. -/
theorem c3_try_split_spec_witness :
    reclaimable_free fullb < all_val_bytes (if (1 : Nat) ≠ 0 then REF_SIZE else 5) ∧
    fullb.blkno ≠ state5.next_blkno + 1 ∧
    (try_split state5 1 4 5 none fullb).2.root.height = state5.root.height + 1 ∧
    (try_split state5 1 4 5 none fullb).2.root.ref.blkno = state5.next_blkno + 1 :=
  ⟨by decide, by decide,
    (((c3_try_split_spec state5 1 4 5 none fullb).2.2 (by decide)).2.2.2 rfl
      (by decide)).1,
    (((c3_try_split_spec state5 1 4 5 none fullb).2.2 (by decide)).2.2.2 rfl
      (by decide)).2.1⟩

/-- C4: during a DELETE descent with a parent, `try_merge` acts only when
`reclaimable_free(bt) > FREE_LIMIT`.  It then reads the left sibling when the
block's parent position is positive and otherwise the right sibling, moves
`to_move = used_total(sib)` bytes when the whole sibling fits into
`reclaimable_free(bt)` and otherwise `reclaimable_free(bt) - FREE_LIMIT`
(compacting first if the contiguous space is short), returns the merged
block to continue through; the parent ends up holding the re-dirtied
sibling ref with the separators updated — `bt`'s when items came from the
right, the sibling's when items came from the left — with the sibling's
item deleted and its block freed when it was drained; and when the parent
is left with exactly one child the root height drops, the root ref points
at the merged block, and the parent block is freed. -/
theorem c4_try_merge_spec (s : TreeState) (parent_blkno pos : Nat)
    (bt parent sib0 : Block) (sp1 : Nat) (mr : Bool) (ent : Nat × Item)
    (tm : Int) (bt1 ms1 ms2 P1 P2 pfin : Block) :
    (reclaimable_free bt ≤ SCOUTFS_BTREE_FREE_LIMIT →
      try_merge s parent_blkno pos bt = (bt, s)) ∧
    (SCOUTFS_BTREE_FREE_LIMIT < reclaimable_free bt →
      s.store parent_blkno = some parent →
      (if 0 < pos then (pos - 1, true) else (pos + 1, false)) = (sp1, mr) →
      parent.entries.get? sp1 = some ent →
      s.store (item_bref ent.2).blkno = some sib0 →
      tm = (if used_total { sib0 with seq := s.dirty_seq } ≤ reclaimable_free bt
        then ((used_total { sib0 with seq := s.dirty_seq } : Nat) : Int)
        else (reclaimable_free bt : Int) - SCOUTFS_BTREE_FREE_LIMIT) →
      bt1 = (if (contig_free bt : Int) < tm then compact_items bt else bt) →
      move_items bt1 { sib0 with seq := s.dirty_seq } mr tm = (ms1, ms2) →
      P1 = set_item_val parent sp1 (.bref ⟨sib0.blkno, s.dirty_seq⟩) →
      P2 = (if mr = false then set_item_key P1 pos (greatest_key ms1) else P1) →
      pfin = (if ms2.nr_items = 0 then delete_item P2 sp1
        else if mr then set_item_key P2 sp1 (greatest_key ms2) else P2) →
      (try_merge s parent_blkno pos bt).1 = ms1 ∧
      (parent.blkno = parent_blkno → pfin.nr_items ≠ 1 →
        (try_merge s parent_blkno pos bt).2.store parent_blkno = some pfin ∧
        (ms2.nr_items = 0 → sib0.blkno ≠ parent_blkno →
          (try_merge s parent_blkno pos bt).2.store sib0.blkno = none)) ∧
      (parent.blkno = parent_blkno → pfin.nr_items = 1 →
        (try_merge s parent_blkno pos bt).2.root.height = s.root.height - 1 ∧
        (try_merge s parent_blkno pos bt).2.root.ref.blkno = bt.blkno ∧
        (try_merge s parent_blkno pos bt).2.root.ref.seq = ms1.seq ∧
        (try_merge s parent_blkno pos bt).2.store parent_blkno = none)) := by
  constructor
  · intro hg
    simp only [try_merge]
    rw [if_pos hg]
  · intro hg hp hsp hent hsib htm hbt1 hms hP1 hP2 hpfin
    simp only [try_merge]
    rw [if_neg (by omega), hp, hsp]
    simp only [hent, hsib, ← htm, ← hbt1, hms, ← hP1, ← hP2, ← hpfin]
    have hms1b : ms1.blkno = bt.blkno := by
      have h0 := (move_items_blkno_seq bt1 { sib0 with seq := s.dirty_seq } mr tm).1.1
      rw [hms] at h0
      have h1 : ms1.blkno = bt1.blkno := h0
      rw [h1, hbt1]
      by_cases hc : (contig_free bt : Int) < tm
      · rw [if_pos hc]
        exact (compact_items_blkno_seq bt).1
      · rw [if_neg hc]
    have hms2b : ms2.blkno = sib0.blkno := by
      have h0 := (move_items_blkno_seq bt1 { sib0 with seq := s.dirty_seq } mr tm).2.1
      rw [hms] at h0
      exact h0
    have hP1b : P1.blkno = parent.blkno := by
      rw [hP1]
      exact (set_item_val_blkno_seq _ _ _).1
    have hP2b : P2.blkno = parent.blkno := by
      rw [hP2]
      by_cases hmr : mr = false
      · rw [if_pos hmr]
        exact (set_item_key_blkno_seq _ _ _).1.trans hP1b
      · rw [if_neg hmr]
        exact hP1b
    have hpfinb : pfin.blkno = parent.blkno := by
      rw [hpfin]
      by_cases hdr : ms2.nr_items = 0
      · rw [if_pos hdr]
        exact (delete_item_blkno_seq2 _ _).1.trans hP2b
      · rw [if_neg hdr]
        by_cases hmr : mr = true
        · rw [if_pos hmr]
          exact (set_item_key_blkno_seq _ _ _).1.trans hP2b
        · rw [if_neg hmr]
          exact hP2b
    have hpp : ∀ h : parent.blkno = parent_blkno, parent_blkno = pfin.blkno :=
      fun h => (hpfinb.trans h).symm
    by_cases hdr : ms2.nr_items = 0
    · rw [if_pos hdr] at hpfin
      rw [if_pos hdr, ← hpfin]
      simp only []
      by_cases hcol : pfin.nr_items = 1
      · rw [if_pos hcol]
        refine ⟨rfl, ?_, ?_⟩
        · intro hpb hne1
          exact absurd hcol hne1
        · intro hpb hcol2
          refine ⟨rfl, hms1b, rfl, ?_⟩
          show store_del _ _ _ = _
          rw [hpp hpb]
          exact store_del_eq _ _
      · rw [if_neg hcol]
        refine ⟨rfl, ?_, ?_⟩
        · intro hpb hne1
          constructor
          · show store_put _ _ _ = _
            rw [hpp hpb]
            exact store_put_eq _ _
          · intro hdr2 hnsp
            show store_put _ _ _ = _
            rw [store_put_ne _ _ _ (fun he => hnsp (he.trans (hpp hpb).symm))]
            show store_del _ _ _ = _
            rw [hms2b]
            exact store_del_eq _ _
        · intro hpb hcol2
          exact absurd hcol2 hcol
    · rw [if_neg hdr] at hpfin
      rw [if_neg hdr]
      by_cases hmr : mr = true
      · rw [if_pos hmr] at hpfin
        rw [if_pos hmr, ← hpfin]
        simp only []
        by_cases hcol : pfin.nr_items = 1
        · rw [if_pos hcol]
          refine ⟨rfl, ?_, ?_⟩
          · intro hpb hne1
            exact absurd hcol hne1
          · intro hpb hcol2
            refine ⟨rfl, hms1b, rfl, ?_⟩
            show store_del _ _ _ = _
            rw [hpp hpb]
            exact store_del_eq _ _
        · rw [if_neg hcol]
          refine ⟨rfl, ?_, ?_⟩
          · intro hpb hne1
            constructor
            · show store_put _ _ _ = _
              rw [hpp hpb]
              exact store_put_eq _ _
            · intro hdr2 hnsp
              exact absurd hdr2 hdr
          · intro hpb hcol2
            exact absurd hcol2 hcol
      · rw [if_neg hmr] at hpfin
        rw [if_neg hmr, ← hpfin]
        simp only []
        by_cases hcol : pfin.nr_items = 1
        · rw [if_pos hcol]
          refine ⟨rfl, ?_, ?_⟩
          · intro hpb hne1
            exact absurd hcol hne1
          · intro hpb hcol2
            refine ⟨rfl, hms1b, rfl, ?_⟩
            show store_del _ _ _ = _
            rw [hpp hpb]
            exact store_del_eq _ _
        · rw [if_neg hcol]
          refine ⟨rfl, ?_, ?_⟩
          · intro hpb hne1
            constructor
            · show store_put _ _ _ = _
              rw [hpp hpb]
              exact store_put_eq _ _
            · intro hdr2 hnsp
              exact absurd hdr2 hdr
          · intro hpb hcol2
            exact absurd hcol2 hcol

/-- Witness for C4: on a concrete height-2 tree a merge drains the left
sibling into the fetched leaf; the sibling's parent item is deleted, its
block is freed, and the merged leaf is returned. -/
theorem c4_try_merge_spec_witness :
    SCOUTFS_BTREE_FREE_LIMIT < reclaimable_free mc12 ∧
    (try_merge mstate4 7 1 mc12).1 = mms1 ∧
    (try_merge mstate4 7 1 mc12).2.store 7 = some mpfin ∧
    (try_merge mstate4 7 1 mc12).2.store 11 = none :=
  ⟨by decide,
    ((c4_try_merge_spec mstate4 7 1 mc12 mp7 mc11 0 true
        (4062, ⟨3, 2, .bref ⟨11, 4⟩⟩) 21 mc12 mms1 mms2 mP1 mP1 mpfin).2
      (by decide) rfl rfl rfl rfl (by decide) rfl rfl rfl rfl rfl).1,
    (((c4_try_merge_spec mstate4 7 1 mc12 mp7 mc11 0 true
        (4062, ⟨3, 2, .bref ⟨11, 4⟩⟩) 21 mc12 mms1 mms2 mP1 mP1 mpfin).2
      (by decide) rfl rfl rfl rfl (by decide) rfl rfl rfl rfl rfl).2.1 rfl
      (by decide)).1,
    ((((c4_try_merge_spec mstate4 7 1 mc12 mp7 mc11 0 true
        (4062, ⟨3, 2, .bref ⟨11, 4⟩⟩) 21 mc12 mms1 mms2 mP1 mP1 mpfin).2
      (by decide) rfl rfl rfl rfl (by decide) rfl rfl rfl rfl rfl).2.1 rfl
      (by decide)).2 rfl (by decide))⟩

/-- C2 counterexample: with `last` equal to the maximum-key sentinel the
iteration never completes.  On a single-leaf tree whose item's key lies
below `first`, every walk returns the sentinel as the resume key, so the
leaf-searching loop of `btree_next` re-walks from the sentinel forever: no
fuel suffices (the C loop never exits). -/
theorem c2_counterexample :
    (6 : Nat) ≤ SCOUTFS_MAX_KEY ∧
    ∀ fuel, scoutfs_btree_next fuel state5 6 SCOUTFS_MAX_KEY none = .fuel :=
  ⟨by decide, fun fuel => btree_next_state5_sentinel_fuel fuel⟩

/-- C2 (amended): on a well-formed tree, for bounds with
`last < SCOUTFS_MAX_KEY` (the maximum key is a reserved sentinel; with
`last` equal to it the loop in `btree_next` need not terminate), repeatedly
calling `btree_next` from an empty cursor until it returns 0 yields exactly
the items with `first ≤ key ≤ last` — filtered to those with
`seq ≥ q` under NEXT_SEQ (`since`), all of them under NEXT (`next`) — each
exactly once, in ascending key order. -/
theorem c2_next_since_iterate (s : TreeState) (first last q : Nat)
    (fuel_in fuel_out : Nat) (op : WalkOp)
    (hop : op = .next ∨ op = .nextSeq)
    (hwf : tree_wf s = true) (hlast : last < SCOUTFS_MAX_KEY)
    (hfuel_in : last + 2 ≤ fuel_in)
    (hfuel_out : (range_items s first last q op).length < fuel_out) :
    btree_next_collect first last q op fuel_in fuel_out s none =
      some (range_items s first last q op) ∧
    asc ((range_items s first last q op).map (fun it => it.key)) = true ∧
    (∀ it, it ∈ range_items s first last q op ↔
      (it ∈ tree_items s ∧ first ≤ it.key ∧ it.key ≤ last ∧
        qual_b q op it = true)) := by
  refine ⟨btree_next_collect_spec s q first last op hop hwf hlast fuel_in
    fuel_out hfuel_in hfuel_out, ?_, ?_⟩
  · exact asc_sublist (List.Sublist.map _ (List.filter_sublist _))
      (tree_items_asc s hwf)
  · intro it
    unfold range_items
    rw [List.mem_filter]
    simp only [Bool.and_eq_true, decide_eq_true_eq]
    constructor
    · rintro ⟨h1, ⟨h2, h3⟩, h4⟩
      exact ⟨h1, h2, h3, h4⟩
    · rintro ⟨h1, h2, h3, h4⟩
      exact ⟨h1, ⟨h2, h3⟩, h4⟩

/-- Witness for C2: on the concrete single-leaf tree, iterating `[0, 9]`
yields exactly the one stored item. -/
theorem c2_next_since_iterate_witness :
    tree_wf state5 = true ∧ (9 : Nat) < SCOUTFS_MAX_KEY ∧
    (range_items state5 0 9 0 .next).length < 2 ∧
    btree_next_collect 0 9 0 .next 11 2 state5 none =
      some (range_items state5 0 9 0 .next) :=
  ⟨by decide, by decide, by decide,
    (c2_next_since_iterate state5 0 9 0 11 2 .next (Or.inl rfl) (by decide)
      (by decide) (by decide) (by decide)).1⟩

/-- C5 counterexample: `hole(first, last)` with `last` equal to the
maximum-key sentinel never returns on the single-leaf tree whose item's key
lies below `first`: the first `btree_next` call already loops forever. -/
theorem c5_counterexample :
    (6 : Nat) ≤ SCOUTFS_MAX_KEY ∧
    ∀ fuel_in fuel_out, scoutfs_btree_hole fuel_in fuel_out state5 6
      SCOUTFS_MAX_KEY = .fuel := by
  refine ⟨by decide, ?_⟩
  intro fi fo
  cases fo with
  | zero => rfl
  | succ n =>
    show btree_hole_loop 6 SCOUTFS_MAX_KEY fi (n + 1) state5 none 6 = .fuel
    simp only [btree_hole_loop, btree_next_state5_sentinel_fuel fi]

/-- C5 (amended): on a well-formed tree with `first ≤ last` and `last`
strictly below the maximum-key sentinel (with `last` equal to it the
iteration inside `hole` need not terminate), `hole(first, last)` returns
the least key in `[first, last]` that is not present in the tree, and
returns no-space exactly when every key in `[first, last]` is present. -/
theorem c5_hole_spec (s : TreeState) (first last fuel_in fuel_out : Nat)
    (hwf : tree_wf s = true) (hfl : first ≤ last)
    (hlast : last < SCOUTFS_MAX_KEY) (hfuel_in : last + 2 ≤ fuel_in)
    (hfuel_out : (range_items s first last 0 .next).length + 1 ≤ fuel_out) :
    (∃ h2 s2, scoutfs_btree_hole fuel_in fuel_out s first last =
        .found h2 s2 ∧
      first ≤ h2 ∧ h2 ≤ last ∧
      (∀ x, first ≤ x → x < h2 → ∃ it ∈ tree_items s, it.key = x) ∧
      ¬ ∃ it ∈ tree_items s, it.key = h2) ∨
    (∃ s2, scoutfs_btree_hole fuel_in fuel_out s first last = .nospace s2 ∧
      ∀ x, first ≤ x → x ≤ last → ∃ it ∈ tree_items s, it.key = x) := by
  by_cases hh : s.root.height = 0
  · left
    have htree : tree_items s = [] := by
      unfold tree_items
      rw [if_pos hh]
    cases fuel_out with
    | zero => omega
    | succ n =>
      refine ⟨first, (grow_tree s).2, ?_, Nat.le_refl _, hfl, ?_, ?_⟩
      · show btree_hole_loop first last fuel_in (n + 1) s none first = _
        simp only [btree_hole_loop, btree_next_empty_tree s 0 first last
          .next (Or.inl rfl) hh hlast hfl fuel_in hfuel_in]
        rw [if_neg (by omega), if_pos (scoutfs_key_cmp_nonpos.mpr hfl)]
      · intro x hx1 hx2
        exact absurd hx2 (by omega)
      · rintro ⟨it, hit, _⟩
        rw [htree] at hit
        exact absurd hit (by simp)
  · rcases btree_hole_loop_ind s first last hh hwf hlast hfl fuel_in hfuel_in
        fuel_out none first (Nat.le_refl _)
        (by intro x h1 h2; exact absurd h2 (by omega))
        (Or.inl ⟨rfl, rfl⟩) hfuel_out with
      ⟨h2, heq, ha, hb, hc, hd⟩ | ⟨heq, hall⟩
    · left
      exact ⟨h2, s, heq, ha, hb, hc, hd⟩
    · right
      exact ⟨s, heq, hall⟩

/-- Witness for C5: on the concrete single-leaf tree holding only key 5,
searching `[0, 9]` finds a hole with the promised properties (namely 0). -/
theorem c5_hole_spec_witness :
    tree_wf state5 = true ∧ (0 : Nat) ≤ 9 ∧ (9 : Nat) < SCOUTFS_MAX_KEY ∧
    ((∃ h2 s2, scoutfs_btree_hole 11 2 state5 0 9 = .found h2 s2 ∧
        (0 : Nat) ≤ h2 ∧ h2 ≤ 9 ∧
        (∀ x, 0 ≤ x → x < h2 → ∃ it ∈ tree_items state5, it.key = x) ∧
        ¬ ∃ it ∈ tree_items state5, it.key = h2) ∨
      (∃ s2, scoutfs_btree_hole 11 2 state5 0 9 = .nospace s2 ∧
        ∀ x, (0 : Nat) ≤ x → x ≤ 9 → ∃ it ∈ tree_items state5, it.key = x)) :=
  ⟨by decide, by decide, by decide,
    c5_hole_spec state5 0 9 11 2 (by decide) (by decide) (by decide)
      (by decide) (by decide)⟩
